import Mathlib

/-!
# Dutta–Barua group key exchange (`lcm/lcmsec/gkexchg.cpp`)

A shallow embedding of `Dutta_Barua_GKE` (message handler, the two rounds and the
key computation) together with the properties established about it.

Conventions of the embedding

* `Botan::BigInt` values are natural numbers: every big integer the code handles is
  produced by `binary_decode`, `power_mod`, `inverse_mod`, `*` or `%` on such values.
* `int` values (`u`, `d`, `round`, `participants`) are integers; the ring indices stay
  far below the 32-bit range.
* A byte of `public_value` is the unsigned value (0..255) the Botan routines read
  through the `uint8_t *` cast.
* The event loop, the transport and the signer/verifier are collaborators: the tasks
  posted, the `channel_finished` signals and the published messages are recorded in the
  state, the signer and verifier are parameters.
* An `assert` that fails, or dereferencing an empty `std::optional`, ends the run with
  `Outcome.aborted`; a C++ exception ends it with `Outcome.raised`.
-/

namespace lcmsec_impl

/-! ## Botan big-integer routines (library contract) -/

/-- Fuelled bit counting used by `bits`. -/
def bitsAux : Nat → Nat → Nat
  | 0, _ => 0
  | f + 1, v => if v = 0 then 0 else bitsAux f (v / 2) + 1

/-- Contract of `BigInt::bits()`: the bit length of the value, `0` for zero. -/
def bits (v : Nat) : Nat := bitsAux v v

/-- Contract of `BigInt::binary_encode(buf, len)`: the low `len` bytes of the value,
big-endian, zero padded on the left. -/
def binary_encode : Nat → Nat → List Nat
  | _, 0 => []
  | v, len + 1 => binary_encode (v / 256) len ++ [v % 256]

/-- Contract of `BigInt::binary_decode(buf, len)`: the big-endian value of the bytes. -/
def binary_decode (buf : List Nat) : Nat :=
  buf.foldl (fun acc b => acc * 256 + b) 0

/-- Contract of `Botan::power_mod(base, exp, mod)` for a positive modulus. -/
def power_mod (base exp modulus : Nat) : Nat := base ^ exp % modulus

/-- Extended Euclid on remainders `r0, r1` with the Bézout coefficients `s0, s1` of the
original argument; returns the last non-zero remainder and its coefficient. -/
def egcd_loop : Nat → Nat → Nat → Int → Int → Nat × Int
  | 0, r0, _, s0, _ => (r0, s0)
  | f + 1, r0, r1, s0, s1 =>
    if r1 = 0 then (r0, s0)
    else egcd_loop f r1 (r0 % r1) s1 (s0 - ((r0 / r1 : Nat) : Int) * s1)

/-- Contract of `Botan::inverse_mod(n, mod)` for a positive modulus: the inverse of `n`
modulo `mod` in `[0, mod)`, and `0` when `n` has no inverse. -/
def inverse_mod (n modulus : Nat) : Nat :=
  let r := egcd_loop modulus modulus (n % modulus) 0 1
  if r.1 = 1 then Int.toNat (r.2 % (modulus : Int)) else 0

/-! ## Data model -/

/-- Fields of the LCM type `Dutta_Barua_message` used by the exchange. -/
structure Dutta_Barua_message where
  u : Int
  round : Int
  public_value_size : Int
  public_value : List Nat
  d : Int
  sig_size : Int
  sig : List Nat
deriving DecidableEq, Repr

/-- A default-constructed message (what `std::map::operator[]` inserts): no bytes. -/
instance : Inhabited Dutta_Barua_message :=
  ⟨{ u := 0, round := 0, public_value_size := 0, public_value := [], d := 0,
     sig_size := 0, sig := [] }⟩

/-- A default-constructed `Botan::BigInt` is zero. -/
def BigInt_default : Nat := 0

/-- Model of `std::map<int, V>`: entries in increasing key order, keys unique. -/
structure StdMap (V : Type) where
  entries : List (Int × V)
deriving DecidableEq, Repr

namespace StdMap

/-- Lookup in an entry list. -/
def findEntries {V : Type} : List (Int × V) → Int → Option V
  | [], _ => none
  | (k', v) :: t, k => if k' = k then some v else findEntries t k

/-- Ordered insertion into an entry list, replacing the value of an existing key. -/
def insertEntries {V : Type} : List (Int × V) → Int → V → List (Int × V)
  | [], k, v => [(k, v)]
  | (k', v') :: t, k, v =>
    if k < k' then (k, v) :: (k', v') :: t
    else if k = k' then (k, v) :: t
    else (k', v') :: insertEntries t k v

/-- The empty map. -/
def empty {V : Type} : StdMap V := ⟨[]⟩

/-- Behaviour of `std::map::find`: the stored value, if any. -/
def find {V : Type} (m : StdMap V) (k : Int) : Option V := findEntries m.entries k

/-- Behaviour of `std::map::count`. -/
def count {V : Type} (m : StdMap V) (k : Int) : Nat := if (m.find k).isSome then 1 else 0

/-- Behaviour of `std::map::size`. -/
def size {V : Type} (m : StdMap V) : Nat := m.entries.length

/-- Behaviour of `m[k] = v`. -/
def insert {V : Type} (m : StdMap V) (k : Int) (v : V) : StdMap V :=
  ⟨insertEntries m.entries k v⟩

/-- Behaviour of reading `m[k]`: the stored value, or a default-constructed value that
is inserted under `k` when the key is missing. -/
def index {V : Type} (dflt : V) (m : StdMap V) (k : Int) : V × StdMap V :=
  match m.find k with
  | some v => (v, m)
  | none => (dflt, m.insert k dflt)

end StdMap

/-- Member `uid`: ring position `u` and epoch `d`. -/
structure user_id where
  u : Int
  d : Int
deriving DecidableEq, Repr

/-- The pair `r1_results` (left and right Diffie–Hellman values). -/
structure R1_results where
  left : Nat
  right : Nat
deriving DecidableEq, Repr

/-- The pair `r1_messages` (round-1 messages of the two ring neighbours). -/
structure R1_messages where
  left : Option Dutta_Barua_message
  right : Option Dutta_Barua_message
deriving DecidableEq, Repr

/-- A `Botan::DL_Group`: modulus `p` and generator `g`. -/
structure DL_Group where
  p : Nat
  g : Nat
deriving DecidableEq, Repr

/-- A `Botan::DH_PrivateKey`: secret exponent and its group. -/
structure DH_PrivateKey where
  x : Nat
  group : DL_Group
deriving DecidableEq, Repr

/-- Accessor `get_x()`. -/
def DH_PrivateKey.get_x (k : DH_PrivateKey) : Nat := k.x

/-- Accessor `group_p()`. -/
def DH_PrivateKey.group_p (k : DH_PrivateKey) : Nat := k.group.p

/-- Accessor `get_y()`: the public value `g^x mod p`. -/
def DH_PrivateKey.get_y (k : DH_PrivateKey) : Nat := power_mod k.group.g k.x k.group.p

/-- Modelled from the spec: the enumeration `STATE` of member `state` is declared in
`managed_state.hpp`, which is not among the sources; the spec lists the states
`not_started → round1_sent → round2_sent → key_ready | failed`. -/
inductive STATE where
  | keyexchg_not_started
  | round1_sent
  | round2_sent
  | key_ready
  | failed
deriving DecidableEq, Repr

/-- Tasks the exchange posts with `evloop.push_task`. -/
inductive Task where
  | round2
  | computeKey
deriving DecidableEq, Repr

/-- How a member function ends. -/
inductive Outcome where
  | returned
  | raised (what : String)
  | aborted
deriving DecidableEq, Repr

/-- The signer singleton `DSA_signer::getInst()`. -/
structure DSA_signer where
  db_sign : Dutta_Barua_message → List Nat

/-- The verifier singleton `DSA_verifier::getInst()`. -/
structure DSA_verifier where
  db_verify : Dutta_Barua_message → String → String → Bool

/-- Members of `Dutta_Barua_GKE` read or written by the functions below, followed by
the observable effects on the event loop and on the transport. -/
structure Dutta_Barua_GKE where
  channelname : String
  mcastgroup : String
  groupexchg_channelname : String
  uid : user_id
  participants : Int
  x_i : Option DH_PrivateKey
  r1_messages : R1_messages
  r1_results : R1_results
  r2_finished : Bool
  r2_messages : StdMap Dutta_Barua_message
  partial_session_id : List user_id
  shared_secret : Option Nat
  state : STATE
  evloop_tasks : List Task
  evloop_channel_finished : Nat
  lcm_published : List Dutta_Barua_message
deriving DecidableEq, Repr

/-! ## Operations -/

/-- Source `Dutta_Barua_GKE::sign_and_dispatch`: sign, attach the signature, publish. -/
def sign_and_dispatch (signer : DSA_signer) (s : Dutta_Barua_GKE)
    (msg : Dutta_Barua_message) : Dutta_Barua_GKE :=
  let signature := signer.db_sign msg
  let msg1 := { msg with sig_size := (signature.length : Int), sig := signature }
  { s with lcm_published := s.lcm_published ++ [msg1] }

/-- Source `Dutta_Barua_GKE::db_set_public_value`; `none` is the failed assertion
`bigint != 0`. The buffer holds `bigint.bits()` bytes. -/
def db_set_public_value (msg : Dutta_Barua_message) (bigint : Nat) :
    Option Dutta_Barua_message :=
  if bigint = 0 then none
  else some { msg with public_value_size := (bits bigint : Int),
                       public_value := binary_encode bigint (bits bigint) }

/-- Source `Dutta_Barua_GKE::db_get_public_value`. -/
def db_get_public_value (msg : Dutta_Barua_message) : Nat :=
  binary_decode msg.public_value

/-- Modelled from the spec: `is_left_neighbour` is declared outside the given sources;
the sender is the left neighbour when `sender.u == ((uid.u − 2 + N) mod N) + 1`. -/
def is_left_neighbour (s : Dutta_Barua_GKE) (msg : Dutta_Barua_message) : Bool :=
  decide (msg.u = ((s.uid.u - 2 + s.participants) % s.participants) + 1)

/-- Modelled from the spec: `is_right_neighbour` is declared outside the given sources;
the sender is the right neighbour when `sender.u == (uid.u mod N) + 1`. -/
def is_right_neighbour (s : Dutta_Barua_GKE) (msg : Dutta_Barua_message) : Bool :=
  decide (msg.u = (s.uid.u % s.participants) + 1)

/-- Modelled from the spec: `is_neighbour` is declared outside the given sources; a
round-1 message is for us only when it comes from an immediate ring neighbour. -/
def is_neighbour (s : Dutta_Barua_GKE) (msg : Dutta_Barua_message) : Bool :=
  is_left_neighbour s msg || is_right_neighbour s msg

/-- The storing part of `on_msg` (the `if (msg->round == 1) ... else ...` statement);
`none` is the `throw std::runtime_error` for a round that is neither 1 nor 2. -/
def on_msg_store (s : Dutta_Barua_GKE) (msg : Dutta_Barua_message) :
    Option Dutta_Barua_GKE :=
  if msg.round = 1 then
    let s1 := if is_left_neighbour s msg then
        { s with r1_messages := { s.r1_messages with left := some msg } } else s
    let s2 := if is_right_neighbour s1 msg then
        { s1 with r1_messages := { s1.r1_messages with right := some msg } } else s1
    some s2
  else if msg.round ≠ 2 then none
  else some { s with r2_messages := s.r2_messages.insert msg.u msg }

/-- The two gates at the end of `on_msg` ("Check prerequisites for next round"). -/
def on_msg_gates (s : Dutta_Barua_GKE) : Dutta_Barua_GKE :=
  let s1 := if !s.r2_finished && s.r1_messages.left.isSome && s.r1_messages.right.isSome
    then { s with evloop_tasks := s.evloop_tasks ++ [Task.round2] } else s
  if s1.r2_finished && decide ((s1.r2_messages.size : Int) = s1.participants)
    then { s1 with evloop_tasks := s1.evloop_tasks ++ [Task.computeKey] } else s1

/-- Source `Dutta_Barua_GKE::on_msg`. -/
def on_msg (verifier : DSA_verifier) (s : Dutta_Barua_GKE) (msg : Dutta_Barua_message) :
    Outcome × Dutta_Barua_GKE :=
  if msg.round = 1 ∧ is_neighbour s msg = false then (Outcome.returned, s)
  else if verifier.db_verify msg s.mcastgroup s.channelname = false then
    (Outcome.returned, s)
  else
    match on_msg_store s msg with
    | none =>
      (Outcome.raised ("keyexchange on channel " ++ s.groupexchg_channelname ++
        " failed: faulty message (msg->round) but valid signature"), s)
    | some s1 => (Outcome.returned, on_msg_gates s1)

/-- Source `Dutta_Barua_GKE::round1`; the group is the fixed `modp/ietf/4096` group and
`rng_x` is the exponent the random generator draws for the new private key. -/
def round1 (signer : DSA_signer) (group : DL_Group) (rng_x : Nat) (s : Dutta_Barua_GKE) :
    Outcome × Dutta_Barua_GKE :=
  let s1 := { s with partial_session_id := s.partial_session_id ++ [s.uid] }
  let key : DH_PrivateKey := { x := rng_x, group := group }
  let s2 := { s1 with x_i := some key }
  let X := key.get_y
  let msg : Dutta_Barua_message := { (default : Dutta_Barua_message) with
    u := s2.uid.u, round := 1 }
  match db_set_public_value msg X with
  | none => (Outcome.aborted, s2)
  | some msg1 =>
    let msg2 := { msg1 with d := s2.uid.d }
    (Outcome.returned, sign_and_dispatch signer s2 msg2)

/-- Source `Dutta_Barua_GKE::round2`. A zero modulus makes `inverse_mod` throw. -/
def round2 (signer : DSA_signer) (s : Dutta_Barua_GKE) : Outcome × Dutta_Barua_GKE :=
  match s.r1_messages.left, s.r1_messages.right with
  | some msgleft, some msgright =>
    match s.x_i with
    | none => (Outcome.aborted, s)
    | some key =>
      let x_i_value := key.get_x
      let left_X := db_get_public_value msgleft
      let s1 := { s with r1_results :=
        { s.r1_results with left := power_mod left_X x_i_value key.group_p } }
      let right_X := db_get_public_value msgright
      let s2 := { s1 with r1_results :=
        { s1.r1_results with right := power_mod right_X x_i_value key.group_p } }
      if s2.r1_results.right = 0 then (Outcome.aborted, s2)
      else if s2.r1_results.left = 0 then (Outcome.aborted, s2)
      else if key.group_p = 0 then (Outcome.raised "BigInt::DivideByZero", s2)
      else
        let leftkey_inverse := inverse_mod s2.r1_results.left key.group_p
        let Y := (s2.r1_results.right * leftkey_inverse) % key.group_p
        if Y = 0 then (Outcome.aborted, s2)
        else
          let msg : Dutta_Barua_message := { (default : Dutta_Barua_message) with
            u := s2.uid.u, round := 2 }
          match db_set_public_value msg Y with
          | none => (Outcome.aborted, s2)
          | some msg1 =>
            let msg2 := { msg1 with d := s2.uid.d }
            let s3 := sign_and_dispatch signer s2 msg2
            (Outcome.returned, { s3 with r2_finished := true })
  | _, _ => (Outcome.aborted, s)

/-- The lambda `wrapindex` of `computeKey`: `((i - 1) % participants) + 1` with the
truncating remainder of C++. -/
def wrapindex (participants : Int) (i : Int) : Int :=
  Int.tmod (i - 1) participants + 1

/-- Local variables of `computeKey` that its loop updates (`r2_messages` is the member,
which `operator[]` may extend). -/
structure KeyLoop where
  r2_messages : StdMap Dutta_Barua_message
  Y : Nat
  current_rightkey : Nat
  right_keys : StdMap Nat
deriving DecidableEq, Repr

/-- One iteration of the `for` loop of `computeKey`; `none` is the failed assertion
`r2_messages.count(idx) == 1`. -/
def computeKey_iter (participants u : Int) (p : Nat) (st : KeyLoop) (i : Int) :
    Option KeyLoop :=
  let idx := wrapindex participants (i + u)
  if st.r2_messages.count idx = 1 then
    let r := st.r2_messages.index default idx
    let Y := db_get_public_value r.1
    let current_rightkey := (Y * st.current_rightkey) % p
    some { r2_messages := r.2, Y := Y, current_rightkey := current_rightkey,
           right_keys := st.right_keys.insert idx current_rightkey }
  else none

/-- The loop `for (int i = 2; i <= participants - 1; i++)`, given the number of
iterations left and the current `i`. -/
def computeKey_loop (participants u : Int) (p : Nat) : Nat → Int → KeyLoop → Option KeyLoop
  | 0, _, st => some st
  | n + 1, i, st =>
    match computeKey_iter participants u p st i with
    | none => none
    | some st1 => computeKey_loop participants u p n (i + 1) st1

/-- The right-key computation of `computeKey` (from `right_keys[uid.u] = ...` to the end
of the `for` loop) for a positive modulus `p`; `none` is a failed assertion. -/
def computeKey_right_keys (s : Dutta_Barua_GKE) (p : Nat) : Option KeyLoop :=
  let right_keys := (StdMap.empty : StdMap Nat).insert s.uid.u s.r1_results.right
  let current_rightkey := s.r1_results.right
  let r := s.r2_messages.index default (wrapindex s.participants (s.uid.u + 1))
  let Y := db_get_public_value r.1
  let current_rightkey1 := (Y * current_rightkey) % p
  let right_keys1 := right_keys.insert (wrapindex s.participants (s.uid.u + 1))
    current_rightkey1
  computeKey_loop s.participants s.uid.u p (Int.toNat (s.participants - 2)) 2
    { r2_messages := r.2, Y := Y, current_rightkey := current_rightkey1,
      right_keys := right_keys1 }

/-- The `std::accumulate` over `right_keys` in key order. -/
def accumulate_right_keys (right_keys : StdMap Nat) (p : Nat) : Nat :=
  right_keys.entries.foldl (fun acc value => (acc * value.2) % p) 1

/-- The first loop of `computeKey`: the `(u, d)` of every stored round-2 message, in key
order, is appended to `partial_session_id`. -/
def computeKey_pushed (s : Dutta_Barua_GKE) : Dutta_Barua_GKE :=
  let pushed : List user_id := s.r2_messages.entries.map
    (fun (e : Int × Dutta_Barua_message) => { u := e.2.u, d := e.2.d })
  { s with partial_session_id := s.partial_session_id ++ pushed }

/-- Source `Dutta_Barua_GKE::computeKey`. A zero modulus makes the first `%` throw, after
`r2_messages[wrapindex(uid.u + 1)]` has been read; the state reported with `aborted` is
the one before the right-key computation. -/
def computeKey (s : Dutta_Barua_GKE) : Outcome × Dutta_Barua_GKE :=
  let s1 := computeKey_pushed s
  match s1.x_i with
  | none => (Outcome.aborted, s1)
  | some key =>
    if key.group_p = 0 then
      (Outcome.raised "BigInt::DivideByZero",
        { s1 with r2_messages :=
          (s1.r2_messages.index default (wrapindex s1.participants (s1.uid.u + 1))).2 })
    else
      match computeKey_right_keys s1 key.group_p with
      | none => (Outcome.aborted, s1)
      | some st =>
        let s2 := { s1 with r2_messages := st.r2_messages }
        let lastindex := wrapindex s2.participants (s2.uid.u + s2.participants - 1)
        let last := st.right_keys.index BigInt_default lastindex
        let correctness := decide (last.1 = s2.r1_results.left)
        if correctness then
          let secret := accumulate_right_keys last.2 key.group_p
          (Outcome.returned,
            { s2 with shared_secret := some secret,
                      evloop_channel_finished := s2.evloop_channel_finished + 1 })
        else (Outcome.returned, s2)

/-- Source constructor `Dutta_Barua_GKE::Dutta_Barua_GKE`: `uid{uid, 1}`, every other
member default-initialised; `participants` is initialised outside the given sources. -/
def Dutta_Barua_GKE.construct (mcastgroup channelname : String) (uid : Int)
    (participants : Int) : Dutta_Barua_GKE :=
  { channelname := channelname
    mcastgroup := mcastgroup
    groupexchg_channelname := "lcm://" ++ channelname
    uid := { u := uid, d := 1 }
    participants := participants
    x_i := none
    r1_messages := { left := none, right := none }
    r1_results := { left := 0, right := 0 }
    r2_finished := false
    r2_messages := StdMap.empty
    partial_session_id := []
    shared_secret := none
    state := STATE.keyexchg_not_started
    evloop_tasks := []
    evloop_channel_finished := 0
    lcm_published := [] }

/-! ## The honest run

Every participant `u` of a ring of `N` is constructed, runs `round1` with its exponent
`x u`, receives the round-1 messages its two ring neighbours published, runs `round2`,
and runs `computeKey` on a map holding the round-2 messages of all participants. -/

/-- Participant `u` after `round1`. -/
def honest_round1 (signer : Int → DSA_signer) (group : DL_Group) (N : Int) (x : Int → Nat)
    (u : Int) : Outcome × Dutta_Barua_GKE :=
  round1 (signer u) group (x u) (Dutta_Barua_GKE.construct "239.255.76.67:7667" "clock" u N)

/-- The round-1 message participant `u` published. -/
def honest_r1_message (signer : Int → DSA_signer) (group : DL_Group) (N : Int)
    (x : Int → Nat) (u : Int) : Option Dutta_Barua_message :=
  (honest_round1 signer group N x u).2.lcm_published.getLast?

/-- Participant `u` once both neighbours' round-1 messages are stored. -/
def honest_before_round2 (signer : Int → DSA_signer) (group : DL_Group) (N : Int)
    (x : Int → Nat) (u : Int) : Dutta_Barua_GKE :=
  { (honest_round1 signer group N x u).2 with
    r1_messages :=
      { left := honest_r1_message signer group N x (wrapindex N (u + N - 1))
        right := honest_r1_message signer group N x (wrapindex N (u + 1)) } }

/-- Participant `u` after `round2`. -/
def honest_round2 (signer : Int → DSA_signer) (group : DL_Group) (N : Int) (x : Int → Nat)
    (u : Int) : Outcome × Dutta_Barua_GKE :=
  round2 (signer u) (honest_before_round2 signer group N x u)

/-- The round-2 message participant `u` published. -/
def honest_r2_message (signer : Int → DSA_signer) (group : DL_Group) (N : Int)
    (x : Int → Nat) (u : Int) : Option Dutta_Barua_message :=
  if (honest_round2 signer group N x u).1 = Outcome.returned then
    (honest_round2 signer group N x u).2.lcm_published.getLast?
  else none

/-- Participant `u` runs `computeKey` with the round-2 messages `M` stored. -/
def honest_computeKey (signer : Int → DSA_signer) (group : DL_Group) (N : Int)
    (x : Int → Nat) (M : StdMap Dutta_Barua_message) (u : Int) :
    Outcome × Dutta_Barua_GKE :=
  computeKey { (honest_round2 signer group N x u).2 with r2_messages := M }

/-- The map holding the round-2 messages of participants `1..n`, stored in that order. -/
def honest_r2_map (signer : Int → DSA_signer) (group : DL_Group) (N : Int)
    (x : Int → Nat) : Nat → StdMap Dutta_Barua_message
  | 0 => StdMap.empty
  | n + 1 =>
    match honest_r2_message signer group N x ((n : Int) + 1) with
    | some m => (honest_r2_map signer group N x n).insert ((n : Int) + 1) m
    | none => honest_r2_map signer group N x n

/-! ## Auxiliary definitions describing what `computeKey` computes -/

/-- The value `Y` that `computeKey` decodes from `r2_messages[j]`. -/
def stored_Y (r2 : StdMap Dutta_Barua_message) (j : Int) : Nat :=
  db_get_public_value (r2.index default j).1

/-- The value of `current_rightkey` after `i` multiplications: it starts at
`r1_results.right` and is multiplied by the `Y` stored for `wrapindex (u + i)`. -/
def rightkey_seq (r2 : StdMap Dutta_Barua_message) (N u : Int) (p right : Nat) : Nat → Nat
  | 0 => right
  | i + 1 =>
    (stored_Y r2 (wrapindex N (u + ((i : Int) + 1))) * rightkey_seq r2 N u p right i) % p

/-- The map `right_keys` after `i` multiplications. -/
def right_keys_upto (r2 : StdMap Dutta_Barua_message) (N u : Int) (p right : Nat) :
    Nat → StdMap Nat
  | 0 => (StdMap.empty : StdMap Nat).insert u right
  | i + 1 =>
    (right_keys_upto r2 N u p right i).insert (wrapindex N (u + ((i : Int) + 1)))
      (rightkey_seq r2 N u p right (i + 1))

/-- The right key stored for index `j` (zero when there is none). -/
def right_key_at (right_keys : StdMap Nat) (j : Int) : Nat :=
  (right_keys.find j).getD 0


/-- The signed message a round publishes: ring position and epoch of the sender, the
round number and the encoded public value `v`. -/
def round_message (signer : DSA_signer) (uid : user_id) (round : Int) (v : Nat) :
    Dutta_Barua_message :=
  let msg : Dutta_Barua_message :=
    { u := uid.u, round := round, public_value_size := (bits v : Int),
      public_value := binary_encode v (bits v), d := uid.d, sig_size := 0, sig := [] }
  { msg with sig_size := ((signer.db_sign msg).length : Int), sig := signer.db_sign msg }

/-- The right key of participant `j` in an honest run: `g^(x_j * x_(j+1)) mod p`. -/
def honest_right_key (group : DL_Group) (N : Int) (x : Int → Nat) (j : Int) : Nat :=
  group.g ^ (x j * x (wrapindex N (j + 1))) % group.p

/-- The round-2 value of participant `j` in an honest run. -/
def honest_Y (group : DL_Group) (N : Int) (x : Int → Nat) (j : Int) : Nat :=
  (honest_right_key group N x j *
    inverse_mod (honest_right_key group N x (wrapindex N (j + N - 1))) group.p) % group.p

/-! ## Concrete instances used to exercise the theorems -/

/-- A signer producing empty signatures, one per participant. -/
def example_signer : Int → DSA_signer := fun _ => { db_sign := fun _ => [] }

/-- A verifier accepting every message. -/
def example_verifier : DSA_verifier := { db_verify := fun _ _ _ => true }

/-- Exponents of a three-party run: 3, 5 and 4. -/
def example_x : Int → Nat := fun u => if u = 1 then 3 else if u = 2 then 5 else 4

/-- The group with `p = 11` and `g = 2`. -/
def example_group : DL_Group := { p := 11, g := 2 }

/-- Participant 1 of the three-party run, ready for `computeKey`. -/
def example_key_state : Dutta_Barua_GKE :=
  { (honest_round2 example_signer example_group 3 example_x 1).2 with
    r2_messages := honest_r2_map example_signer example_group 3 example_x 3 }

/-- Participant 1 of the three-party run with the round-2 value stored for participant 2
replaced by 5, so that the ring no longer closes. -/
def example_failing_state : Dutta_Barua_GKE :=
  { example_key_state with
    r2_messages := example_key_state.r2_messages.insert 2
      (round_message (example_signer 2) { u := 2, d := 1 } 2 5) }

/-- Participant 3 of a ring of five before any message has arrived. -/
def example_ring5_state : Dutta_Barua_GKE :=
  Dutta_Barua_GKE.construct "239.255.76.67:7667" "clock" 3 5

/-- A message of participant 1 with the given round number and public value 4. -/
def example_message (round : Int) : Dutta_Barua_message :=
  round_message (example_signer 1) { u := 1, d := 1 } round 4

/-- The round-2 messages of the three participants of the example run. -/
def example_r2_map : StdMap Dutta_Barua_message :=
  honest_r2_map example_signer example_group 3 example_x 3

/-- The group with `p = 7` and `g = 3` of the two-party example. -/
def example_group2 : DL_Group := { p := 7, g := 3 }

/-- The round-2 messages of the two-party example, both exponents being 1. -/
def example_r2_map2 : StdMap Dutta_Barua_message :=
  honest_r2_map example_signer example_group2 2 (fun _ => 1) 2

/-- A verifier rejecting every message. -/
def example_rejecting_verifier : DSA_verifier := { db_verify := fun _ _ _ => false }

/-! ## Session key derivation -/

/-- Contract of `BigInt::bytes()`: the byte length of the value, `0` for zero. -/
def bytes (v : Nat) : Nat := (bits v + 7) / 8

/-- Contract of `BigInt::encode_locked(n)`: the `n.bytes()` big-endian bytes of the value. -/
def encode_locked (v : Nat) : List Nat := binary_encode v (bytes v)

/-- The hash object a KDF is instantiated with (`SHA-256` in `get_session_key`): the
digest of a byte string. -/
structure HashFunction where
  digest : List Nat → List Nat

/-- Contract of `HashFunction::update_be(uint32_t)`: the four big-endian bytes fed in. -/
def store_be32 (counter : Nat) : List Nat := binary_encode counter 4

/-- Contract of Botan's `KDF2::kdf` (the KDF2 of IEEE 1363a) with empty salt and label:
while the key is not full and the 32-bit counter has not wrapped to zero, the digest of
`secret ‖ counter` is appended, cut to the bytes still missing. The first argument bounds
the number of iterations. -/
def kdf2_loop (hash : HashFunction) (secret : List Nat) (key_len : Nat) :
    Nat → Nat → List Nat → List Nat
  | 0, _, key => key
  | fuel + 1, counter, key =>
    if key.length = key_len ∨ counter = 0 then key
    else
      let h := hash.digest (secret ++ store_be32 counter)
      let added := min h.length (key_len - key.length)
      kdf2_loop hash secret key_len fuel ((counter + 1) % 2 ^ 32) (key ++ h.take added)

/-- Contract of `KDF::derive_key(key_len, secret)` for `KDF2`: the counter starts at 1 and
wraps after `2^32 - 1` iterations. -/
def KDF2_derive_key (hash : HashFunction) (key_len : Nat) (secret : List Nat) : List Nat :=
  kdf2_loop hash secret key_len (2 ^ 32) 1 []

/-- Source `Dutta_Barua_GKE::get_session_key`, with the hash of `KDF2(SHA-256)` as a
parameter; `Except.error` is the `throw std::runtime_error`. The exchange state is
returned next to the result. -/
def get_session_key (hash : HashFunction) (s : Dutta_Barua_GKE) (key_size : Nat) :
    Except String (List Nat) × Dutta_Barua_GKE :=
  match s.shared_secret with
  | none =>
    (Except.error ("get_session_key(): No shared secret has been agreed upon. Maybe the " ++
      "group key exchange algorithm was not successful"), s)
  | some secret =>
    let encoded := encode_locked secret
    (Except.ok (KDF2_derive_key hash key_size encoded), s)

/-- The bytes `KDF2` would produce without a length limit, for the given number of
counter values starting at `counter`. -/
def kdf2_stream (hash : HashFunction) (secret : List Nat) : Nat → Nat → List Nat
  | 0, _ => []
  | fuel + 1, counter =>
    if counter = 0 then []
    else hash.digest (secret ++ store_be32 counter) ++
      kdf2_stream hash secret fuel ((counter + 1) % 2 ^ 32)

/-- A hash with two-byte digests (length and byte sum of the input), used to exercise the
session-key theorems. -/
def example_hash : HashFunction :=
  { digest := fun data => [data.length % 256, data.sum % 256] }

/-! ## The event loop -/

/-- Modelled from the spec: the event loop (`lcmsec/eventloop.hpp`) is not among the
sources. It is a single-threaded cooperative task queue that delivers inbound messages to
`on_msg` and runs the tasks posted with `push_task`; every handler and every task runs to
completion before the next is dispatched. An `Event` is one dispatch: the delivery of a
message, or the execution of the oldest posted task. -/
inductive Event where
  | deliver (msg : Dutta_Barua_message)
  | run_task
deriving DecidableEq, Repr

/-- Modelled from the spec: the event loop runs the oldest posted task to completion
(`round2` or `computeKey`, the two tasks `on_msg` posts); with no task posted nothing
happens. -/
def run_task (signer : DSA_signer) (s : Dutta_Barua_GKE) : Outcome × Dutta_Barua_GKE :=
  match s.evloop_tasks with
  | [] => (Outcome.returned, s)
  | Task.round2 :: rest => round2 signer { s with evloop_tasks := rest }
  | Task.computeKey :: rest => computeKey { s with evloop_tasks := rest }

/-- Modelled from the spec: one dispatch of the event loop. -/
def dispatch (signer : DSA_signer) (verifier : DSA_verifier) (s : Dutta_Barua_GKE) :
    Event → Outcome × Dutta_Barua_GKE
  | Event.deliver msg => on_msg verifier s msg
  | Event.run_task => run_task signer s

/-- Modelled from the spec: an execution of the exchange is a sequence of dispatches; it
ends at the first dispatch that does not return (an exception or a failed assertion). -/
def exec (signer : DSA_signer) (verifier : DSA_verifier) :
    Dutta_Barua_GKE → List Event → Outcome × Dutta_Barua_GKE
  | s, [] => (Outcome.returned, s)
  | s, e :: es =>
    if (dispatch signer verifier s e).1 = Outcome.returned then
      exec signer verifier (dispatch signer verifier s e).2 es
    else dispatch signer verifier s e

/-- The messages delivered in an execution, in order. -/
def delivered : List Event → List Dutta_Barua_message
  | [] => []
  | Event.deliver msg :: es => msg :: delivered es
  | Event.run_task :: es => delivered es

/-- The round-1 message participant `j` publishes in an honest run. -/
def honest_r1 (signer : Int → DSA_signer) (group : DL_Group) (x : Int → Nat) (j : Int) :
    Dutta_Barua_message :=
  round_message (signer j) { u := j, d := 1 } 1 (power_mod group.g (x j) group.p)

/-- The round-2 message participant `j` publishes in an honest run. -/
def honest_r2 (signer : Int → DSA_signer) (group : DL_Group) (N : Int) (x : Int → Nat)
    (j : Int) : Dutta_Barua_message :=
  round_message (signer j) { u := j, d := 1 } 2 (honest_Y group N x j)

/-- Participant 1 of the three-party example run after `round1`. -/
def example_started_state : Dutta_Barua_GKE :=
  (honest_round1 example_signer example_group 3 example_x 1).2

/-- The round-1 message of participant `j` in the three-party example run. -/
def example_r1 (j : Int) : Dutta_Barua_message :=
  honest_r1 example_signer example_group example_x j

/-- The round-2 message of participant `j` in the three-party example run. -/
def example_r2 (j : Int) : Dutta_Barua_message :=
  honest_r2 example_signer example_group 3 example_x j

/-- What holds of the stored round-2 messages in every state an execution reaches when
the verifier only accepts round-2 messages of ring members: keys in increasing order,
every entry stored under its sender index in `1..N` and taken from the messages `D`
delivered so far, and `computeKey` posted only with `N` entries stored. -/
structure R2Inv (N : Int) (D : List Dutta_Barua_message) (s : Dutta_Barua_GKE) : Prop where
  participants : s.participants = N
  uid : 1 ≤ s.uid.u ∧ s.uid.u ≤ N
  sorted : List.Pairwise (fun a b => a < b) (s.r2_messages.entries.map Prod.fst)
  stored : ∀ (k : Int) (m : Dutta_Barua_message), s.r2_messages.find k = some m →
    1 ≤ k ∧ k ≤ N ∧ m.u = k ∧ m.round = 2 ∧ m ∈ D
  posted : Task.computeKey ∈ s.evloop_tasks → (s.r2_messages.size : Int) = N

/-- A round-2 message carrying the sender index 5, outside the ring `1..3` of the example
run. -/
def example_outsider_message : Dutta_Barua_message :=
  round_message (example_signer 5) { u := 5, d := 1 } 2 4

/-- A verifier accepting exactly the messages whose sender index is 1, 2 or 3. -/
def example_ring_verifier : DSA_verifier :=
  { db_verify := fun m _ _ => decide (1 ≤ m.u ∧ m.u ≤ 3) }

/-! ## Executions of an honest run -/

/-- The messages participant `u` receives in an honest run of `N` participants: the
round-1 messages of its left and right ring neighbours and the round-2 messages of all
participants `1..N`. -/
def honest_messages (signer : Int → DSA_signer) (group : DL_Group) (N : Int)
    (x : Int → Nat) (u : Int) : List Dutta_Barua_message :=
  honest_r1 signer group x (wrapindex N (u + N - 1)) ::
  honest_r1 signer group x (wrapindex N (u + 1)) ::
  (List.range (Int.toNat N)).map (fun (i : Nat) => honest_r2 signer group N x ((i : Int) + 1))

/-- The secret every participant of an honest run derives: the product of all right keys. -/
def honest_secret (group : DL_Group) (N : Int) (x : Int → Nat) : Nat :=
  (∏ j in Finset.Icc (1 : Int) N, honest_right_key group N x j) % group.p

/-- Whether, in the execution of `evs` from `s`, every delivery of the message `own` (the
participant's own round-2 message) happens in a state in which `r2_finished` is set, that
is after `round2`, which publishes it, has run. -/
def own_after_round2 (signer : DSA_signer) (verifier : DSA_verifier)
    (own : Dutta_Barua_message) : Dutta_Barua_GKE → List Event → Bool
  | _, [] => true
  | s, e :: es =>
    (if e = Event.deliver own then s.r2_finished else true) &&
      own_after_round2 signer verifier own (dispatch signer verifier s e).2 es

/-- What holds of the exchange state `s` of participant `u` in every execution of an
honest run in which the messages `D` have been delivered so far: the private key and the
identity are those of `u`; the stored round-1 and round-2 messages are honest ones, and
every delivered one is stored; `r1_results` are the honest right keys once `round2` has
run; the own round-2 message has only been delivered after `round2`; a posted task has
its gate satisfied; a secret, once set, is the honest one. -/
structure HonestCore (signer : Int → DSA_signer) (group : DL_Group) (N : Int)
    (x : Int → Nat) (u : Int) (D : List Dutta_Barua_message) (s : Dutta_Barua_GKE) :
    Prop where
  x_i : s.x_i = some { x := x u, group := group }
  uid : s.uid = { u := u, d := 1 }
  participants : s.participants = N
  mcastgroup : s.mcastgroup = "239.255.76.67:7667"
  channelname : s.channelname = "clock"
  left_honest : ∀ m, s.r1_messages.left = some m →
    m = honest_r1 signer group x (wrapindex N (u + N - 1))
  right_honest : ∀ m, s.r1_messages.right = some m →
    m = honest_r1 signer group x (wrapindex N (u + 1))
  left_stored : honest_r1 signer group x (wrapindex N (u + N - 1)) ∈ D →
    s.r1_messages.left = some (honest_r1 signer group x (wrapindex N (u + N - 1)))
  right_stored : honest_r1 signer group x (wrapindex N (u + 1)) ∈ D →
    s.r1_messages.right = some (honest_r1 signer group x (wrapindex N (u + 1)))
  sorted : List.Pairwise (fun a b => a < b) (s.r2_messages.entries.map Prod.fst)
  r2_honest : ∀ (j : Int) (m : Dutta_Barua_message), s.r2_messages.find j = some m →
    1 ≤ j ∧ j ≤ N ∧ m = honest_r2 signer group N x j
  r2_stored : ∀ j : Int, 1 ≤ j → j ≤ N → honest_r2 signer group N x j ∈ D →
    s.r2_messages.find j = some (honest_r2 signer group N x j)
  results : s.r2_finished = true →
    s.r1_results.left = honest_right_key group N x (wrapindex N (u + N - 1)) ∧
    s.r1_results.right = honest_right_key group N x u
  own : honest_r2 signer group N x u ∈ D → s.r2_finished = true
  round2_posted : Task.round2 ∈ s.evloop_tasks →
    s.r1_messages.left.isSome = true ∧ s.r1_messages.right.isSome = true
  computeKey_posted : Task.computeKey ∈ s.evloop_tasks →
    s.r2_finished = true ∧ (s.r2_messages.size : Int) = N
  secret : ∀ v, s.shared_secret = some v → v = honest_secret group N x

/-- The invariant of an honest execution: `HonestCore`, and once every honest message has
been delivered the key computation is posted or has produced the secret. -/
def HonestInv (signer : Int → DSA_signer) (group : DL_Group) (N : Int)
    (x : Int → Nat) (u : Int) (D : List Dutta_Barua_message) (s : Dutta_Barua_GKE) : Prop :=
  HonestCore signer group N x u D s ∧
  ((∀ m, m ∈ honest_messages signer group N x u → m ∈ D) →
    Task.computeKey ∈ s.evloop_tasks ∨ s.shared_secret = some (honest_secret group N x))

/-! ## Lemmas on the big-integer routines -/

theorem bitsAux_spec : ∀ (f v : Nat), v ≤ f → v < 2 ^ bitsAux f v := by
  intro f
  induction f with
  | zero =>
    intro v hv
    have h0 : v = 0 := by omega
    subst h0
    simp [bitsAux]
  | succ f ih =>
    intro v hv
    by_cases h0 : v = 0
    · subst h0
      simp [bitsAux]
    · have hle : v / 2 ≤ f := by omega
      have h1 := ih (v / 2) hle
      simp only [bitsAux, h0, if_false]
      rw [pow_succ]
      omega

theorem lt_two_pow_bits (v : Nat) : v < 2 ^ bits v :=
  bitsAux_spec v v (le_refl v)

theorem bits_pos (v : Nat) (h : v ≠ 0) : 0 < bits v := by
  have h1 := lt_two_pow_bits v
  by_contra hc
  have h2 : bits v = 0 := by omega
  rw [h2] at h1
  simp at h1
  exact h h1

theorem binary_decode_append (l : List Nat) (b : Nat) :
    binary_decode (l ++ [b]) = binary_decode l * 256 + b := by
  simp [binary_decode, List.foldl_append]

theorem binary_decode_encode : ∀ (len v : Nat),
    binary_decode (binary_encode v len) = v % 256 ^ len := by
  intro len
  induction len with
  | zero =>
    intro v
    simp [binary_encode, binary_decode, Nat.mod_one]
  | succ len ih =>
    intro v
    simp only [binary_encode]
    rw [binary_decode_append, ih, pow_succ', Nat.mod_mul]
    ring

theorem binary_encode_length : ∀ (len v : Nat), (binary_encode v len).length = len := by
  intro len
  induction len with
  | zero => intro v; simp [binary_encode]
  | succ len ih => intro v; simp [binary_encode, ih]

theorem binary_decode_encode_bits (v : Nat) :
    binary_decode (binary_encode v (bits v)) = v := by
  rw [binary_decode_encode]
  apply Nat.mod_eq_of_lt
  have h1 := lt_two_pow_bits v
  have h2 : 2 ^ bits v ≤ 256 ^ bits v := Nat.pow_le_pow_left (by norm_num) _
  omega

theorem egcd_loop_spec (n m : Nat) : ∀ (fuel r0 r1 : Nat) (s0 s1 : Int), r1 ≤ fuel →
    (r0 : Int) ≡ s0 * n [ZMOD m] → (r1 : Int) ≡ s1 * n [ZMOD m] →
    (egcd_loop fuel r0 r1 s0 s1).1 = Nat.gcd r0 r1 ∧
    ((egcd_loop fuel r0 r1 s0 s1).1 : Int) ≡ (egcd_loop fuel r0 r1 s0 s1).2 * n [ZMOD m] := by
  intro fuel
  induction fuel with
  | zero =>
    intro r0 r1 s0 s1 hle h0 _
    have h : r1 = 0 := by omega
    subst h
    simp [egcd_loop, h0]
  | succ f ih =>
    intro r0 r1 s0 s1 hle h0 h1
    by_cases hz : r1 = 0
    · subst hz
      simp [egcd_loop, h0]
    · have hpos : 0 < r1 := Nat.pos_of_ne_zero hz
      have hlt : r0 % r1 ≤ f := by
        have := Nat.mod_lt r0 hpos
        omega
      have hstep : ((r0 % r1 : Nat) : Int) ≡ (s0 - ((r0 / r1 : Nat) : Int) * s1) * n [ZMOD m] := by
        have e : ((r0 % r1 : Nat) : Int) = (r0 : Int) - ((r0 / r1 : Nat) : Int) * (r1 : Int) := by
          have := Nat.div_add_mod r0 r1
          push_cast
          have h2 : (r0 : Int) = (r1 : Int) * ((r0 : Int) / (r1 : Int)) + (r0 : Int) % (r1 : Int) :=
            (Int.ediv_add_emod (r0 : Int) (r1 : Int)).symm
          linarith
        rw [e]
        have h3 : ((r0 / r1 : Nat) : Int) * (r1 : Int) ≡ ((r0 / r1 : Nat) : Int) * (s1 * n) [ZMOD m] :=
          Int.ModEq.mul_left _ h1
        have h4 := Int.ModEq.sub h0 h3
        have e2 : (s0 - ((r0 / r1 : Nat) : Int) * s1) * (n : Int)
            = s0 * n - ((r0 / r1 : Nat) : Int) * (s1 * n) := by ring
        rw [e2]
        exact h4
      have hrec := ih r1 (r0 % r1) s1 (s0 - ((r0 / r1 : Nat) : Int) * s1) hlt h1 hstep
      simp only [egcd_loop, hz, if_false]
      refine ⟨?_, hrec.2⟩
      rw [hrec.1]
      rw [Nat.gcd_comm r0 r1, Nat.gcd_rec r1 r0, Nat.gcd_comm]

theorem inverse_mod_spec (n m : Nat) (hm : 1 < m) (hc : Nat.Coprime n m) :
    (n * inverse_mod n m) % m = 1 := by
  have h0 : ((m : Nat) : Int) ≡ (0 : Int) * n [ZMOD m] := by
    simp [Int.ModEq]
  have h1 : ((n % m : Nat) : Int) ≡ (1 : Int) * n [ZMOD m] := by
    simp [Int.ModEq]
  have hle : n % m ≤ m := le_of_lt (Nat.mod_lt n (by omega))
  obtain ⟨hg, hs⟩ := egcd_loop_spec n m m m (n % m) 0 1 hle h0 h1
  have hgcd : Nat.gcd m (n % m) = 1 := by
    rw [Nat.gcd_comm, ← Nat.gcd_rec, Nat.gcd_comm]
    exact hc
  rw [hgcd] at hg
  have hmpos : (0 : Int) < (m : Int) := by exact_mod_cast (by omega : 0 < m)
  have hnn : 0 ≤ (egcd_loop m m (n % m) 0 1).2 % (m : Int) :=
    Int.emod_nonneg _ (ne_of_gt hmpos)
  have hinv : ((inverse_mod n m : Nat) : Int) = (egcd_loop m m (n % m) 0 1).2 % (m : Int) := by
    simp only [inverse_mod, hg, if_true]
    exact Int.toNat_of_nonneg hnn
  have hmod : ((n * inverse_mod n m : Nat) : Int) ≡ 1 [ZMOD m] := by
    push_cast
    rw [hinv]
    have h5 : (egcd_loop m m (n % m) 0 1).2 % (m : Int) ≡ (egcd_loop m m (n % m) 0 1).2 [ZMOD m] :=
      Int.mod_modEq _ _
    have h6 := Int.ModEq.mul_left (n : Int) h5
    refine h6.trans ?_
    rw [hg] at hs
    have h7 : (n : Int) * (egcd_loop m m (n % m) 0 1).2 = (egcd_loop m m (n % m) 0 1).2 * n := by
      ring
    rw [h7]
    exact_mod_cast hs.symm
  have h8 : (n * inverse_mod n m) ≡ 1 [MOD m] := by
    exact (Int.natCast_modEq_iff).1 (by exact_mod_cast hmod)
  have h9 := h8
  unfold Nat.ModEq at h9
  rw [h9]
  exact Nat.mod_eq_of_lt hm


/-! ## Lemmas on the map model -/

theorem StdMap.findEntries_insertEntries {V : Type} (l : List (Int × V)) (k : Int) (v : V)
    (q : Int) :
    StdMap.findEntries (StdMap.insertEntries l k v) q =
      if k = q then some v else StdMap.findEntries l q := by
  induction l with
  | nil => simp [StdMap.insertEntries, StdMap.findEntries]
  | cons hd t ih =>
    obtain ⟨k0, v0⟩ := hd
    simp only [StdMap.insertEntries]
    by_cases h1 : k < k0
    · simp [h1, StdMap.findEntries]
    · by_cases h2 : k = k0
      · subst h2
        by_cases h3 : k = q <;> simp [StdMap.findEntries, h3]
      · simp only [h1, h2, if_false, StdMap.findEntries, ih]
        by_cases h3 : k0 = q
        · subst h3
          simp [h2]
        · simp [h3]

theorem StdMap.find_insert {V : Type} (m : StdMap V) (k : Int) (v : V) (q : Int) :
    (m.insert k v).find q = if k = q then some v else m.find q :=
  StdMap.findEntries_insertEntries m.entries k v q

theorem StdMap.mem_keys_insertEntries {V : Type} (l : List (Int × V)) (k : Int) (v : V)
    (q : Int) :
    q ∈ (StdMap.insertEntries l k v).map Prod.fst ↔ q = k ∨ q ∈ l.map Prod.fst := by
  induction l with
  | nil => simp [StdMap.insertEntries]
  | cons hd t ih =>
    obtain ⟨k0, v0⟩ := hd
    simp only [StdMap.insertEntries]
    by_cases h1 : k < k0
    · simp [h1]
    · by_cases h2 : k = k0
      · subst h2
        simp
      · simp only [h1, h2, if_false, List.map_cons, List.mem_cons, ih]
        tauto

theorem StdMap.sorted_insertEntries {V : Type} (l : List (Int × V)) (k : Int) (v : V)
    (h : List.Pairwise (fun a b => a < b) (l.map Prod.fst)) :
    List.Pairwise (fun a b => a < b) ((StdMap.insertEntries l k v).map Prod.fst) := by
  induction l with
  | nil => simp [StdMap.insertEntries]
  | cons hd t ih =>
    obtain ⟨k0, v0⟩ := hd
    simp only [List.map_cons, List.pairwise_cons] at h
    simp only [StdMap.insertEntries]
    by_cases h1 : k < k0
    · simp only [h1, if_true, List.map_cons, List.pairwise_cons]
      refine ⟨?_, h.1, h.2⟩
      intro a ha
      rcases List.mem_cons.1 ha with ha | ha
      · omega
      · have := h.1 a ha
        omega
    · by_cases h2 : k = k0
      · subst h2
        simp only [lt_self_iff_false, if_false, if_true, List.map_cons, List.pairwise_cons]
        exact ⟨h.1, h.2⟩
      · simp only [h1, h2, if_false, List.map_cons, List.pairwise_cons]
        refine ⟨?_, ih h.2⟩
        intro a ha
        rcases (StdMap.mem_keys_insertEntries t k v a).1 ha with ha | ha
        · omega
        · exact h.1 a ha

theorem StdMap.findEntries_isSome_iff {V : Type} (l : List (Int × V)) (q : Int) :
    (StdMap.findEntries l q).isSome = true ↔ q ∈ l.map Prod.fst := by
  induction l with
  | nil => simp [StdMap.findEntries]
  | cons hd t ih =>
    obtain ⟨k0, v0⟩ := hd
    by_cases h : k0 = q
    · simp [StdMap.findEntries, h]
    · have h2 : ¬ q = k0 := fun e => h e.symm
      simp [StdMap.findEntries, h, h2, ih]

theorem StdMap.findEntries_of_mem {V : Type} (l : List (Int × V))
    (h : List.Pairwise (fun a b => a < b) (l.map Prod.fst)) (e : Int × V) (he : e ∈ l) :
    StdMap.findEntries l e.1 = some e.2 := by
  induction l with
  | nil => simp at he
  | cons hd t ih =>
    obtain ⟨k0, v0⟩ := hd
    simp only [List.map_cons, List.pairwise_cons] at h
    rcases List.mem_cons.1 he with he | he
    · subst he
      simp [StdMap.findEntries]
    · have hlt : k0 < e.1 := h.1 e.1 (List.mem_map_of_mem Prod.fst he)
      have hne : ¬ k0 = e.1 := by omega
      simp only [StdMap.findEntries, hne, if_false]
      exact ih h.2 he

theorem StdMap.index_of_find {V : Type} (dflt : V) (m : StdMap V) (k : Int) (v : V)
    (h : m.find k = some v) : m.index dflt k = (v, m) := by
  simp [StdMap.index, h]

theorem accumulate_foldl (p : Nat) : ∀ (l : List (Int × Nat)) (acc : Nat), l ≠ [] →
    l.foldl (fun acc value => (acc * value.2) % p) acc = (acc * (l.map Prod.snd).prod) % p := by
  intro l
  induction l with
  | nil => intro acc h; exact absurd rfl h
  | cons hd t ih =>
    intro acc _
    by_cases ht : t = []
    · subst ht
      simp
    · rw [List.foldl_cons, ih _ ht, List.map_cons, List.prod_cons, Nat.mod_mul_mod, mul_assoc]

/-- Product of the values of a map whose keys are exactly `1..N`. -/
theorem StdMap.prod_values (l : List (Int × Nat)) (N : Int) (K : Int → Nat)
    (hs : List.Pairwise (fun a b => a < b) (l.map Prod.fst))
    (hk : ∀ q : Int, q ∈ l.map Prod.fst ↔ 1 ≤ q ∧ q ≤ N)
    (hv : ∀ q : Int, 1 ≤ q → q ≤ N → StdMap.findEntries l q = some (K q)) :
    (l.map Prod.snd).prod = ∏ j in Finset.Icc (1 : Int) N, K j := by
  have hnd : (l.map Prod.fst).Nodup := by
    refine List.Pairwise.imp ?_ hs
    intro a b hab
    exact ne_of_lt hab
  have hmap : l.map Prod.snd = (l.map Prod.fst).map K := by
    rw [List.map_map]
    apply List.map_congr_left
    intro e he
    have h1 := StdMap.findEntries_of_mem l hs e he
    have hmem : e.1 ∈ l.map Prod.fst := List.mem_map_of_mem Prod.fst he
    have hr := (hk e.1).1 hmem
    have h2 := hv e.1 hr.1 hr.2
    rw [h1] at h2
    simpa using Option.some.inj h2
  have hfin : (l.map Prod.fst).toFinset = Finset.Icc (1 : Int) N := by
    ext q
    simp only [List.mem_toFinset, Finset.mem_Icc]
    exact hk q
  rw [hmap, ← List.prod_toFinset K hnd, hfin]

/-! ## Lemmas on `wrapindex` -/

theorem wrapindex_of_le (N a : Int) (h1 : 1 ≤ a) (h2 : a ≤ N) : wrapindex N a = a := by
  unfold wrapindex
  rw [Int.tmod_eq_emod (by omega) (by omega), Int.emod_eq_of_lt (by omega) (by omega)]
  omega

theorem wrapindex_of_gt (N a : Int) (h1 : N < a) (h2 : a ≤ 2 * N) :
    wrapindex N a = a - N := by
  unfold wrapindex
  have hN : 0 < N := by omega
  rw [Int.tmod_eq_emod (by omega) (by omega)]
  have e : a - 1 = (a - 1 - N) + N := by ring
  rw [e, Int.add_emod_self, Int.emod_eq_of_lt (by omega) (by omega)]
  omega

theorem wrapindex_cases (N a : Int) (h1 : 1 ≤ a) (h2 : a ≤ 2 * N) :
    (a ≤ N ∧ wrapindex N a = a) ∨ (N < a ∧ wrapindex N a = a - N) := by
  by_cases h : a ≤ N
  · exact Or.inl ⟨h, wrapindex_of_le N a h1 h⟩
  · exact Or.inr ⟨by omega, wrapindex_of_gt N a (by omega) h2⟩


/-! ## The right-key computation -/

theorem wrapindex_range (N a : Int) (h1 : 1 ≤ a) (h2 : a ≤ 2 * N) :
    1 ≤ wrapindex N a ∧ wrapindex N a ≤ N := by
  rcases wrapindex_cases N a h1 h2 with h | h <;> omega

theorem computeKey_iter_spec (r2 : StdMap Dutta_Barua_message) (N u : Int) (p right : Nat)
    (hu1 : 1 ≤ u) (hu2 : u ≤ N)
    (hall : ∀ j : Int, 1 ≤ j → j ≤ N → (r2.find j).isSome = true)
    (k : Nat) (st : KeyLoop) (hk : (k : Int) + 1 + 1 ≤ N)
    (h1 : st.r2_messages = r2) (h2 : st.current_rightkey = rightkey_seq r2 N u p right k)
    (h3 : st.right_keys = right_keys_upto r2 N u p right k) :
    ∃ st1, computeKey_iter N u p st ((k : Int) + 1) = some st1 ∧ st1.r2_messages = r2 ∧
      st1.current_rightkey = rightkey_seq r2 N u p right (k + 1) ∧
      st1.right_keys = right_keys_upto r2 N u p right (k + 1) := by
  have hr := wrapindex_range N ((k : Int) + 1 + u) (by omega) (by omega)
  have hsome := hall _ hr.1 hr.2
  obtain ⟨m, hm⟩ := Option.isSome_iff_exists.1 hsome
  have hidx : r2.index default (wrapindex N ((k : Int) + 1 + u)) = (m, r2) :=
    StdMap.index_of_find default r2 _ m hm
  have hcomm : u + ((k : Int) + 1) = (k : Int) + 1 + u := by ring
  have hY : stored_Y r2 (wrapindex N ((k : Int) + 1 + u)) = db_get_public_value m := by
    simp [stored_Y, hidx]
  refine ⟨{ r2_messages := r2, Y := db_get_public_value m,
            current_rightkey := (db_get_public_value m * st.current_rightkey) % p,
            right_keys := st.right_keys.insert (wrapindex N ((k : Int) + 1 + u))
              ((db_get_public_value m * st.current_rightkey) % p) }, ?_, rfl, ?_, ?_⟩
  · simp only [computeKey_iter, h1, StdMap.count, hsome, if_true, hidx]
  · simp only [rightkey_seq, hcomm, hY, h2]
  · simp only [right_keys_upto, rightkey_seq, hcomm, hY, h2, h3]

theorem computeKey_loop_spec (r2 : StdMap Dutta_Barua_message) (N u : Int) (p right : Nat)
    (hu1 : 1 ≤ u) (hu2 : u ≤ N)
    (hall : ∀ j : Int, 1 ≤ j → j ≤ N → (r2.find j).isSome = true) :
    ∀ (n k : Nat) (st : KeyLoop), (k : Int) + n + 1 ≤ N →
      st.r2_messages = r2 → st.current_rightkey = rightkey_seq r2 N u p right k →
      st.right_keys = right_keys_upto r2 N u p right k →
      ∃ st1, computeKey_loop N u p n ((k : Int) + 1) st = some st1 ∧ st1.r2_messages = r2 ∧
        st1.current_rightkey = rightkey_seq r2 N u p right (k + n) ∧
        st1.right_keys = right_keys_upto r2 N u p right (k + n) := by
  intro n
  induction n with
  | zero =>
    intro k st _ h1 h2 h3
    exact ⟨st, rfl, h1, h2, h3⟩
  | succ n ih =>
    intro k st hk h1 h2 h3
    obtain ⟨st1, e1, a1, a2, a3⟩ :=
      computeKey_iter_spec r2 N u p right hu1 hu2 hall k st (by push_cast at hk; omega) h1 h2 h3
    obtain ⟨st2, e2, b1, b2, b3⟩ := ih (k + 1) st1 (by push_cast at hk ⊢; omega) a1 a2 a3
    refine ⟨st2, ?_, b1, ?_, ?_⟩
    · simp only [computeKey_loop, e1]
      have hc : (((k + 1 : Nat) : Int) + 1) = (k : Int) + 1 + 1 := by push_cast; ring
      rw [← hc]
      exact e2
    · rw [b2]; congr 1; omega
    · rw [b3]; congr 1; omega

/-- With a round-2 message stored for every index `1..N`, the right-key computation
passes its assertions, leaves `r2_messages` as it is, and ends with the map built by
`right_keys_upto` after `N - 1` multiplications. -/
theorem computeKey_right_keys_spec (s : Dutta_Barua_GKE) (p : Nat) (n : Nat)
    (hN : s.participants = (n : Int) + 2)
    (hu1 : 1 ≤ s.uid.u) (hu2 : s.uid.u ≤ s.participants)
    (hall : ∀ j : Int, 1 ≤ j → j ≤ s.participants → (s.r2_messages.find j).isSome = true) :
    ∃ st, computeKey_right_keys s p = some st ∧ st.r2_messages = s.r2_messages ∧
      st.right_keys =
        right_keys_upto s.r2_messages s.participants s.uid.u p s.r1_results.right (n + 1) := by
  have hr := wrapindex_range s.participants (s.uid.u + 1) (by omega) (by omega)
  have hsome := hall _ hr.1 hr.2
  obtain ⟨m, hm⟩ := Option.isSome_iff_exists.1 hsome
  have hidx : s.r2_messages.index default (wrapindex s.participants (s.uid.u + 1))
      = (m, s.r2_messages) := StdMap.index_of_find default _ _ m hm
  have hY : stored_Y s.r2_messages (wrapindex s.participants (s.uid.u + 1))
      = db_get_public_value m := by
    simp [stored_Y, hidx]
  have hcount : Int.toNat (s.participants - 2) = n := by
    rw [hN]; simp
  obtain ⟨st1, e1, a1, _, a3⟩ := computeKey_loop_spec s.r2_messages s.participants s.uid.u p
    s.r1_results.right hu1 hu2 hall n 1
    { r2_messages := s.r2_messages, Y := db_get_public_value m,
      current_rightkey := (db_get_public_value m * s.r1_results.right) % p,
      right_keys := ((StdMap.empty : StdMap Nat).insert s.uid.u s.r1_results.right).insert
        (wrapindex s.participants (s.uid.u + 1))
        ((db_get_public_value m * s.r1_results.right) % p) }
    (by rw [hN]; push_cast; omega) rfl
    (by simp [rightkey_seq, hY])
    (by simp [right_keys_upto, rightkey_seq, hY])
  refine ⟨st1, ?_, a1, ?_⟩
  · simp only [computeKey_right_keys, hidx, hcount]
    exact e1
  · rw [a3, add_comm]


theorem wrapindex_add_zero (N u : Int) (hu1 : 1 ≤ u) (hu2 : u ≤ N) :
    wrapindex N (u + ((0 : Nat) : Int)) = u := by
  simp only [Nat.cast_zero, add_zero]
  exact wrapindex_of_le N u hu1 hu2

theorem wrapindex_offset_inj (N u : Int) (hu1 : 1 ≤ u) (hu2 : u ≤ N) (a b : Nat)
    (hab : a < b) (hb : (b : Int) + 1 ≤ N) :
    wrapindex N (u + (a : Int)) ≠ wrapindex N (u + (b : Int)) := by
  have hab2 : (a : Int) < (b : Int) := by exact_mod_cast hab
  have ha0 : (0 : Int) ≤ (a : Int) := Int.natCast_nonneg a
  rcases wrapindex_cases N (u + (a : Int)) (by omega) (by omega) with h1 | h1 <;>
  rcases wrapindex_cases N (u + (b : Int)) (by omega) (by omega) with h2 | h2 <;>
  omega

theorem right_keys_upto_sorted (r2 : StdMap Dutta_Barua_message) (N u : Int) (p right : Nat) :
    ∀ i : Nat, List.Pairwise (fun a b => a < b)
      ((right_keys_upto r2 N u p right i).entries.map Prod.fst) := by
  intro i
  induction i with
  | zero => simp [right_keys_upto, StdMap.insert, StdMap.empty, StdMap.insertEntries]
  | succ i ih =>
    simp only [right_keys_upto, StdMap.insert]
    exact StdMap.sorted_insertEntries _ _ _ ih

theorem right_keys_upto_mem_keys (r2 : StdMap Dutta_Barua_message) (N u : Int) (p right : Nat)
    (hu1 : 1 ≤ u) (hu2 : u ≤ N) (q : Int) :
    ∀ i : Nat, q ∈ (right_keys_upto r2 N u p right i).entries.map Prod.fst ↔
      ∃ j : Nat, j ≤ i ∧ q = wrapindex N (u + (j : Int)) := by
  intro i
  induction i with
  | zero =>
    simp only [right_keys_upto, StdMap.insert, StdMap.empty, StdMap.insertEntries,
      List.map_cons, List.map_nil, List.mem_singleton]
    constructor
    · intro h
      exact ⟨0, le_refl 0, by rw [wrapindex_add_zero N u hu1 hu2]; exact h⟩
    · rintro ⟨j, hj, e⟩
      have : j = 0 := by omega
      subst this
      rw [wrapindex_add_zero N u hu1 hu2] at e
      exact e
  | succ i ih =>
    simp only [right_keys_upto, StdMap.insert]
    rw [StdMap.mem_keys_insertEntries, ih]
    constructor
    · rintro (h | ⟨j, hj, e⟩)
      · exact ⟨i + 1, le_refl _, by rw [h]; push_cast; rfl⟩
      · exact ⟨j, by omega, e⟩
    · rintro ⟨j, hj, e⟩
      by_cases hji : j = i + 1
      · subst hji
        left
        rw [e]; push_cast; rfl
      · right
        exact ⟨j, by omega, e⟩

theorem right_keys_upto_find (r2 : StdMap Dutta_Barua_message) (N u : Int) (p right : Nat)
    (hu1 : 1 ≤ u) (hu2 : u ≤ N) :
    ∀ i : Nat, (i : Int) + 1 ≤ N → ∀ j : Nat, j ≤ i →
      (right_keys_upto r2 N u p right i).find (wrapindex N (u + (j : Int))) =
        some (rightkey_seq r2 N u p right j) := by
  intro i
  induction i with
  | zero =>
    intro _ j hj
    have : j = 0 := by omega
    subst this
    rw [wrapindex_add_zero N u hu1 hu2]
    simp [right_keys_upto, StdMap.find_insert, rightkey_seq]
  | succ i ih =>
    intro hi j hj
    simp only [right_keys_upto]
    rw [StdMap.find_insert]
    by_cases hji : j = i + 1
    · subst hji
      have e : wrapindex N (u + ((i : Int) + 1)) = wrapindex N (u + ((i + 1 : Nat) : Int)) := by
        push_cast; rfl
      simp [e]
    · have hlt : j < i + 1 := by omega
      have hne := wrapindex_offset_inj N u hu1 hu2 j (i + 1) hlt hi
      have e : wrapindex N (u + ((i : Int) + 1)) = wrapindex N (u + ((i + 1 : Nat) : Int)) := by
        push_cast; rfl
      rw [e, if_neg (fun h => hne h.symm)]
      exact ih (by push_cast at hi; omega) j (by omega)

theorem wrapindex_offset_cover (N u : Int) (n : Nat) (hN : N = (n : Int) + 2)
    (hu1 : 1 ≤ u) (hu2 : u ≤ N) (q : Int) :
    (∃ j : Nat, j ≤ n + 1 ∧ q = wrapindex N (u + (j : Int))) ↔ 1 ≤ q ∧ q ≤ N := by
  constructor
  · rintro ⟨j, hj, e⟩
    have hj2 : (j : Int) ≤ (n : Int) + 1 := by exact_mod_cast hj
    have ha0 : (0 : Int) ≤ (j : Int) := Int.natCast_nonneg j
    have := wrapindex_range N (u + (j : Int)) (by omega) (by omega)
    omega
  · rintro ⟨h1, h2⟩
    by_cases hq : u ≤ q
    · refine ⟨Int.toNat (q - u), ?_, ?_⟩
      · have : ((Int.toNat (q - u) : Nat) : Int) = q - u := Int.toNat_of_nonneg (by omega)
        omega
      · rw [Int.toNat_of_nonneg (by omega)]
        rw [wrapindex_of_le N _ (by omega) (by omega)]
        omega
    · refine ⟨Int.toNat (q - u + N), ?_, ?_⟩
      · have : ((Int.toNat (q - u + N) : Nat) : Int) = q - u + N :=
          Int.toNat_of_nonneg (by omega)
        omega
      · rw [Int.toNat_of_nonneg (by omega)]
        rw [wrapindex_of_gt N _ (by omega) (by omega)]
        omega

/-- Unfolding of `computeKey` once the right-key computation is known to succeed without
touching `r2_messages`. -/
theorem computeKey_of_right_keys (s : Dutta_Barua_GKE) (key : DH_PrivateKey) (st : KeyLoop)
    (hx : s.x_i = some key) (hp : key.group_p ≠ 0)
    (hk : computeKey_right_keys (computeKey_pushed s) key.group_p = some st)
    (hr2 : st.r2_messages = s.r2_messages) :
    computeKey s =
      if (st.right_keys.index BigInt_default
          (wrapindex s.participants (s.uid.u + s.participants - 1))).1 = s.r1_results.left then
        (Outcome.returned,
          { computeKey_pushed s with
            shared_secret := some (accumulate_right_keys (st.right_keys.index BigInt_default
              (wrapindex s.participants (s.uid.u + s.participants - 1))).2 key.group_p),
            evloop_channel_finished := s.evloop_channel_finished + 1 })
      else (Outcome.returned, computeKey_pushed s) := by
  have hx' : (computeKey_pushed s).x_i = some key := hx
  obtain ⟨r2m, Y, cur, rk⟩ := st
  simp only at hr2
  subst hr2
  unfold computeKey
  simp only [hx', hp, if_false, hk]
  by_cases hc : (rk.index BigInt_default
      (wrapindex s.participants (s.uid.u + s.participants - 1))).1 = s.r1_results.left
  · rw [if_pos hc]
    have hd : decide ((rk.index BigInt_default
      (wrapindex s.participants (s.uid.u + s.participants - 1))).1 = s.r1_results.left) = true :=
      decide_eq_true hc
    simp only [computeKey_pushed] at hd ⊢
    rw [if_pos hd]
  · rw [if_neg hc]
    have hd : ¬ (decide ((rk.index BigInt_default
      (wrapindex s.participants (s.uid.u + s.participants - 1))).1 = s.r1_results.left) = true) := by
      simpa using hc
    simp only [computeKey_pushed] at hd ⊢
    rw [if_neg hd, hx]


/-- Evaluation of `computeKey` when a round-2 message is stored for every index `1..N`:
the correctness check compares the last element of `rightkey_seq` with
`r1_results.left`, and on success the secret is the product of all right keys. -/
theorem computeKey_eval (s : Dutta_Barua_GKE) (key : DH_PrivateKey) (n : Nat)
    (hx : s.x_i = some key) (hp : key.group_p ≠ 0)
    (hN : s.participants = (n : Int) + 2)
    (hu1 : 1 ≤ s.uid.u) (hu2 : s.uid.u ≤ s.participants)
    (hall : ∀ j : Int, 1 ≤ j → j ≤ s.participants → (s.r2_messages.find j).isSome = true) :
    computeKey s =
      if rightkey_seq s.r2_messages s.participants s.uid.u key.group_p s.r1_results.right
          (n + 1) = s.r1_results.left then
        (Outcome.returned,
          { computeKey_pushed s with
            shared_secret := some ((∏ j in Finset.Icc (1 : Int) s.participants,
              right_key_at (right_keys_upto s.r2_messages s.participants s.uid.u key.group_p
                s.r1_results.right (n + 1)) j) % key.group_p),
            evloop_channel_finished := s.evloop_channel_finished + 1 })
      else (Outcome.returned, computeKey_pushed s) := by
  obtain ⟨st, e1, e2, e3⟩ := computeKey_right_keys_spec (computeKey_pushed s) key.group_p n
    hN hu1 hu2 hall
  have hlast : wrapindex s.participants (s.uid.u + s.participants - 1)
      = wrapindex s.participants (s.uid.u + ((n + 1 : Nat) : Int)) := by
    congr 1
    rw [hN]; push_cast; ring
  have hfind := right_keys_upto_find s.r2_messages s.participants s.uid.u key.group_p
    s.r1_results.right hu1 hu2 (n + 1) (by rw [hN]; push_cast; omega) (n + 1) (le_refl _)
  have e3' : st.right_keys = right_keys_upto s.r2_messages s.participants s.uid.u key.group_p
      s.r1_results.right (n + 1) := e3
  have e2' : st.r2_messages = s.r2_messages := e2
  have hindex := StdMap.index_of_find BigInt_default st.right_keys
    (wrapindex s.participants (s.uid.u + s.participants - 1)) _ (by rw [e3', hlast]; exact hfind)
  have hsorted := right_keys_upto_sorted s.r2_messages s.participants s.uid.u key.group_p
    s.r1_results.right (n + 1)
  have hkeys : ∀ q : Int, q ∈ (right_keys_upto s.r2_messages s.participants s.uid.u
      key.group_p s.r1_results.right (n + 1)).entries.map Prod.fst ↔
      1 ≤ q ∧ q ≤ s.participants := by
    intro q
    rw [right_keys_upto_mem_keys s.r2_messages s.participants s.uid.u key.group_p
      s.r1_results.right hu1 hu2 q (n + 1)]
    exact wrapindex_offset_cover s.participants s.uid.u n hN hu1 hu2 q
  have hne : (right_keys_upto s.r2_messages s.participants s.uid.u key.group_p
      s.r1_results.right (n + 1)).entries ≠ [] := by
    intro h
    have := (hkeys 1).2 ⟨le_refl _, by omega⟩
    rw [h] at this
    simp at this
  have hvals : ∀ q : Int, 1 ≤ q → q ≤ s.participants →
      StdMap.findEntries (right_keys_upto s.r2_messages s.participants s.uid.u key.group_p
        s.r1_results.right (n + 1)).entries q =
      some (right_key_at (right_keys_upto s.r2_messages s.participants s.uid.u key.group_p
        s.r1_results.right (n + 1)) q) := by
    intro q h1 h2
    have hmem := (hkeys q).2 ⟨h1, h2⟩
    have hs := (StdMap.findEntries_isSome_iff _ q).2 hmem
    obtain ⟨v, hv⟩ := Option.isSome_iff_exists.1 hs
    simp [right_key_at, StdMap.find, hv]
  have hacc : accumulate_right_keys st.right_keys key.group_p =
      (∏ j in Finset.Icc (1 : Int) s.participants,
        right_key_at (right_keys_upto s.r2_messages s.participants s.uid.u key.group_p
          s.r1_results.right (n + 1)) j) % key.group_p := by
    rw [e3']
    unfold accumulate_right_keys
    rw [accumulate_foldl _ _ _ hne, one_mul,
      StdMap.prod_values _ s.participants _ hsorted hkeys hvals]
  rw [computeKey_of_right_keys s key st hx hp e1 e2', hindex, hacc]

theorem wrapindex_eq_emod (N k : Int) (hN : 0 ≤ N) (hk : 1 ≤ k) :
    wrapindex N k = (k - 1) % N + 1 := by
  unfold wrapindex
  rw [Int.tmod_eq_emod (by omega) hN]

theorem right_keys_upto_size (r2 : StdMap Dutta_Barua_message) (N u : Int) (p right : Nat)
    (n : Nat) (hN : N = (n : Int) + 2) (hu1 : 1 ≤ u) (hu2 : u ≤ N) :
    (right_keys_upto r2 N u p right (n + 1)).size = n + 2 := by
  have hs := right_keys_upto_sorted r2 N u p right (n + 1)
  have hnd : ((right_keys_upto r2 N u p right (n + 1)).entries.map Prod.fst).Nodup := by
    refine List.Pairwise.imp ?_ hs
    intro a b hab
    exact ne_of_lt hab
  have hfin : ((right_keys_upto r2 N u p right (n + 1)).entries.map Prod.fst).toFinset
      = Finset.Icc (1 : Int) N := by
    ext q
    simp only [List.mem_toFinset, Finset.mem_Icc]
    rw [right_keys_upto_mem_keys r2 N u p right hu1 hu2 q (n + 1)]
    exact wrapindex_offset_cover N u n hN hu1 hu2 q
  have hcard := List.toFinset_card_of_nodup hnd
  rw [hfin, Int.card_Icc] at hcard
  unfold StdMap.size
  rw [List.length_map] at hcard
  have h2 : (N + 1 - 1).toNat = n + 2 := by omega
  omega

theorem right_keys_upto_recurrence (r2 : StdMap Dutta_Barua_message) (N u : Int)
    (p right : Nat) (n : Nat) (hN : N = (n : Int) + 2) (hu1 : 1 ≤ u) (hu2 : u ≤ N)
    (i : Int) (hi1 : 1 ≤ i) (hi2 : i ≤ N - 1) (m : Dutta_Barua_message)
    (hm : r2.find (wrapindex N (u + i)) = some m) :
    (right_keys_upto r2 N u p right (n + 1)).find (wrapindex N (u + i)) =
      some ((db_get_public_value m *
        right_key_at (right_keys_upto r2 N u p right (n + 1)) (wrapindex N (u + i - 1))) % p) := by
  obtain ⟨j, hj⟩ : ∃ j : Nat, i = (j : Int) + 1 := ⟨Int.toNat (i - 1), by
    rw [Int.toNat_of_nonneg (by omega)]; ring⟩
  subst hj
  have hjn : j + 1 ≤ n + 1 := by omega
  have hbound : ((n + 1 : Nat) : Int) + 1 ≤ N := by rw [hN]; push_cast; omega
  have h1 := right_keys_upto_find r2 N u p right hu1 hu2 (n + 1) hbound (j + 1) hjn
  have h0 := right_keys_upto_find r2 N u p right hu1 hu2 (n + 1) hbound j (by omega)
  have e1 : u + ((j + 1 : Nat) : Int) = u + ((j : Int) + 1) := by push_cast; rfl
  have e0 : u + ((j : Int) + 1) - 1 = u + (j : Int) := by ring
  rw [e1] at h1
  rw [h1, e0]
  have hY : stored_Y r2 (wrapindex N (u + ((j : Int) + 1))) = db_get_public_value m := by
    simp [stored_Y, StdMap.index, hm]
  simp only [right_key_at, h0, Option.getD_some, rightkey_seq, hY]

/-- Claim C3. For `N ≥ 2` participants, a local index `u` in `1..N`, a positive modulus
`p` and round-2 messages stored for every index `1..N`, the right-key computation of
`computeKey` succeeds and its map `right_keys` holds `r1_results.right` under `u`, and
under `wrapindex (u + i)`, for `i = 1..N-1`, the product modulo `p` of the `Y` decoded
from `r2_messages[wrapindex (u + i)]` with the right key under `wrapindex (u + i - 1)`;
`wrapindex k` is `((k - 1) mod N) + 1`, the `N` indices `wrapindex (u + i)` are pairwise
distinct, the map has exactly `N` entries, one for each index `1..N`, and when the
correctness check passes `shared_secret` is the product of the `N` right keys modulo `p`. -/
theorem computeKey_recurrence_and_product (s : Dutta_Barua_GKE) (key : DH_PrivateKey) (n : Nat)
    (hx : s.x_i = some key) (hp : key.group_p ≠ 0)
    (hN : s.participants = (n : Int) + 2)
    (hu1 : 1 ≤ s.uid.u) (hu2 : s.uid.u ≤ s.participants)
    (hall : ∀ j : Int, 1 ≤ j → j ≤ s.participants → (s.r2_messages.find j).isSome = true) :
    ∃ st : KeyLoop, computeKey_right_keys s key.group_p = some st ∧
      st.right_keys.find s.uid.u = some s.r1_results.right ∧
      (∀ (i : Int) (m : Dutta_Barua_message), 1 ≤ i → i ≤ s.participants - 1 →
        s.r2_messages.find (wrapindex s.participants (s.uid.u + i)) = some m →
        st.right_keys.find (wrapindex s.participants (s.uid.u + i)) =
          some ((db_get_public_value m *
            right_key_at st.right_keys (wrapindex s.participants (s.uid.u + i - 1)))
              % key.group_p)) ∧
      (∀ k : Int, 1 ≤ k → wrapindex s.participants k = (k - 1) % s.participants + 1) ∧
      (∀ i j : Int, 0 ≤ i → i < j → j ≤ s.participants - 1 →
        wrapindex s.participants (s.uid.u + i) ≠ wrapindex s.participants (s.uid.u + j)) ∧
      (st.right_keys.size : Int) = s.participants ∧
      (∀ q : Int, (st.right_keys.find q).isSome = true ↔ 1 ≤ q ∧ q ≤ s.participants) ∧
      (right_key_at st.right_keys (wrapindex s.participants (s.uid.u + s.participants - 1))
          = s.r1_results.left →
        (computeKey s).1 = Outcome.returned ∧
        (computeKey s).2.shared_secret =
          some ((∏ j in Finset.Icc (1 : Int) s.participants, right_key_at st.right_keys j)
            % key.group_p)) := by
  obtain ⟨st, e1, _, e3⟩ := computeKey_right_keys_spec s key.group_p n hN hu1 hu2 hall
  have hbound : ((n + 1 : Nat) : Int) + 1 ≤ s.participants := by rw [hN]; push_cast; omega
  refine ⟨st, e1, ?_, ?_, ?_, ?_, ?_, ?_, ?_⟩
  · have h0 := right_keys_upto_find s.r2_messages s.participants s.uid.u key.group_p
      s.r1_results.right hu1 hu2 (n + 1) hbound 0 (by omega)
    rw [wrapindex_add_zero _ _ hu1 hu2] at h0
    rw [e3, h0]
    rfl
  · intro i m hi1 hi2 hm
    rw [e3]
    exact right_keys_upto_recurrence s.r2_messages s.participants s.uid.u key.group_p
      s.r1_results.right n hN hu1 hu2 i hi1 hi2 m hm
  · intro k hk
    exact wrapindex_eq_emod s.participants k (by omega) hk
  · intro i j hi hij hj
    have h := wrapindex_offset_inj s.participants s.uid.u hu1 hu2 (Int.toNat i) (Int.toNat j)
      (by omega) (by rw [Int.toNat_of_nonneg (by omega)]; omega)
    rw [Int.toNat_of_nonneg hi, Int.toNat_of_nonneg (by omega)] at h
    exact h
  · rw [e3, right_keys_upto_size s.r2_messages s.participants s.uid.u key.group_p
      s.r1_results.right n hN hu1 hu2, hN]
    push_cast; ring
  · intro q
    rw [e3]
    unfold StdMap.find
    rw [StdMap.findEntries_isSome_iff,
      right_keys_upto_mem_keys s.r2_messages s.participants s.uid.u key.group_p
        s.r1_results.right hu1 hu2 q (n + 1)]
    exact wrapindex_offset_cover s.participants s.uid.u n hN hu1 hu2 q
  · intro hcheck
    have hlast : wrapindex s.participants (s.uid.u + s.participants - 1)
        = wrapindex s.participants (s.uid.u + ((n + 1 : Nat) : Int)) := by
      congr 1
      rw [hN]; push_cast; ring
    have hfind := right_keys_upto_find s.r2_messages s.participants s.uid.u key.group_p
      s.r1_results.right hu1 hu2 (n + 1) hbound (n + 1) (le_refl _)
    rw [e3, hlast] at hcheck
    simp only [right_key_at, hfind, Option.getD_some] at hcheck
    rw [computeKey_eval s key n hx hp hN hu1 hu2 hall, if_pos hcheck, e3]
    exact ⟨rfl, rfl⟩


/-! ## Evaluation of the rounds -/

theorem db_get_public_value_round_message (signer : DSA_signer) (uid : user_id) (round : Int)
    (v : Nat) : db_get_public_value (round_message signer uid round v) = v := by
  simp [db_get_public_value, round_message, binary_decode_encode_bits]

theorem power_mod_ne_zero (p a e : Nat) (hp : Nat.Prime p) (ha : ¬ p ∣ a) :
    power_mod a e p ≠ 0 := by
  unfold power_mod
  intro h
  exact ha (hp.dvd_of_dvd_pow (Nat.dvd_of_mod_eq_zero h))

theorem power_mod_lt (p a e : Nat) (hp : 0 < p) : power_mod a e p < p :=
  Nat.mod_lt _ hp

theorem power_mod_power_mod (p g a b : Nat) :
    power_mod (power_mod g a p) b p = g ^ (a * b) % p := by
  unfold power_mod
  rw [← Nat.pow_mod, ← pow_mul]

theorem not_dvd_of_pos_of_lt (p a : Nat) (h0 : a ≠ 0) (h1 : a < p) : ¬ p ∣ a := by
  intro h
  have := Nat.le_of_dvd (Nat.pos_of_ne_zero h0) h
  omega

theorem coprime_of_prime_of_lt (p a : Nat) (hp : Nat.Prime p) (h0 : a ≠ 0) (h1 : a < p) :
    Nat.Coprime a p := by
  rw [Nat.coprime_comm]
  exact (Nat.Prime.coprime_iff_not_dvd hp).2 (not_dvd_of_pos_of_lt p a h0 h1)

/-- Multiplying `a * b⁻¹ mod p` by `b` gives `a` back. -/
theorem mul_inverse_mod_cancel (p a b : Nat) (hp : Nat.Prime p) (ha : a < p) (hb0 : b ≠ 0)
    (hb : b < p) : ((a * inverse_mod b p) % p * b) % p = a := by
  have hinv := inverse_mod_spec b p hp.one_lt (coprime_of_prime_of_lt p b hp hb0 hb)
  rw [Nat.mod_mul_mod, mul_assoc, mul_comm (inverse_mod b p) b, Nat.mul_mod, hinv, mul_one,
    Nat.mod_mod, Nat.mod_eq_of_lt ha]

theorem mul_inverse_mod_ne_zero (p a b : Nat) (hp : Nat.Prime p) (ha0 : a ≠ 0) (ha : a < p)
    (hb0 : b ≠ 0) (hb : b < p) : (a * inverse_mod b p) % p ≠ 0 := by
  intro h
  have hc := mul_inverse_mod_cancel p a b hp ha hb0 hb
  rw [h] at hc
  simp at hc
  exact ha0 hc.symm

theorem round1_eval (signer : DSA_signer) (group : DL_Group) (rng_x : Nat)
    (s : Dutta_Barua_GKE) (h : power_mod group.g rng_x group.p ≠ 0) :
    round1 signer group rng_x s =
      (Outcome.returned,
        { s with partial_session_id := s.partial_session_id ++ [s.uid],
                 x_i := some { x := rng_x, group := group },
                 lcm_published := s.lcm_published ++
                   [round_message signer s.uid 1 (power_mod group.g rng_x group.p)] }) := by
  simp only [round1, db_set_public_value, DH_PrivateKey.get_y, h, if_false, sign_and_dispatch]
  rfl

theorem round2_eval (signer : DSA_signer) (s : Dutta_Barua_GKE) (key : DH_PrivateKey)
    (msgleft msgright : Dutta_Barua_message)
    (hl : s.r1_messages.left = some msgleft) (hr : s.r1_messages.right = some msgright)
    (hx : s.x_i = some key) (hp : Nat.Prime key.group_p)
    (hdl : ¬ key.group_p ∣ db_get_public_value msgleft)
    (hdr : ¬ key.group_p ∣ db_get_public_value msgright) :
    round2 signer s =
      (Outcome.returned,
        { s with
          r1_results :=
            { left := power_mod (db_get_public_value msgleft) key.x key.group_p,
              right := power_mod (db_get_public_value msgright) key.x key.group_p },
          r2_finished := true,
          lcm_published := s.lcm_published ++
            [round_message signer s.uid 2
              ((power_mod (db_get_public_value msgright) key.x key.group_p *
                inverse_mod (power_mod (db_get_public_value msgleft) key.x key.group_p)
                  key.group_p) % key.group_p)] }) := by
  have hL := power_mod_ne_zero key.group_p _ key.x hp hdl
  have hR := power_mod_ne_zero key.group_p _ key.x hp hdr
  have hp0 : key.group_p ≠ 0 := hp.ne_zero
  have hY := mul_inverse_mod_ne_zero key.group_p _ _ hp hR
    (power_mod_lt key.group_p (db_get_public_value msgright) key.x hp.pos) hL
    (power_mod_lt key.group_p (db_get_public_value msgleft) key.x hp.pos)
  simp only [round2, hl, hr, hx, DH_PrivateKey.get_x, hL, hR, hp0, hY, if_false,
    db_set_public_value, sign_and_dispatch]
  rfl


/-! ## The honest run -/

theorem wrapindex_pred_succ (N a : Int) (h1 : 1 ≤ a) (h2 : a + 1 ≤ 2 * N) :
    wrapindex N (wrapindex N (a + 1) + N - 1) = wrapindex N a := by
  rcases wrapindex_cases N (a + 1) (by omega) h2 with h | h
  · rw [h.2, wrapindex_of_gt N (a + 1 + N - 1) (by omega) (by omega),
      wrapindex_of_le N a h1 (by omega)]
    omega
  · rw [h.2]
    congr 1
    ring

theorem wrapindex_succ_pred (N u : Int) (h1 : 1 ≤ u) (h2 : u ≤ N) :
    wrapindex N (wrapindex N (u + N - 1) + 1) = u := by
  rcases wrapindex_cases N (u + N - 1) (by omega) (by omega) with h | h
  · rw [h.2, wrapindex_of_gt N (u + N - 1 + 1) (by omega) (by omega)]
    omega
  · rw [h.2, wrapindex_of_le N (u + N - 1 - N + 1) (by omega) (by omega)]
    omega

theorem honest_right_key_lt (group : DL_Group) (N : Int) (x : Int → Nat) (j : Int)
    (hp : Nat.Prime group.p) : honest_right_key group N x j < group.p :=
  Nat.mod_lt _ hp.pos

theorem honest_right_key_ne_zero (group : DL_Group) (N : Int) (x : Int → Nat) (j : Int)
    (hp : Nat.Prime group.p) (hg : ¬ group.p ∣ group.g) : honest_right_key group N x j ≠ 0 :=
  power_mod_ne_zero group.p group.g _ hp hg

theorem honest_round1_eq (signer : Int → DSA_signer) (group : DL_Group) (N : Int)
    (x : Int → Nat) (u : Int) (hp : Nat.Prime group.p) (hg : ¬ group.p ∣ group.g) :
    honest_round1 signer group N x u =
      (Outcome.returned,
        { Dutta_Barua_GKE.construct "239.255.76.67:7667" "clock" u N with
          partial_session_id := [{ u := u, d := 1 }],
          x_i := some { x := x u, group := group },
          lcm_published :=
            [round_message (signer u) { u := u, d := 1 } 1 (power_mod group.g (x u) group.p)] }) := by
  unfold honest_round1
  rw [round1_eval _ _ _ _ (power_mod_ne_zero group.p group.g (x u) hp hg)]
  rfl

theorem honest_r1_message_eq (signer : Int → DSA_signer) (group : DL_Group) (N : Int)
    (x : Int → Nat) (u : Int) (hp : Nat.Prime group.p) (hg : ¬ group.p ∣ group.g) :
    honest_r1_message signer group N x u =
      some (round_message (signer u) { u := u, d := 1 } 1 (power_mod group.g (x u) group.p)) := by
  unfold honest_r1_message
  rw [honest_round1_eq signer group N x u hp hg]
  rfl

theorem honest_round2_eq (signer : Int → DSA_signer) (group : DL_Group) (N : Int)
    (x : Int → Nat) (u : Int) (hp : Nat.Prime group.p) (hg : ¬ group.p ∣ group.g)
    (hu1 : 1 ≤ u) (hu2 : u ≤ N) :
    honest_round2 signer group N x u =
      (Outcome.returned,
        { honest_before_round2 signer group N x u with
          r1_results :=
            { left := honest_right_key group N x (wrapindex N (u + N - 1)),
              right := honest_right_key group N x u },
          r2_finished := true,
          lcm_published := (honest_before_round2 signer group N x u).lcm_published ++
            [round_message (signer u) { u := u, d := 1 } 2 (honest_Y group N x u)] }) := by
  have hl : (honest_before_round2 signer group N x u).r1_messages.left =
      some (round_message (signer (wrapindex N (u + N - 1)))
        { u := wrapindex N (u + N - 1), d := 1 } 1
        (power_mod group.g (x (wrapindex N (u + N - 1))) group.p)) :=
    honest_r1_message_eq signer group N x _ hp hg
  have hr : (honest_before_round2 signer group N x u).r1_messages.right =
      some (round_message (signer (wrapindex N (u + 1)))
        { u := wrapindex N (u + 1), d := 1 } 1
        (power_mod group.g (x (wrapindex N (u + 1))) group.p)) :=
    honest_r1_message_eq signer group N x _ hp hg
  have hx : (honest_before_round2 signer group N x u).x_i = some { x := x u, group := group } := by
    unfold honest_before_round2
    rw [honest_round1_eq signer group N x u hp hg]
  have huid : (honest_before_round2 signer group N x u).uid = { u := u, d := 1 } := by
    unfold honest_before_round2
    rw [honest_round1_eq signer group N x u hp hg]
    rfl
  have hnd : ∀ j : Int, ¬ group.p ∣ power_mod group.g (x j) group.p := fun j =>
    not_dvd_of_pos_of_lt group.p _ (power_mod_ne_zero group.p group.g (x j) hp hg)
      (power_mod_lt group.p group.g (x j) hp.pos)
  unfold honest_round2
  rw [round2_eval (signer u) _ { x := x u, group := group } _ _ hl hr hx hp
    (by rw [db_get_public_value_round_message]; exact hnd _)
    (by rw [db_get_public_value_round_message]; exact hnd _)]
  simp only [db_get_public_value_round_message, DH_PrivateKey.group_p, huid,
    power_mod_power_mod]
  have eL : group.g ^ (x (wrapindex N (u + N - 1)) * x u) % group.p =
      honest_right_key group N x (wrapindex N (u + N - 1)) := by
    unfold honest_right_key
    rw [wrapindex_succ_pred N u hu1 hu2]
  have eR : group.g ^ (x (wrapindex N (u + 1)) * x u) % group.p =
      honest_right_key group N x u := by
    unfold honest_right_key
    rw [mul_comm]
  rw [eL, eR]
  rfl

theorem honest_r2_message_eq (signer : Int → DSA_signer) (group : DL_Group) (N : Int)
    (x : Int → Nat) (u : Int) (hp : Nat.Prime group.p) (hg : ¬ group.p ∣ group.g)
    (hu1 : 1 ≤ u) (hu2 : u ≤ N) :
    honest_r2_message signer group N x u =
      some (round_message (signer u) { u := u, d := 1 } 2 (honest_Y group N x u)) := by
  unfold honest_r2_message
  rw [honest_round2_eq signer group N x u hp hg hu1 hu2]
  simp

theorem honest_stored_Y (signer : Int → DSA_signer) (group : DL_Group) (N : Int)
    (x : Int → Nat) (M : StdMap Dutta_Barua_message) (hp : Nat.Prime group.p)
    (hg : ¬ group.p ∣ group.g)
    (hM : ∀ j : Int, 1 ≤ j → j ≤ N → M.find j = honest_r2_message signer group N x j)
    (q : Int) (hq1 : 1 ≤ q) (hq2 : q ≤ N) : stored_Y M q = honest_Y group N x q := by
  have h := hM q hq1 hq2
  rw [honest_r2_message_eq signer group N x q hp hg hq1 hq2] at h
  simp [stored_Y, StdMap.index, h, db_get_public_value_round_message]

theorem honest_rightkey_seq (signer : Int → DSA_signer) (group : DL_Group) (N : Int)
    (x : Int → Nat) (M : StdMap Dutta_Barua_message) (u : Int) (hp : Nat.Prime group.p)
    (hg : ¬ group.p ∣ group.g) (hu1 : 1 ≤ u) (hu2 : u ≤ N)
    (hM : ∀ j : Int, 1 ≤ j → j ≤ N → M.find j = honest_r2_message signer group N x j) :
    ∀ i : Nat, (i : Int) + 1 ≤ N →
      rightkey_seq M N u group.p (honest_right_key group N x u) i =
        honest_right_key group N x (wrapindex N (u + (i : Int))) := by
  intro i
  induction i with
  | zero =>
    intro _
    rw [wrapindex_add_zero N u hu1 hu2]
    rfl
  | succ i ih =>
    intro hi
    have hi' : (i : Int) + 1 + 1 ≤ N := by push_cast at hi; omega
    have hi0 : (0 : Int) ≤ (i : Int) := Int.natCast_nonneg i
    have hr := wrapindex_range N (u + ((i : Int) + 1)) (by omega) (by omega)
    simp only [rightkey_seq]
    rw [ih (by omega), honest_stored_Y signer group N x M hp hg hM _ hr.1 hr.2]
    unfold honest_Y
    have hw : wrapindex N (wrapindex N (u + ((i : Int) + 1)) + N - 1) = wrapindex N (u + (i : Int)) := by
      have := wrapindex_pred_succ N (u + (i : Int)) (by omega) (by omega)
      rw [← this, add_assoc u]
    rw [hw, mul_inverse_mod_cancel group.p _ _ hp (honest_right_key_lt group N x _ hp)
      (honest_right_key_ne_zero group N x _ hp hg) (honest_right_key_lt group N x _ hp)]
    congr 2


theorem honest_key_state_fields (signer : Int → DSA_signer) (group : DL_Group) (N : Int)
    (x : Int → Nat) (M : StdMap Dutta_Barua_message) (u : Int) (hp : Nat.Prime group.p)
    (hg : ¬ group.p ∣ group.g) (hu1 : 1 ≤ u) (hu2 : u ≤ N)
    (sK : Dutta_Barua_GKE)
    (hsK : sK = { (honest_round2 signer group N x u).2 with r2_messages := M }) :
    sK.x_i = some { x := x u, group := group } ∧ sK.participants = N ∧ sK.uid.u = u ∧
    sK.r1_results.left = honest_right_key group N x (wrapindex N (u + N - 1)) ∧
    sK.r1_results.right = honest_right_key group N x u ∧
    sK.r2_messages = M ∧ sK.evloop_channel_finished = 0 ∧ sK.shared_secret = none := by
  subst hsK
  rw [honest_round2_eq signer group N x u hp hg hu1 hu2]
  unfold honest_before_round2
  rw [honest_round1_eq signer group N x u hp hg]
  exact ⟨rfl, rfl, rfl, rfl, rfl, rfl, rfl, rfl⟩

theorem honest_right_keys_find (signer : Int → DSA_signer) (group : DL_Group) (N : Int)
    (x : Int → Nat) (M : StdMap Dutta_Barua_message) (u : Int) (n : Nat)
    (hp : Nat.Prime group.p) (hg : ¬ group.p ∣ group.g) (hN : N = (n : Int) + 2)
    (hu1 : 1 ≤ u) (hu2 : u ≤ N)
    (hM : ∀ j : Int, 1 ≤ j → j ≤ N → M.find j = honest_r2_message signer group N x j)
    (q : Int) (hq1 : 1 ≤ q) (hq2 : q ≤ N) :
    (right_keys_upto M N u group.p (honest_right_key group N x u) (n + 1)).find q =
      some (honest_right_key group N x q) := by
  obtain ⟨i, hi, e⟩ := (wrapindex_offset_cover N u n hN hu1 hu2 q).2 ⟨hq1, hq2⟩
  have hbound : ((n + 1 : Nat) : Int) + 1 ≤ N := by rw [hN]; push_cast; omega
  have hib : (i : Int) + 1 ≤ N := by
    have : (i : Int) ≤ ((n + 1 : Nat) : Int) := by exact_mod_cast hi
    omega
  rw [e, right_keys_upto_find M N u group.p _ hu1 hu2 (n + 1) hbound i hi,
    honest_rightkey_seq signer group N x M u hp hg hu1 hu2 hM i hib]

/-- In an honest run `computeKey` of participant `u` passes the correctness check and sets
`shared_secret` to the product of the honest right keys of all participants. -/
theorem honest_computeKey_eval (signer : Int → DSA_signer) (group : DL_Group) (N : Int)
    (x : Int → Nat) (M : StdMap Dutta_Barua_message) (u : Int)
    (hp : Nat.Prime group.p) (hg : ¬ group.p ∣ group.g) (hN : 2 ≤ N)
    (hu1 : 1 ≤ u) (hu2 : u ≤ N)
    (hM : ∀ j : Int, 1 ≤ j → j ≤ N → M.find j = honest_r2_message signer group N x j) :
    (honest_computeKey signer group N x M u).1 = Outcome.returned ∧
    (honest_computeKey signer group N x M u).2.shared_secret =
      some ((∏ j in Finset.Icc (1 : Int) N, honest_right_key group N x j) % group.p) ∧
    (honest_computeKey signer group N x M u).2.evloop_channel_finished = 1 := by
  obtain ⟨n, hn⟩ : ∃ n : Nat, N = (n : Int) + 2 :=
    ⟨Int.toNat (N - 2), by rw [Int.toNat_of_nonneg (by omega)]; ring⟩
  obtain ⟨f1, f2, f3, f4, f5, f6, f7, _⟩ := honest_key_state_fields signer group N x M u hp hg
    hu1 hu2 _ rfl
  have hp0 : (DH_PrivateKey.group_p { x := x u, group := group }) ≠ 0 := hp.ne_zero
  have hall : ∀ j : Int, 1 ≤ j → j ≤ N → (M.find j).isSome = true := by
    intro j h1 h2
    rw [hM j h1 h2, honest_r2_message_eq signer group N x j hp hg h1 h2]
    rfl
  have h := computeKey_eval _ { x := x u, group := group } n f1 hp0 (by rw [f2]; exact hn)
    (by rw [f3]; exact hu1) (by rw [f3, f2]; exact hu2) (by rw [f6, f2]; exact hall)
  rw [f2, f3, f4, f5, f6, f7] at h
  have hib : ((n + 1 : Nat) : Int) + 1 ≤ N := by rw [hn]; push_cast; omega
  have hseq := honest_rightkey_seq signer group N x M u hp hg hu1 hu2 hM (n + 1) hib
  have hlast : wrapindex N (u + ((n + 1 : Nat) : Int)) = wrapindex N (u + N - 1) := by
    congr 1
    rw [hn]; push_cast; ring
  rw [hlast] at hseq
  have hp' : (DH_PrivateKey.group_p { x := x u, group := group }) = group.p := rfl
  rw [hp'] at h
  rw [if_pos hseq] at h
  have hprod : (∏ j in Finset.Icc (1 : Int) N,
      right_key_at (right_keys_upto M N u group.p (honest_right_key group N x u) (n + 1)) j)
      = ∏ j in Finset.Icc (1 : Int) N, honest_right_key group N x j := by
    apply Finset.prod_congr rfl
    intro j hj
    rw [Finset.mem_Icc] at hj
    simp only [right_key_at, honest_right_keys_find signer group N x M u n hp hg hn hu1 hu2 hM
      j hj.1 hj.2, Option.getD_some]
  rw [hprod] at h
  unfold honest_computeKey
  rw [h]
  exact ⟨rfl, rfl, rfl⟩


/-! ## `computeKey`: the correctness check -/

theorem computeKey_x_i_none (s : Dutta_Barua_GKE) (hx : s.x_i = none) :
    computeKey s = (Outcome.aborted, computeKey_pushed s) := by
  have hx' : (computeKey_pushed s).x_i = none := hx
  unfold computeKey
  simp only [hx']

theorem computeKey_zero_modulus (s : Dutta_Barua_GKE) (key : DH_PrivateKey)
    (hx : s.x_i = some key) (hp : key.group_p = 0) :
    computeKey s = (Outcome.raised "BigInt::DivideByZero",
      { computeKey_pushed s with r2_messages :=
        (s.r2_messages.index default (wrapindex s.participants (s.uid.u + 1))).2 }) := by
  have hx' : (computeKey_pushed s).x_i = some key := hx
  unfold computeKey
  simp only [hx', hp, if_true]
  rfl

theorem computeKey_assert_fails (s : Dutta_Barua_GKE) (key : DH_PrivateKey)
    (hx : s.x_i = some key) (hp : key.group_p ≠ 0)
    (hk : computeKey_right_keys s key.group_p = none) :
    computeKey s = (Outcome.aborted, computeKey_pushed s) := by
  have hx' : (computeKey_pushed s).x_i = some key := hx
  have hk' : computeKey_right_keys (computeKey_pushed s) key.group_p = none := hk
  unfold computeKey
  simp only [hx', hp, if_false, hk']

/-- Unfolding of `computeKey` once the right-key computation has succeeded. -/
theorem computeKey_checked (s : Dutta_Barua_GKE) (key : DH_PrivateKey) (st : KeyLoop)
    (hx : s.x_i = some key) (hp : key.group_p ≠ 0)
    (hk : computeKey_right_keys s key.group_p = some st) :
    computeKey s =
      if (st.right_keys.index BigInt_default
          (wrapindex s.participants (s.uid.u + s.participants - 1))).1 = s.r1_results.left then
        (Outcome.returned,
          { computeKey_pushed s with
            r2_messages := st.r2_messages,
            shared_secret := some (accumulate_right_keys (st.right_keys.index BigInt_default
              (wrapindex s.participants (s.uid.u + s.participants - 1))).2 key.group_p),
            evloop_channel_finished := s.evloop_channel_finished + 1 })
      else (Outcome.returned, { computeKey_pushed s with r2_messages := st.r2_messages }) := by
  have hx' : (computeKey_pushed s).x_i = some key := hx
  have hk' : computeKey_right_keys (computeKey_pushed s) key.group_p = some st := hk
  unfold computeKey
  simp only [hx', hp, if_false, hk']
  by_cases hc : (st.right_keys.index BigInt_default
      (wrapindex s.participants (s.uid.u + s.participants - 1))).1 = s.r1_results.left
  · rw [if_pos hc]
    have hd : decide ((st.right_keys.index BigInt_default
      (wrapindex s.participants (s.uid.u + s.participants - 1))).1 = s.r1_results.left) = true :=
      decide_eq_true hc
    simp only [computeKey_pushed] at hd ⊢
    rw [if_pos hd]
  · rw [if_neg hc]
    have hd : ¬ (decide ((st.right_keys.index BigInt_default
      (wrapindex s.participants (s.uid.u + s.participants - 1))).1 = s.r1_results.left) = true) := by
      simpa using hc
    simp only [computeKey_pushed] at hd ⊢
    rw [if_neg hd]

/-- Claim C6. When the right key computed for the index `wrapindex (u + N - 1)` differs
from `r1_results.left`, `computeKey` returns (it neither raises nor aborts), leaves
`shared_secret` as it was and does not signal `channel_finished`; conversely, whenever
`computeKey` changes `shared_secret` or signals `channel_finished`, the right keys were
computed and the correctness check passed. -/
theorem computeKey_no_key_on_failed_check (s : Dutta_Barua_GKE) :
    (∀ (key : DH_PrivateKey) (st : KeyLoop), s.x_i = some key → key.group_p ≠ 0 →
      computeKey_right_keys s key.group_p = some st →
      (st.right_keys.index BigInt_default
        (wrapindex s.participants (s.uid.u + s.participants - 1))).1 ≠ s.r1_results.left →
      (computeKey s).1 = Outcome.returned ∧
      (computeKey s).2.shared_secret = s.shared_secret ∧
      (computeKey s).2.evloop_channel_finished = s.evloop_channel_finished ∧
      (computeKey s).2.evloop_tasks = s.evloop_tasks) ∧
    (((computeKey s).2.shared_secret ≠ s.shared_secret ∨
        (computeKey s).2.evloop_channel_finished ≠ s.evloop_channel_finished) →
      ∃ (key : DH_PrivateKey) (st : KeyLoop), s.x_i = some key ∧ key.group_p ≠ 0 ∧
        computeKey_right_keys s key.group_p = some st ∧
        (st.right_keys.index BigInt_default
          (wrapindex s.participants (s.uid.u + s.participants - 1))).1 = s.r1_results.left) := by
  constructor
  · intro key st hx hp hk hne
    rw [computeKey_checked s key st hx hp hk, if_neg hne]
    exact ⟨rfl, rfl, rfl, rfl⟩
  · intro hchg
    cases hx : s.x_i with
    | none =>
      rw [computeKey_x_i_none s hx] at hchg
      rcases hchg with h | h <;> exact absurd rfl h
    | some key =>
      by_cases hp : key.group_p = 0
      · rw [computeKey_zero_modulus s key hx hp] at hchg
        rcases hchg with h | h <;> exact absurd rfl h
      · cases hk : computeKey_right_keys s key.group_p with
        | none =>
          rw [computeKey_assert_fails s key hx hp hk] at hchg
          rcases hchg with h | h <;> exact absurd rfl h
        | some st =>
          refine ⟨key, st, rfl, hp, hk, ?_⟩
          by_contra hne
          rw [computeKey_checked s key st hx hp hk, if_neg hne] at hchg
          rcases hchg with h | h <;> exact absurd rfl h

/-! ## `on_msg`: dropped and rejected messages -/

/-- Claim C8. A message the verifier rejects leaves the whole exchange state, hence
`r1_messages`, `r2_messages`, `r1_results`, `r2_finished` and `shared_secret`, as it was;
`on_msg` returns without raising and the task queue of the event loop is unchanged. -/
theorem on_msg_auth_failure (verifier : DSA_verifier) (s : Dutta_Barua_GKE)
    (msg : Dutta_Barua_message)
    (hv : verifier.db_verify msg s.mcastgroup s.channelname = false) :
    on_msg verifier s msg = (Outcome.returned, s) := by
  unfold on_msg
  by_cases h : msg.round = 1 ∧ is_neighbour s msg = false
  · rw [if_pos h]
  · rw [if_neg h, if_pos hv]

/-- Claim C9. A round-1 message whose sender is neither the left neighbour
`((u - 2 + N) mod N) + 1` nor the right neighbour `(u mod N) + 1` is dropped whatever the
verifier says: `on_msg` returns without raising and the state (stored messages and posted
tasks included) is unchanged. -/
theorem on_msg_non_neighbour_round1 (verifier : DSA_verifier) (s : Dutta_Barua_GKE)
    (msg : Dutta_Barua_message) (hround : msg.round = 1)
    (hleft : msg.u ≠ ((s.uid.u - 2 + s.participants) % s.participants) + 1)
    (hright : msg.u ≠ (s.uid.u % s.participants) + 1) :
    on_msg verifier s msg = (Outcome.returned, s) := by
  have hl : is_left_neighbour s msg = false := decide_eq_false hleft
  have hr : is_right_neighbour s msg = false := decide_eq_false hright
  have hn : is_neighbour s msg = false := by
    unfold is_neighbour
    rw [hl, hr]
    rfl
  unfold on_msg
  rw [if_pos ⟨hround, hn⟩]

theorem on_msg_store_none_iff (s : Dutta_Barua_GKE) (msg : Dutta_Barua_message) :
    on_msg_store s msg = none ↔ msg.round ≠ 1 ∧ msg.round ≠ 2 := by
  unfold on_msg_store
  by_cases h1 : msg.round = 1
  · simp [h1]
  · by_cases h2 : msg.round = 2
    · simp [h2]
    · simp [h1, h2]

/-- Claim C10. `on_msg` raises exactly when the verifier accepts the message and its round
is neither 1 nor 2, and when it raises the state (round state and posted tasks) is the
one before the call. -/
theorem on_msg_raises_iff (verifier : DSA_verifier) (s : Dutta_Barua_GKE)
    (msg : Dutta_Barua_message) :
    ((∃ what, (on_msg verifier s msg).1 = Outcome.raised what) ↔
      (verifier.db_verify msg s.mcastgroup s.channelname = true ∧
        msg.round ≠ 1 ∧ msg.round ≠ 2)) ∧
    (∀ what, (on_msg verifier s msg).1 = Outcome.raised what →
      (on_msg verifier s msg).2 = s) := by
  unfold on_msg
  by_cases h : msg.round = 1 ∧ is_neighbour s msg = false
  · rw [if_pos h]
    refine ⟨⟨?_, ?_⟩, ?_⟩
    · rintro ⟨w, hw⟩
      cases hw
    · rintro ⟨_, h1, _⟩
      exact absurd h.1 h1
    · intro w hw
      cases hw
  · rw [if_neg h]
    by_cases hv : verifier.db_verify msg s.mcastgroup s.channelname = false
    · rw [if_pos hv]
      refine ⟨⟨?_, ?_⟩, ?_⟩
      · rintro ⟨w, hw⟩
        cases hw
      · rintro ⟨h0, _, _⟩
        rw [hv] at h0
        cases h0
      · intro w hw
        cases hw
    · rw [if_neg hv]
      have hv' : verifier.db_verify msg s.mcastgroup s.channelname = true := by
        simpa using hv
      cases hst : on_msg_store s msg with
      | none =>
        have hr := (on_msg_store_none_iff s msg).1 hst
        refine ⟨⟨fun _ => ⟨hv', hr⟩, fun _ => ⟨_, rfl⟩⟩, fun _ _ => rfl⟩
      | some s1 =>
        have hr : ¬ (msg.round ≠ 1 ∧ msg.round ≠ 2) := by
          intro hc
          rw [(on_msg_store_none_iff s msg).2 hc] at hst
          cases hst
        refine ⟨⟨?_, ?_⟩, ?_⟩
        · rintro ⟨w, hw⟩
          cases hw
        · rintro ⟨_, h1, h2⟩
          exact absurd ⟨h1, h2⟩ hr
        · intro w hw
          cases hw


/-! ## Claims on the honest run -/

/-- Claim C1. In an honest run over a prime modulus `p` with a generator `g` not divisible
by `p`, with `N ≥ 2` participants and arbitrary secret exponents, where every participant
publishes `g^x mod p` in `round1`, runs `round2` on its two ring neighbours' round-1
messages and runs `computeKey` on a map holding the round-2 messages of all participants:
for any two participants `u` and `v`, the rounds of `u` return, its `computeKey` passes
the correctness check (it signals `channel_finished` and sets `shared_secret`), and `u`
and `v` hold the same `shared_secret`. -/
theorem honest_run_agreement (signer : Int → DSA_signer) (group : DL_Group) (N : Int)
    (x : Int → Nat) (M : StdMap Dutta_Barua_message) (u v : Int)
    (hp : Nat.Prime group.p) (hg : ¬ group.p ∣ group.g) (hN : 2 ≤ N)
    (hu1 : 1 ≤ u) (hu2 : u ≤ N) (hv1 : 1 ≤ v) (hv2 : v ≤ N)
    (hM : ∀ j : Int, 1 ≤ j → j ≤ N → M.find j = honest_r2_message signer group N x j) :
    (honest_round1 signer group N x u).1 = Outcome.returned ∧
    (honest_round2 signer group N x u).1 = Outcome.returned ∧
    (honest_computeKey signer group N x M u).1 = Outcome.returned ∧
    (honest_computeKey signer group N x M u).2.evloop_channel_finished = 1 ∧
    (honest_computeKey signer group N x M u).2.shared_secret.isSome = true ∧
    (honest_computeKey signer group N x M u).2.shared_secret =
      (honest_computeKey signer group N x M v).2.shared_secret := by
  obtain ⟨a1, a2, a3⟩ := honest_computeKey_eval signer group N x M u hp hg hN hu1 hu2 hM
  obtain ⟨_, b2, _⟩ := honest_computeKey_eval signer group N x M v hp hg hN hv1 hv2 hM
  refine ⟨?_, ?_, a1, a3, ?_, ?_⟩
  · rw [honest_round1_eq signer group N x u hp hg]
  · rw [honest_round2_eq signer group N x u hp hg hu1 hu2]
  · rw [a2]; rfl
  · rw [a2, b2]

/-- Claim C2. In an honest run (prime `p`, generator not divisible by `p`, `N ≥ 2`), the
right-key computation of `computeKey` at participant `u` succeeds, the right key it stores
for every index `j` in `1..N` is participant `j`'s own `r1_results.right`, which is
`X_(j+1)^(x_j) mod p`, the right key stored for `wrapindex (u + N - 1)` is `u`'s
`r1_results.left`, and `computeKey` passes the correctness check: it returns, sets
`shared_secret` and signals `channel_finished`. -/
theorem honest_run_closure (signer : Int → DSA_signer) (group : DL_Group) (N : Int)
    (x : Int → Nat) (M : StdMap Dutta_Barua_message) (u : Int)
    (hp : Nat.Prime group.p) (hg : ¬ group.p ∣ group.g) (hN : 2 ≤ N)
    (hu1 : 1 ≤ u) (hu2 : u ≤ N)
    (hM : ∀ j : Int, 1 ≤ j → j ≤ N → M.find j = honest_r2_message signer group N x j) :
    ∃ st : KeyLoop,
      computeKey_right_keys
        { (honest_round2 signer group N x u).2 with r2_messages := M } group.p = some st ∧
      (∀ j : Int, 1 ≤ j → j ≤ N →
        st.right_keys.find j = some (honest_round2 signer group N x j).2.r1_results.right ∧
        (honest_round2 signer group N x j).2.r1_results.right =
          power_mod (power_mod group.g (x (wrapindex N (j + 1))) group.p) (x j) group.p) ∧
      st.right_keys.find (wrapindex N (u + N - 1)) =
        some (honest_round2 signer group N x u).2.r1_results.left ∧
      (honest_computeKey signer group N x M u).1 = Outcome.returned ∧
      (honest_computeKey signer group N x M u).2.shared_secret.isSome = true ∧
      (honest_computeKey signer group N x M u).2.evloop_channel_finished = 1 := by
  obtain ⟨n, hn⟩ : ∃ n : Nat, N = (n : Int) + 2 :=
    ⟨Int.toNat (N - 2), by rw [Int.toNat_of_nonneg (by omega)]; ring⟩
  obtain ⟨_, f2, f3, f4, f5, f6, _, _⟩ := honest_key_state_fields signer group N x M u hp hg
    hu1 hu2 _ rfl
  have hall : ∀ j : Int, 1 ≤ j → j ≤ N → (M.find j).isSome = true := by
    intro j h1 h2
    rw [hM j h1 h2, honest_r2_message_eq signer group N x j hp hg h1 h2]
    rfl
  obtain ⟨st, e1, _, e3⟩ := computeKey_right_keys_spec
    { (honest_round2 signer group N x u).2 with r2_messages := M } group.p n
    (by rw [f2]; exact hn) (by rw [f3]; exact hu1) (by rw [f3, f2]; exact hu2)
    (by rw [f6, f2]; exact hall)
  rw [f2, f3, f5, f6] at e3
  obtain ⟨a1, a2, a3⟩ := honest_computeKey_eval signer group N x M u hp hg hN hu1 hu2 hM
  have hright : ∀ j : Int, 1 ≤ j → j ≤ N →
      (honest_round2 signer group N x j).2.r1_results.right = honest_right_key group N x j := by
    intro j h1 h2
    rw [honest_round2_eq signer group N x j hp hg h1 h2]
  have hleft : (honest_round2 signer group N x u).2.r1_results.left =
      honest_right_key group N x (wrapindex N (u + N - 1)) := by
    rw [honest_round2_eq signer group N x u hp hg hu1 hu2]
  refine ⟨st, e1, ?_, ?_, a1, ?_, a3⟩
  · intro j h1 h2
    rw [e3, hright j h1 h2]
    refine ⟨honest_right_keys_find signer group N x M u n hp hg hn hu1 hu2 hM j h1 h2, ?_⟩
    rw [power_mod_power_mod, mul_comm]
    rfl
  · have hr := wrapindex_range N (u + N - 1) (by omega) (by omega)
    rw [e3, hleft]
    exact honest_right_keys_find signer group N x M u n hp hg hn hu1 hu2 hM _ hr.1 hr.2
  · rw [a2]; rfl

/-- Claim C4 (amended). For `N = 2` honest participants with exponents `x 1` and `x 2`
over a prime modulus `p` and a generator not divisible by `p`, the `shared_secret` that
`computeKey` produces at either participant is `g^(2 * x_1 * x_2) mod p`: the product of
the two right keys, each of which is the pairwise Diffie–Hellman value. -/
theorem two_party_secret (signer : Int → DSA_signer) (group : DL_Group) (x : Int → Nat)
    (M : StdMap Dutta_Barua_message) (u : Int)
    (hp : Nat.Prime group.p) (hg : ¬ group.p ∣ group.g) (hu : u = 1 ∨ u = 2)
    (hM : ∀ j : Int, 1 ≤ j → j ≤ 2 → M.find j = honest_r2_message signer group 2 x j) :
    (honest_computeKey signer group 2 x M u).1 = Outcome.returned ∧
    (honest_computeKey signer group 2 x M u).2.shared_secret =
      some (group.g ^ (2 * (x 1 * x 2)) % group.p) := by
  obtain ⟨a1, a2, _⟩ := honest_computeKey_eval signer group 2 x M u hp hg (le_refl 2)
    (by omega) (by omega) hM
  refine ⟨a1, ?_⟩
  rw [a2]
  have hIcc : Finset.Icc (1 : Int) 2 = {1, 2} := by decide
  have h1 : honest_right_key group 2 x 1 = group.g ^ (x 1 * x 2) % group.p := by
    unfold honest_right_key
    rw [show wrapindex 2 (1 + 1) = 2 from by decide]
  have h2 : honest_right_key group 2 x 2 = group.g ^ (x 1 * x 2) % group.p := by
    unfold honest_right_key
    rw [show wrapindex 2 (2 + 1) = 1 from by decide, mul_comm]
  rw [hIcc, Finset.prod_pair (by decide), h1, h2, ← Nat.mul_mod, ← pow_add, two_mul]

/-- Claim C4, as stated, fails: with `p = 7`, `g = 3` and both exponents equal to 1 the
two-party `shared_secret` is `2`, while `g^(x_1 x_2) mod p` is `3`. -/
theorem two_party_secret_is_not_pairwise_value :
    (honest_computeKey example_signer { p := 7, g := 3 } 2 (fun _ => 1)
      (honest_r2_map example_signer { p := 7, g := 3 } 2 (fun _ => 1) 2) 1).2.shared_secret
      ≠ some (power_mod 3 (1 * 1) 7) := by
  decide

/-- Claim C5. When both `r1_messages.left` and `r1_messages.right` hold the same round-1
message of the single peer (the two-party case), whose public value is a group element
(not divisible by the prime `p`), `round2` returns with
`r1_results.left == r1_results.right` and `r2_finished` set, and the round-2 message it
publishes carries the value 1. -/
theorem two_party_round2 (signer : DSA_signer) (s : Dutta_Barua_GKE) (key : DH_PrivateKey)
    (peer : Dutta_Barua_message)
    (hl : s.r1_messages.left = some peer) (hr : s.r1_messages.right = some peer)
    (hx : s.x_i = some key) (hp : Nat.Prime key.group_p)
    (hd : ¬ key.group_p ∣ db_get_public_value peer) :
    (round2 signer s).1 = Outcome.returned ∧
    (round2 signer s).2.r1_results.left = (round2 signer s).2.r1_results.right ∧
    (round2 signer s).2.r2_finished = true ∧
    ∃ msg : Dutta_Barua_message,
      (round2 signer s).2.lcm_published = s.lcm_published ++ [msg] ∧
      msg.u = s.uid.u ∧ msg.round = 2 ∧ db_get_public_value msg = 1 ∧
      msg.public_value = [1] := by
  have hL := power_mod_ne_zero key.group_p _ key.x hp hd
  have hlt := power_mod_lt key.group_p (db_get_public_value peer) key.x hp.pos
  have hY : (power_mod (db_get_public_value peer) key.x key.group_p *
      inverse_mod (power_mod (db_get_public_value peer) key.x key.group_p) key.group_p)
      % key.group_p = 1 :=
    inverse_mod_spec _ _ hp.one_lt (coprime_of_prime_of_lt _ _ hp hL hlt)
  rw [round2_eval signer s key peer peer hl hr hx hp hd hd, hY]
  refine ⟨rfl, rfl, rfl, _, rfl, rfl, rfl, ?_, ?_⟩
  · exact db_get_public_value_round_message signer s.uid 2 1
  · show binary_encode 1 (bits 1) = [1]
    decide


/-! ## The theorems at concrete inputs -/

theorem example_r2_map_find : ∀ j : Int, 1 ≤ j → j ≤ 3 →
    example_r2_map.find j = honest_r2_message example_signer example_group 3 example_x j := by
  intro j h1 h2
  interval_cases j <;> decide

theorem example_r2_map2_find : ∀ j : Int, 1 ≤ j → j ≤ 2 →
    example_r2_map2.find j =
      honest_r2_message example_signer example_group2 2 (fun _ => 1) j := by
  intro j h1 h2
  interval_cases j <;> decide

theorem example_group_prime : Nat.Prime example_group.p := by
  norm_num [example_group]

theorem example_group2_prime : Nat.Prime example_group2.p := by
  norm_num [example_group2]

/-- Claim C1 at the three-party example run: participants 1 and 2 agree. -/
theorem honest_run_agreement_witness :
    (honest_round1 example_signer example_group 3 example_x 1).1 = Outcome.returned ∧
    (honest_round2 example_signer example_group 3 example_x 1).1 = Outcome.returned ∧
    (honest_computeKey example_signer example_group 3 example_x example_r2_map 1).1
      = Outcome.returned ∧
    (honest_computeKey example_signer example_group 3 example_x example_r2_map
      1).2.evloop_channel_finished = 1 ∧
    (honest_computeKey example_signer example_group 3 example_x example_r2_map
      1).2.shared_secret.isSome = true ∧
    (honest_computeKey example_signer example_group 3 example_x example_r2_map
      1).2.shared_secret =
    (honest_computeKey example_signer example_group 3 example_x example_r2_map
      2).2.shared_secret :=
  honest_run_agreement example_signer example_group 3 example_x example_r2_map 1 2
    example_group_prime (by decide) (by decide) (by decide) (by decide) (by decide) (by decide)
    example_r2_map_find

/-- Claim C2 at the three-party example run, participant 3. -/
theorem honest_run_closure_witness :
    ∃ st : KeyLoop,
      computeKey_right_keys
        { (honest_round2 example_signer example_group 3 example_x 3).2 with
          r2_messages := example_r2_map } example_group.p = some st ∧
      st.right_keys.find (wrapindex 3 (3 + 3 - 1)) =
        some (honest_round2 example_signer example_group 3 example_x 3).2.r1_results.left :=
  (honest_run_closure example_signer example_group 3 example_x example_r2_map 3
    example_group_prime (by decide) (by decide) (by decide) (by decide)
    example_r2_map_find).imp (fun _ h => ⟨h.1, h.2.2.1⟩)

/-- Claim C3 at participant 1 of the three-party example run. -/
theorem computeKey_recurrence_and_product_witness :
    ∃ st : KeyLoop, computeKey_right_keys example_key_state 11 = some st ∧
      st.right_keys.find 1 = some example_key_state.r1_results.right ∧
      (st.right_keys.size : Int) = 3 :=
  (computeKey_recurrence_and_product example_key_state { x := 3, group := example_group } 1
    (by decide) (by decide) (by decide) (by decide) (by decide)
    (by
      intro j h1 h2
      have h3 : example_key_state.participants = 3 := by decide
      rw [h3] at h2
      interval_cases j <;> decide)).imp (fun _ h => ⟨h.1, h.2.1, h.2.2.2.2.2.1⟩)

/-- Claim C4 (amended) at the two-party example: the secret is `3^2 mod 7 = 2`. -/
theorem two_party_secret_witness :
    (honest_computeKey example_signer example_group2 2 (fun _ => 1) example_r2_map2 1).1
      = Outcome.returned ∧
    (honest_computeKey example_signer example_group2 2 (fun _ => 1) example_r2_map2
      1).2.shared_secret = some (example_group2.g ^ (2 * (1 * 1)) % example_group2.p) :=
  two_party_secret example_signer example_group2 (fun _ => 1) example_r2_map2 1
    example_group2_prime (by decide) (Or.inl rfl) example_r2_map2_find

/-- Claim C5 at participant 1 of the two-party example. -/
theorem two_party_round2_witness :
    (round2 (example_signer 1)
      (honest_before_round2 example_signer example_group2 2 (fun _ => 1) 1)).1
      = Outcome.returned ∧
    (round2 (example_signer 1)
      (honest_before_round2 example_signer example_group2 2 (fun _ => 1) 1)).2.r1_results.left =
    (round2 (example_signer 1)
      (honest_before_round2 example_signer example_group2 2 (fun _ => 1) 1)).2.r1_results.right :=
  have h := two_party_round2 (example_signer 1)
    (honest_before_round2 example_signer example_group2 2 (fun _ => 1) 1)
    { x := 1, group := example_group2 }
    (round_message (example_signer 2) { u := 2, d := 1 } 1 3)
    (by decide) (by decide) (by decide) example_group2_prime (by decide)
  ⟨h.1, h.2.1⟩

/-- Claim C6 at the example whose stored round-2 value was altered: the check fails, no
key is set, nothing is signalled. -/
theorem computeKey_no_key_on_failed_check_witness :
    (computeKey example_failing_state).1 = Outcome.returned ∧
    (computeKey example_failing_state).2.shared_secret = example_failing_state.shared_secret ∧
    (computeKey example_failing_state).2.evloop_channel_finished =
      example_failing_state.evloop_channel_finished ∧
    (computeKey example_failing_state).2.evloop_tasks = example_failing_state.evloop_tasks :=
  (computeKey_no_key_on_failed_check example_failing_state).1
    { x := 3, group := example_group }
    { r2_messages := example_failing_state.r2_messages, Y := 4, current_rightkey := 2,
      right_keys := { entries := [(1, 10), (2, 6), (3, 2)] } }
    (by decide) (by decide) (by decide) (by decide)

/-- Claim C7, evaluated at the same example: after the failed correctness check
`computeKey` has returned, member `state` still has its initial value (it is not
`failed`), `shared_secret` is absent as before, and apart from the session-id vector the
exchange state is the one before the call. -/
theorem computeKey_failure_not_recorded :
    (computeKey example_failing_state).1 = Outcome.returned ∧
    (computeKey example_failing_state).2.state = STATE.keyexchg_not_started ∧
    (computeKey example_failing_state).2.state ≠ STATE.failed ∧
    (computeKey example_failing_state).2.shared_secret = none ∧
    ({ (computeKey example_failing_state).2 with
        partial_session_id := example_failing_state.partial_session_id } : Dutta_Barua_GKE)
      = example_failing_state := by
  decide

/-- Claim C8 at a rejected round-2 message. -/
theorem on_msg_auth_failure_witness :
    on_msg example_rejecting_verifier example_ring5_state (example_message 2) =
      (Outcome.returned, example_ring5_state) :=
  on_msg_auth_failure example_rejecting_verifier example_ring5_state (example_message 2)
    (by decide)

/-- Claim C9 at `u = 3` in a ring of five receiving round 1 from sender 1, the signature
being valid. -/
theorem on_msg_non_neighbour_round1_witness :
    example_verifier.db_verify (example_message 1) example_ring5_state.mcastgroup
      example_ring5_state.channelname = true ∧
    on_msg example_verifier example_ring5_state (example_message 1) =
      (Outcome.returned, example_ring5_state) :=
  ⟨by decide,
    on_msg_non_neighbour_round1 example_verifier example_ring5_state (example_message 1)
      (by decide) (by decide) (by decide)⟩


/-! ## The public-value codec -/

/-- Claim C19. For every non-zero `v`, `db_set_public_value` succeeds, decoding the
message it filled with `db_get_public_value` gives `v` again, and `public_value_size` is
the length of `public_value`; the other fields of the message are left alone. -/
theorem public_value_round_trip (msg : Dutta_Barua_message) (v : Nat) (hv : v ≠ 0) :
    ∃ msg1 : Dutta_Barua_message, db_set_public_value msg v = some msg1 ∧
      db_get_public_value msg1 = v ∧
      msg1.public_value_size = (msg1.public_value.length : Int) ∧
      msg1.u = msg.u ∧ msg1.round = msg.round ∧ msg1.d = msg.d := by
  refine ⟨{ msg with public_value_size := (bits v : Int),
                     public_value := binary_encode v (bits v) }, ?_, ?_, ?_, rfl, rfl, rfl⟩
  · simp [db_set_public_value, hv]
  · exact binary_decode_encode_bits v
  · simp [binary_encode_length]

/-- Claim C14, evaluated at `v = 3`: `db_set_public_value` writes the two bytes `[0, 3]`
and the size 2 (the bit length of 3), whereas the minimal big-endian representation of 3
is the single byte `[3]`. -/
theorem db_set_public_value_not_minimal :
    db_set_public_value default 3 =
      some { (default : Dutta_Barua_message) with
             public_value_size := 2, public_value := [0, 3] } ∧
    encode_locked 3 = [3] ∧ bits 3 = 2 ∧ bytes 3 = 1 := by
  decide

/-! ## `round2`: the assertions -/

/-- Claim C18. For a prime modulus `p`, a stored private key and stored neighbour
messages whose public values are not divisible by `p`, `round2` returns (none of its
assertions, nor the one of `db_set_public_value`, fails): it sets
`r1_results.left = X_left^x mod p` and `r1_results.right = X_right^x mod p`, both
non-zero, publishes `Y = r1_results.right * r1_results.left⁻¹ mod p`, which is non-zero
and satisfies `Y * r1_results.left = r1_results.right (mod p)`, and sets `r2_finished`. -/
theorem round2_assertions_hold (signer : DSA_signer) (s : Dutta_Barua_GKE)
    (key : DH_PrivateKey) (msgleft msgright : Dutta_Barua_message)
    (hl : s.r1_messages.left = some msgleft) (hr : s.r1_messages.right = some msgright)
    (hx : s.x_i = some key) (hp : Nat.Prime key.group_p)
    (hdl : ¬ key.group_p ∣ db_get_public_value msgleft)
    (hdr : ¬ key.group_p ∣ db_get_public_value msgright) :
    (round2 signer s).1 = Outcome.returned ∧
    (round2 signer s).2.r1_results.left =
      power_mod (db_get_public_value msgleft) key.x key.group_p ∧
    (round2 signer s).2.r1_results.right =
      power_mod (db_get_public_value msgright) key.x key.group_p ∧
    (round2 signer s).2.r1_results.left ≠ 0 ∧
    (round2 signer s).2.r1_results.right ≠ 0 ∧
    (round2 signer s).2.r2_finished = true ∧
    ∃ msg : Dutta_Barua_message,
      (round2 signer s).2.lcm_published = s.lcm_published ++ [msg] ∧
      msg.round = 2 ∧
      db_get_public_value msg =
        ((round2 signer s).2.r1_results.right *
          inverse_mod (round2 signer s).2.r1_results.left key.group_p) % key.group_p ∧
      db_get_public_value msg ≠ 0 ∧
      (db_get_public_value msg * (round2 signer s).2.r1_results.left) % key.group_p =
        (round2 signer s).2.r1_results.right := by
  have hL := power_mod_ne_zero key.group_p _ key.x hp hdl
  have hR := power_mod_ne_zero key.group_p _ key.x hp hdr
  have hLlt := power_mod_lt key.group_p (db_get_public_value msgleft) key.x hp.pos
  have hRlt := power_mod_lt key.group_p (db_get_public_value msgright) key.x hp.pos
  have hY := mul_inverse_mod_ne_zero key.group_p _ _ hp hR hRlt hL hLlt
  have hc := mul_inverse_mod_cancel key.group_p _ _ hp hRlt hL hLlt
  rw [round2_eval signer s key msgleft msgright hl hr hx hp hdl hdr]
  refine ⟨rfl, rfl, rfl, hL, hR, rfl, _, rfl, rfl, ?_, ?_, ?_⟩
  · exact db_get_public_value_round_message signer s.uid 2 _
  · rw [db_get_public_value_round_message]
    exact hY
  · rw [db_get_public_value_round_message]
    exact hc

/-! ## `on_msg`: storing round-2 messages -/

theorem on_msg_gates_r2_messages (s : Dutta_Barua_GKE) :
    (on_msg_gates s).r2_messages = s.r2_messages ∧
    (on_msg_gates s).r1_messages = s.r1_messages := by
  unfold on_msg_gates
  simp only
  split <;> split <;> exact ⟨rfl, rfl⟩

/-- Claim C17. Whatever the exchange state, a message with `round == 2` that the verifier
accepts is stored: `on_msg` returns, afterwards `r2_messages[m.u]` is `m` (an earlier
entry for the same `u` is replaced), every other entry of `r2_messages` is as before, and
`r1_messages` is unchanged. -/
theorem on_msg_stores_round2 (verifier : DSA_verifier) (s : Dutta_Barua_GKE)
    (msg : Dutta_Barua_message)
    (hv : verifier.db_verify msg s.mcastgroup s.channelname = true)
    (hround : msg.round = 2) :
    (on_msg verifier s msg).1 = Outcome.returned ∧
    (on_msg verifier s msg).2.r2_messages = s.r2_messages.insert msg.u msg ∧
    (on_msg verifier s msg).2.r2_messages.find msg.u = some msg ∧
    (∀ q : Int, q ≠ msg.u →
      (on_msg verifier s msg).2.r2_messages.find q = s.r2_messages.find q) ∧
    (on_msg verifier s msg).2.r1_messages = s.r1_messages := by
  have h1 : ¬ (msg.round = 1 ∧ is_neighbour s msg = false) := by
    rintro ⟨h, _⟩
    rw [hround] at h
    exact absurd h (by decide)
  have hst : on_msg_store s msg =
      some { s with r2_messages := s.r2_messages.insert msg.u msg } := by
    unfold on_msg_store
    simp [hround]
  have hon : on_msg verifier s msg = (Outcome.returned,
      on_msg_gates { s with r2_messages := s.r2_messages.insert msg.u msg }) := by
    unfold on_msg
    rw [if_neg h1, if_neg (by rw [hv]; exact Bool.noConfusion), hst]
  have hg := on_msg_gates_r2_messages { s with r2_messages := s.r2_messages.insert msg.u msg }
  rw [hon]
  refine ⟨rfl, hg.1, ?_, ?_, hg.2⟩
  · show (on_msg_gates _).r2_messages.find msg.u = some msg
    rw [hg.1]
    show (s.r2_messages.insert msg.u msg).find msg.u = some msg
    rw [StdMap.find_insert, if_pos rfl]
  · intro q hq
    show (on_msg_gates _).r2_messages.find q = s.r2_messages.find q
    rw [hg.1]
    show (s.r2_messages.insert msg.u msg).find q = s.r2_messages.find q
    rw [StdMap.find_insert, if_neg (fun h => hq h.symm)]

/-! ## `get_session_key` -/

theorem get_session_key_none (hash : HashFunction) (s : Dutta_Barua_GKE) (key_size : Nat)
    (h : s.shared_secret = none) :
    ∃ what, get_session_key hash s key_size = (Except.error what, s) := by
  simp only [get_session_key, h]
  exact ⟨_, rfl⟩

theorem get_session_key_some (hash : HashFunction) (s : Dutta_Barua_GKE) (key_size : Nat)
    (secret : Nat) (h : s.shared_secret = some secret) :
    get_session_key hash s key_size =
      (Except.ok (KDF2_derive_key hash key_size (encode_locked secret)), s) := by
  simp only [get_session_key, h]

/-- Claim C15. For every requested length, `get_session_key` raises exactly when
`shared_secret` is absent; when it is present the result is the KDF output on the encoded
secret; in both cases the exchange state is unchanged, so that a repeated call with the
same length gives the identical result. -/
theorem get_session_key_fails_iff (hash : HashFunction) (s : Dutta_Barua_GKE)
    (key_size : Nat) :
    ((∃ what, (get_session_key hash s key_size).1 = Except.error what) ↔
      s.shared_secret = none) ∧
    (∀ secret : Nat, s.shared_secret = some secret →
      (get_session_key hash s key_size).1 =
        Except.ok (KDF2_derive_key hash key_size (encode_locked secret))) ∧
    (get_session_key hash s key_size).2 = s ∧
    get_session_key hash (get_session_key hash s key_size).2 key_size =
      get_session_key hash s key_size := by
  cases h : s.shared_secret with
  | none =>
    obtain ⟨w, hw⟩ := get_session_key_none hash s key_size h
    rw [hw]
    refine ⟨⟨fun _ => rfl, fun _ => ⟨w, rfl⟩⟩, ?_, rfl, hw⟩
    intro secret hs
    cases hs
  | some v =>
    have hv := get_session_key_some hash s key_size v h
    rw [hv]
    refine ⟨⟨?_, ?_⟩, ?_, rfl, hv⟩
    · rintro ⟨w, hw⟩
      cases hw
    · intro hn
      cases hn
    · intro secret hs
      cases hs
      rfl

theorem kdf2_loop_eq_take (hash : HashFunction) (secret : List Nat) (key_len : Nat) :
    ∀ (fuel counter : Nat) (key : List Nat), key.length ≤ key_len →
      kdf2_loop hash secret key_len fuel counter key =
        (key ++ kdf2_stream hash secret fuel counter).take key_len := by
  intro fuel
  induction fuel with
  | zero =>
    intro counter key hk
    simp only [kdf2_loop, kdf2_stream, List.append_nil]
    exact (List.take_of_length_le hk).symm
  | succ fuel ih =>
    intro counter key hk
    by_cases hfull : key.length = key_len
    · have hcond : key.length = key_len ∨ counter = 0 := Or.inl hfull
      simp only [kdf2_loop]
      rw [if_pos hcond]
      exact (List.take_left' hfull).symm
    · by_cases hc : counter = 0
      · have hcond : key.length = key_len ∨ counter = 0 := Or.inr hc
        simp only [kdf2_loop, kdf2_stream]
        rw [if_pos hcond, if_pos hc, List.append_nil]
        exact (List.take_of_length_le hk).symm
      · have hcond : ¬ (key.length = key_len ∨ counter = 0) := by
          rintro (h | h)
          · exact hfull h
          · exact hc h
        simp only [kdf2_loop, kdf2_stream]
        rw [if_neg hcond, if_neg hc]
        have hlen : (key ++ (hash.digest (secret ++ store_be32 counter)).take
            (min (hash.digest (secret ++ store_be32 counter)).length
              (key_len - key.length))).length ≤ key_len := by
          rw [List.length_append, List.length_take]
          omega
        rw [ih _ _ hlen]
        by_cases hshort : (hash.digest (secret ++ store_be32 counter)).length ≤
            key_len - key.length
        · rw [min_eq_left hshort, List.take_length, List.append_assoc]
        · have hlt : key_len - key.length <
              (hash.digest (secret ++ store_be32 counter)).length := by omega
          rw [min_eq_right (le_of_lt hlt)]
          have hexact : (key ++ (hash.digest (secret ++ store_be32 counter)).take
              (key_len - key.length)).length = key_len := by
            rw [List.length_append, List.length_take]
            omega
          have hsplit : key ++ (hash.digest (secret ++ store_be32 counter) ++
              kdf2_stream hash secret fuel ((counter + 1) % 2 ^ 32)) =
              (key ++ (hash.digest (secret ++ store_be32 counter)).take
                (key_len - key.length)) ++
              ((hash.digest (secret ++ store_be32 counter)).drop (key_len - key.length) ++
                kdf2_stream hash secret fuel ((counter + 1) % 2 ^ 32)) := by
            rw [List.append_assoc, ← List.append_assoc (List.take _ _), List.take_append_drop]
          rw [hsplit, List.take_left' hexact, List.take_left' hexact]

theorem KDF2_derive_key_prefix (hash : HashFunction) (secret : List Nat) (a b : Nat)
    (hab : a ≤ b) :
    KDF2_derive_key hash a secret = (KDF2_derive_key hash b secret).take a := by
  unfold KDF2_derive_key
  rw [kdf2_loop_eq_take hash secret a _ _ [] (Nat.zero_le _),
    kdf2_loop_eq_take hash secret b _ _ [] (Nat.zero_le _), List.take_take, min_eq_left hab]


/-- Claim C16 (amended). For an established `shared_secret`, the session key of length
`a` is the first `a` bytes of the session key of any length `b ≥ a`; in particular
`get_session_key(16)` is the first 16 bytes of `get_session_key(32)`: the KDF2 output is a
prefix-stable stream, whatever the hash. -/
theorem session_key_prefix (hash : HashFunction) (s : Dutta_Barua_GKE) (secret : Nat)
    (a b : Nat) (hs : s.shared_secret = some secret) (hab : a ≤ b) :
    ∃ ka kb : List Nat, (get_session_key hash s a).1 = Except.ok ka ∧
      (get_session_key hash s b).1 = Except.ok kb ∧ ka.length ≤ a ∧ ka = kb.take a := by
  rw [get_session_key_some hash s a secret hs, get_session_key_some hash s b secret hs]
  refine ⟨_, _, rfl, rfl, ?_, KDF2_derive_key_prefix hash (encode_locked secret) a b hab⟩
  unfold KDF2_derive_key
  rw [kdf2_loop_eq_take hash _ a _ _ [] (Nat.zero_le _)]
  exact List.length_take_le _ _

/-- Claim C16, as stated, fails for every hash and every established secret: there is no
exchange state in which `get_session_key(16)` differs from the first 16 bytes of
`get_session_key(32)`. -/
theorem session_key_16_is_prefix_of_32 :
    ¬ ∃ (hash : HashFunction) (s : Dutta_Barua_GKE) (k16 k32 : List Nat),
      s.shared_secret.isSome = true ∧
      (get_session_key hash s 16).1 = Except.ok k16 ∧
      (get_session_key hash s 32).1 = Except.ok k32 ∧
      k16 ≠ k32.take 16 := by
  rintro ⟨hash, s, k16, k32, hsome, h16, h32, hne⟩
  obtain ⟨secret, hs⟩ := Option.isSome_iff_exists.1 hsome
  rw [get_session_key_some hash s 16 secret hs] at h16
  rw [get_session_key_some hash s 32 secret hs] at h32
  have e16 : KDF2_derive_key hash 16 (encode_locked secret) = k16 := by
    injection h16
  have e32 : KDF2_derive_key hash 32 (encode_locked secret) = k32 := by
    injection h32
  apply hne
  rw [← e16, ← e32]
  exact KDF2_derive_key_prefix hash (encode_locked secret) 16 32 (by decide)

/-! ## Repeated transitions -/

/-- Claim C11, evaluated on an honest three-party run at participant 1: the round-1
messages of both neighbours and then the round-2 message of participant 2 are delivered
before the event loop runs a task. The last two deliveries each post `round2`, so two
`round2` tasks are queued, both run, and the round-2 message is published twice. -/
theorem round2_posted_and_run_twice :
    (exec (example_signer 1) example_verifier example_started_state
      [Event.deliver (example_r1 3), Event.deliver (example_r1 2),
       Event.deliver (example_r2 2)]).2.evloop_tasks = [Task.round2, Task.round2] ∧
    (exec (example_signer 1) example_verifier example_started_state
      [Event.deliver (example_r1 3), Event.deliver (example_r1 2),
       Event.deliver (example_r2 2), Event.run_task, Event.run_task]).1 = Outcome.returned ∧
    (exec (example_signer 1) example_verifier example_started_state
      [Event.deliver (example_r1 3), Event.deliver (example_r1 2),
       Event.deliver (example_r2 2), Event.run_task, Event.run_task]).2.lcm_published =
      [example_r1 1, example_r2 1, example_r2 1] := by
  decide

/-- Claim C12, evaluated on an honest three-party run at participant 1: after both
round-1 messages, `round2`, the three round-2 messages and `computeKey`, a late duplicate
of the round-2 message of participant 3 posts `computeKey` again; it runs a second time,
signals `channel_finished` a second time and appends the session ids once more. -/
theorem computeKey_posted_and_run_twice :
    (exec (example_signer 1) example_verifier example_started_state
      [Event.deliver (example_r1 3), Event.deliver (example_r1 2), Event.run_task,
       Event.deliver (example_r2 1), Event.deliver (example_r2 2),
       Event.deliver (example_r2 3), Event.run_task]).2.evloop_channel_finished = 1 ∧
    (exec (example_signer 1) example_verifier example_started_state
      [Event.deliver (example_r1 3), Event.deliver (example_r1 2), Event.run_task,
       Event.deliver (example_r2 1), Event.deliver (example_r2 2),
       Event.deliver (example_r2 3), Event.run_task,
       Event.deliver (example_r2 3)]).2.evloop_tasks = [Task.computeKey] ∧
    (exec (example_signer 1) example_verifier example_started_state
      [Event.deliver (example_r1 3), Event.deliver (example_r1 2), Event.run_task,
       Event.deliver (example_r2 1), Event.deliver (example_r2 2),
       Event.deliver (example_r2 3), Event.run_task,
       Event.deliver (example_r2 3), Event.run_task]).1 = Outcome.returned ∧
    (exec (example_signer 1) example_verifier example_started_state
      [Event.deliver (example_r1 3), Event.deliver (example_r1 2), Event.run_task,
       Event.deliver (example_r2 1), Event.deliver (example_r2 2),
       Event.deliver (example_r2 3), Event.run_task,
       Event.deliver (example_r2 3), Event.run_task]).2.evloop_channel_finished = 2 ∧
    (exec (example_signer 1) example_verifier example_started_state
      [Event.deliver (example_r1 3), Event.deliver (example_r1 2), Event.run_task,
       Event.deliver (example_r2 1), Event.deliver (example_r2 2),
       Event.deliver (example_r2 3), Event.run_task,
       Event.deliver (example_r2 3), Event.run_task]).2.partial_session_id.length = 7 := by
  decide


/-! ## Frame and evaluation lemmas for executions -/

theorem on_msg_gates_frame (s : Dutta_Barua_GKE) :
    ∃ posted : List Task, on_msg_gates s = { s with evloop_tasks := s.evloop_tasks ++ posted } ∧
      (Task.round2 ∈ posted ↔
        (s.r2_finished = false ∧ s.r1_messages.left.isSome = true ∧
          s.r1_messages.right.isSome = true)) ∧
      (Task.computeKey ∈ posted ↔
        (s.r2_finished = true ∧ (s.r2_messages.size : Int) = s.participants)) := by
  by_cases hfin : s.r2_finished = true
  · have c1 : (!s.r2_finished && s.r1_messages.left.isSome && s.r1_messages.right.isSome)
        = false := by simp [hfin]
    by_cases hsz : (s.r2_messages.size : Int) = s.participants
    · have c2 : (s.r2_finished && decide ((s.r2_messages.size : Int) = s.participants))
          = true := by simp [hfin, hsz]
      refine ⟨[Task.computeKey], ?_, by simp [hfin], by simp [hfin, hsz]⟩
      simp only [on_msg_gates, c1, c2, Bool.false_eq_true, if_false, if_true]
    · have c2 : (s.r2_finished && decide ((s.r2_messages.size : Int) = s.participants))
          = false := by simp [hsz]
      refine ⟨[], ?_, by simp [hfin], by simp [hsz]⟩
      simp only [on_msg_gates, c1, c2, Bool.false_eq_true, if_false, List.append_nil]
  · have hf : s.r2_finished = false := by simpa using hfin
    have c2 : (s.r2_finished && decide ((s.r2_messages.size : Int) = s.participants))
        = false := by simp [hf]
    by_cases hl : s.r1_messages.left.isSome = true
    · by_cases hr : s.r1_messages.right.isSome = true
      · have c1 : (!s.r2_finished && s.r1_messages.left.isSome && s.r1_messages.right.isSome)
            = true := by simp [hf, hl, hr]
        refine ⟨[Task.round2], ?_, by simp [hf, hl, hr], by simp [hf]⟩
        simp only [on_msg_gates, c1, c2, Bool.false_eq_true, if_false, if_true]
      · have c1 : (!s.r2_finished && s.r1_messages.left.isSome && s.r1_messages.right.isSome)
            = false := by simp [hr]
        refine ⟨[], ?_, by simp [hr], by simp [hf]⟩
        simp only [on_msg_gates, c1, c2, Bool.false_eq_true, if_false, List.append_nil]
    · have c1 : (!s.r2_finished && s.r1_messages.left.isSome && s.r1_messages.right.isSome)
          = false := by simp [hl]
      refine ⟨[], ?_, by simp [hl], by simp [hf]⟩
      simp only [on_msg_gates, c1, c2, Bool.false_eq_true, if_false, List.append_nil]

theorem on_msg_store_round1 (s : Dutta_Barua_GKE) (msg : Dutta_Barua_message)
    (h : msg.round = 1) :
    on_msg_store s msg = some { s with r1_messages :=
      { left := if is_left_neighbour s msg = true then some msg else s.r1_messages.left,
        right := if is_right_neighbour s msg = true then some msg else s.r1_messages.right } } := by
  simp only [on_msg_store, is_left_neighbour, is_right_neighbour, h, if_true, decide_eq_true_eq]
  by_cases hl : msg.u = (s.uid.u - 2 + s.participants) % s.participants + 1
  · by_cases hr : msg.u = s.uid.u % s.participants + 1
    · simp only [← hl, ← hr, if_true]
    · simp only [← hl, hr, if_true, if_false]
  · by_cases hr : msg.u = s.uid.u % s.participants + 1
    · simp only [hl, ← hr, if_true, if_false]
    · simp only [hl, hr, if_false]

theorem on_msg_store_round2 (s : Dutta_Barua_GKE) (msg : Dutta_Barua_message)
    (h : msg.round = 2) :
    on_msg_store s msg = some { s with r2_messages := s.r2_messages.insert msg.u msg } := by
  unfold on_msg_store
  simp [h]

theorem on_msg_accepted (verifier : DSA_verifier) (s s1 : Dutta_Barua_GKE)
    (msg : Dutta_Barua_message)
    (hn : msg.round = 1 → is_neighbour s msg = true)
    (hv : verifier.db_verify msg s.mcastgroup s.channelname = true)
    (hst : on_msg_store s msg = some s1) :
    on_msg verifier s msg = (Outcome.returned, on_msg_gates s1) := by
  have h1 : ¬ (msg.round = 1 ∧ is_neighbour s msg = false) := by
    rintro ⟨h, hf⟩
    rw [hn h] at hf
    cases hf
  unfold on_msg
  rw [if_neg h1, if_neg (by rw [hv]; exact Bool.noConfusion), hst]

theorem exec_nil (signer : DSA_signer) (verifier : DSA_verifier) (s : Dutta_Barua_GKE) :
    exec signer verifier s [] = (Outcome.returned, s) := rfl

theorem exec_cons (signer : DSA_signer) (verifier : DSA_verifier) (s : Dutta_Barua_GKE)
    (e : Event) (es : List Event) :
    exec signer verifier s (e :: es) =
      if (dispatch signer verifier s e).1 = Outcome.returned then
        exec signer verifier (dispatch signer verifier s e).2 es
      else dispatch signer verifier s e := rfl

theorem exec_append (signer : DSA_signer) (verifier : DSA_verifier) :
    ∀ (pre : List Event) (s : Dutta_Barua_GKE) (e : Event),
      exec signer verifier s (pre ++ [e]) =
        if (exec signer verifier s pre).1 = Outcome.returned then
          dispatch signer verifier (exec signer verifier s pre).2 e
        else exec signer verifier s pre := by
  intro pre
  induction pre with
  | nil =>
    intro s e
    rw [List.nil_append, exec_cons, exec_nil, exec_nil, if_pos rfl]
    by_cases h : (dispatch signer verifier s e).1 = Outcome.returned
    · rw [if_pos h]
      exact Prod.ext h.symm rfl
    · rw [if_neg h]
  | cons a pre ih =>
    intro s e
    rw [List.cons_append, exec_cons, exec_cons]
    by_cases h : (dispatch signer verifier s a).1 = Outcome.returned
    · rw [if_pos h, if_pos h, ih]
    · rw [if_neg h, if_neg h, if_neg h]

theorem delivered_append (pre : List Event) (e : Event) :
    delivered (pre ++ [e]) = delivered pre ++ delivered [e] := by
  induction pre with
  | nil => rfl
  | cons a pre ih =>
    cases a with
    | deliver m => simp [delivered, ih]
    | run_task => simp [delivered, ih]

theorem mem_delivered (evs : List Event) (m : Dutta_Barua_message) :
    m ∈ delivered evs ↔ Event.deliver m ∈ evs := by
  induction evs with
  | nil => simp [delivered]
  | cons a evs ih =>
    cases a with
    | deliver m1 => simp [delivered, ih]
    | run_task => simp [delivered, ih]

theorem round2_frame (signer : DSA_signer) (s : Dutta_Barua_GKE) :
    (round2 signer s).2.participants = s.participants ∧
    (round2 signer s).2.uid = s.uid ∧
    (round2 signer s).2.mcastgroup = s.mcastgroup ∧
    (round2 signer s).2.channelname = s.channelname ∧
    (round2 signer s).2.x_i = s.x_i ∧
    (round2 signer s).2.r1_messages = s.r1_messages ∧
    (round2 signer s).2.r2_messages = s.r2_messages ∧
    (round2 signer s).2.evloop_tasks = s.evloop_tasks ∧
    (round2 signer s).2.shared_secret = s.shared_secret := by
  unfold round2
  split
  · split
    · exact ⟨rfl, rfl, rfl, rfl, rfl, rfl, rfl, rfl, rfl⟩
    · simp only
      split
      · exact ⟨rfl, rfl, rfl, rfl, rfl, rfl, rfl, rfl, rfl⟩
      · split
        · exact ⟨rfl, rfl, rfl, rfl, rfl, rfl, rfl, rfl, rfl⟩
        · split
          · exact ⟨rfl, rfl, rfl, rfl, rfl, rfl, rfl, rfl, rfl⟩
          · split
            · exact ⟨rfl, rfl, rfl, rfl, rfl, rfl, rfl, rfl, rfl⟩
            · split
              · exact ⟨rfl, rfl, rfl, rfl, rfl, rfl, rfl, rfl, rfl⟩
              · exact ⟨rfl, rfl, rfl, rfl, rfl, rfl, rfl, rfl, rfl⟩
  · exact ⟨rfl, rfl, rfl, rfl, rfl, rfl, rfl, rfl, rfl⟩

theorem on_msg_cases (verifier : DSA_verifier) (s : Dutta_Barua_GKE)
    (msg : Dutta_Barua_message) :
    on_msg verifier s msg = (Outcome.returned, s) ∨
    (∃ what, on_msg verifier s msg = (Outcome.raised what, s)) ∨
    (∃ s1, verifier.db_verify msg s.mcastgroup s.channelname = true ∧
      (msg.round = 1 → is_neighbour s msg = true) ∧
      on_msg_store s msg = some s1 ∧
      on_msg verifier s msg = (Outcome.returned, on_msg_gates s1)) := by
  by_cases h : msg.round = 1 ∧ is_neighbour s msg = false
  · left
    unfold on_msg
    rw [if_pos h]
  · by_cases hv : verifier.db_verify msg s.mcastgroup s.channelname = false
    · left
      unfold on_msg
      rw [if_neg h, if_pos hv]
    · have hv' : verifier.db_verify msg s.mcastgroup s.channelname = true := by
        simpa using hv
      have hn : msg.round = 1 → is_neighbour s msg = true := by
        intro hr
        by_contra hc
        exact h ⟨hr, by simpa using hc⟩
      cases hst : on_msg_store s msg with
      | none =>
        right; left
        unfold on_msg
        rw [if_neg h, if_neg hv, hst]
        exact ⟨_, rfl⟩
      | some s1 =>
        right; right
        exact ⟨s1, hv', hn, rfl, on_msg_accepted verifier s s1 msg hn hv' hst⟩

theorem StdMap.insertEntries_length_of_mem {V : Type} (l : List (Int × V)) (k : Int) (v : V)
    (hs : List.Pairwise (fun a b => a < b) (l.map Prod.fst)) (hk : k ∈ l.map Prod.fst) :
    (StdMap.insertEntries l k v).length = l.length := by
  induction l with
  | nil => simp at hk
  | cons hd t ih =>
    obtain ⟨k0, v0⟩ := hd
    simp only [List.map_cons, List.pairwise_cons] at hs
    simp only [List.map_cons, List.mem_cons] at hk
    simp only [StdMap.insertEntries]
    by_cases h1 : k < k0
    · exfalso
      rcases hk with hk | hk
      · omega
      · have := hs.1 k hk
        omega
    · by_cases h2 : k = k0
      · simp [h1, h2]
      · rcases hk with hk | hk
        · exact absurd hk h2
        · simp [h1, h2, ih hs.2 hk]

/-- A sorted map with `N` entries whose keys all lie in `1..N` has an entry for every
index `1..N`. -/
theorem StdMap.full_of_size {V : Type} (m : StdMap V) (N : Int)
    (hs : List.Pairwise (fun a b => a < b) (m.entries.map Prod.fst))
    (hr : ∀ k : Int, (m.find k).isSome = true → 1 ≤ k ∧ k ≤ N)
    (hsize : (m.size : Int) = N) :
    ∀ j : Int, 1 ≤ j → j ≤ N → (m.find j).isSome = true := by
  have hnd : (m.entries.map Prod.fst).Nodup := by
    refine List.Pairwise.imp ?_ hs
    intro a b hab
    exact ne_of_lt hab
  have hsub : (m.entries.map Prod.fst).toFinset ⊆ Finset.Icc (1 : Int) N := by
    intro q hq
    rw [List.mem_toFinset] at hq
    have := hr q ((StdMap.findEntries_isSome_iff _ q).2 hq)
    rw [Finset.mem_Icc]
    exact this
  have hcard : (Finset.Icc (1 : Int) N).card ≤ ((m.entries.map Prod.fst).toFinset).card := by
    rw [List.toFinset_card_of_nodup hnd, List.length_map, Int.card_Icc]
    unfold StdMap.size at hsize
    omega
  have heq := Finset.eq_of_subset_of_card_le hsub hcard
  intro j h1 h2
  have hj : j ∈ (m.entries.map Prod.fst).toFinset := by
    rw [heq, Finset.mem_Icc]
    exact ⟨h1, h2⟩
  rw [List.mem_toFinset] at hj
  exact (StdMap.findEntries_isSome_iff _ j).2 hj

theorem computeKey_frame (s : Dutta_Barua_GKE) :
    (computeKey s).2.participants = s.participants ∧
    (computeKey s).2.uid = s.uid ∧
    (computeKey s).2.mcastgroup = s.mcastgroup ∧
    (computeKey s).2.channelname = s.channelname ∧
    (computeKey s).2.x_i = s.x_i ∧
    (computeKey s).2.r1_messages = s.r1_messages ∧
    (computeKey s).2.r1_results = s.r1_results ∧
    (computeKey s).2.r2_finished = s.r2_finished ∧
    (computeKey s).2.evloop_tasks = s.evloop_tasks := by
  cases hx : s.x_i with
  | none =>
    rw [computeKey_x_i_none s hx]
    exact ⟨rfl, rfl, rfl, rfl, hx, rfl, rfl, rfl, rfl⟩
  | some key =>
    by_cases hp : key.group_p = 0
    · rw [computeKey_zero_modulus s key hx hp]
      exact ⟨rfl, rfl, rfl, rfl, hx, rfl, rfl, rfl, rfl⟩
    · cases hk : computeKey_right_keys s key.group_p with
      | none =>
        rw [computeKey_assert_fails s key hx hp hk]
        exact ⟨rfl, rfl, rfl, rfl, hx, rfl, rfl, rfl, rfl⟩
      | some st =>
        rw [computeKey_checked s key st hx hp hk]
        split
        · exact ⟨rfl, rfl, rfl, rfl, hx, rfl, rfl, rfl, rfl⟩
        · exact ⟨rfl, rfl, rfl, rfl, hx, rfl, rfl, rfl, rfl⟩

/-- With a round-2 message stored for every index `1..N`, `computeKey` leaves
`r2_messages` as it is, however it ends. -/
theorem computeKey_r2_messages_full (s : Dutta_Barua_GKE) (n : Nat)
    (hN : s.participants = (n : Int) + 2)
    (hu1 : 1 ≤ s.uid.u) (hu2 : s.uid.u ≤ s.participants)
    (hall : ∀ j : Int, 1 ≤ j → j ≤ s.participants → (s.r2_messages.find j).isSome = true) :
    (computeKey s).2.r2_messages = s.r2_messages := by
  cases hx : s.x_i with
  | none =>
    rw [computeKey_x_i_none s hx]
    rfl
  | some key =>
    by_cases hp : key.group_p = 0
    · rw [computeKey_zero_modulus s key hx hp]
      have hr := wrapindex_range s.participants (s.uid.u + 1) (by omega) (by omega)
      obtain ⟨m, hm⟩ := Option.isSome_iff_exists.1 (hall _ hr.1 hr.2)
      show (s.r2_messages.index default (wrapindex s.participants (s.uid.u + 1))).2 = _
      rw [StdMap.index_of_find default _ _ m hm]
    · obtain ⟨st, e1, e2, _⟩ := computeKey_right_keys_spec s key.group_p n hN hu1 hu2 hall
      rw [computeKey_checked s key st hx hp e1]
      split
      · exact e2
      · exact e2

theorem R2Inv.keys_in_range {N : Int} {D : List Dutta_Barua_message} {s : Dutta_Barua_GKE}
    (h : R2Inv N D s) : ∀ k : Int, (s.r2_messages.find k).isSome = true → 1 ≤ k ∧ k ≤ N := by
  intro k hk
  obtain ⟨m, hm⟩ := Option.isSome_iff_exists.1 hk
  have := h.stored k m hm
  exact ⟨this.1, this.2.1⟩

theorem R2Inv.mono {N : Int} {D D1 : List Dutta_Barua_message} {s : Dutta_Barua_GKE}
    (h : R2Inv N D s) (hD : ∀ m, m ∈ D → m ∈ D1) : R2Inv N D1 s :=
  { participants := h.participants
    uid := h.uid
    sorted := h.sorted
    stored := fun k m hm =>
      have := h.stored k m hm
      ⟨this.1, this.2.1, this.2.2.1, this.2.2.2.1, hD m this.2.2.2.2⟩
    posted := h.posted }

theorem R2Inv.kept_by_gates {N : Int} {D : List Dutta_Barua_message} {s : Dutta_Barua_GKE}
    (h : R2Inv N D { s with evloop_tasks := [] })
    (hposted : Task.computeKey ∈ s.evloop_tasks → (s.r2_messages.size : Int) = N) :
    R2Inv N D (on_msg_gates s) := by
  obtain ⟨posted, e, _, h2⟩ := on_msg_gates_frame s
  rw [e]
  exact
    { participants := h.participants
      uid := h.uid
      sorted := h.sorted
      stored := h.stored
      posted := by
        intro hmem
        rcases List.mem_append.1 hmem with hm | hm
        · exact hposted hm
        · have := (h2.1 hm).2
          rw [this]
          exact h.participants }

theorem R2Inv.kept_by_on_msg (verifier : DSA_verifier) {N : Int} {D : List Dutta_Barua_message}
    {s : Dutta_Barua_GKE} (msg : Dutta_Barua_message) (h : R2Inv N D s)
    (hver : ∀ (m : Dutta_Barua_message) (mc ch : String),
      verifier.db_verify m mc ch = true → m.round = 2 → 1 ≤ m.u ∧ m.u ≤ N) :
    R2Inv N (D ++ [msg]) (on_msg verifier s msg).2 := by
  have hmono : R2Inv N (D ++ [msg]) s := h.mono (fun m hm => List.mem_append_left _ hm)
  rcases on_msg_cases verifier s msg with e | ⟨w, e⟩ | ⟨s1, hv, _, hst, e⟩
  · rw [e]; exact hmono
  · rw [e]; exact hmono
  · rw [e]
    by_cases hr1 : msg.round = 1
    · rw [on_msg_store_round1 s msg hr1] at hst
      have hs1 := Option.some.inj hst
      subst hs1
      exact R2Inv.kept_by_gates
        { participants := h.participants
          uid := h.uid
          sorted := h.sorted
          stored := hmono.stored
          posted := fun hm => absurd hm (List.not_mem_nil _) }
        h.posted
    · by_cases hr2 : msg.round = 2
      · rw [on_msg_store_round2 s msg hr2] at hst
        have hs1 := Option.some.inj hst
        subst hs1
        have hrange := hver msg _ _ hv hr2
        have hstored : ∀ (k : Int) (m : Dutta_Barua_message),
            (s.r2_messages.insert msg.u msg).find k = some m →
            1 ≤ k ∧ k ≤ N ∧ m.u = k ∧ m.round = 2 ∧ m ∈ D ++ [msg] := by
          intro k m hm
          rw [StdMap.find_insert] at hm
          by_cases hk : msg.u = k
          · rw [if_pos hk] at hm
            have hmm := Option.some.inj hm
            subst hmm
            subst hk
            exact ⟨hrange.1, hrange.2, rfl, hr2, by simp⟩
          · rw [if_neg hk] at hm
            exact hmono.stored k m hm
        refine R2Inv.kept_by_gates
          { participants := h.participants
            uid := h.uid
            sorted := StdMap.sorted_insertEntries _ _ _ h.sorted
            stored := hstored
            posted := fun hm => absurd hm (List.not_mem_nil _) } ?_
        intro hm
        have hsz := h.posted hm
        have hfull := StdMap.full_of_size s.r2_messages N h.sorted h.keys_in_range hsz msg.u
          hrange.1 hrange.2
        have hlen := StdMap.insertEntries_length_of_mem s.r2_messages.entries msg.u msg
          h.sorted ((StdMap.findEntries_isSome_iff _ _).1 hfull)
        show ((StdMap.insertEntries s.r2_messages.entries msg.u msg).length : Int) = N
        rw [hlen]
        exact hsz
      · exfalso
        have := (on_msg_store_none_iff s msg).2 ⟨hr1, hr2⟩
        rw [this] at hst
        cases hst

theorem R2Inv.kept_by_run_task (signer : DSA_signer) {N : Int} {D : List Dutta_Barua_message}
    {s : Dutta_Barua_GKE} (hN : 2 ≤ N) (h : R2Inv N D s) :
    R2Inv N D (run_task signer s).2 := by
  unfold run_task
  cases ht : s.evloop_tasks with
  | nil => exact h
  | cons t rest =>
    cases t with
    | round2 =>
      simp only
      obtain ⟨f1, f2, _, _, _, _, f7, f8, _⟩ := round2_frame signer { s with evloop_tasks := rest }
      exact
        { participants := by rw [f1]; exact h.participants
          uid := by rw [f2]; exact h.uid
          sorted := by rw [f7]; exact h.sorted
          stored := by rw [f7]; exact h.stored
          posted := by
            rw [f7, f8]
            intro hm
            exact h.posted (by rw [ht]; exact List.mem_cons_of_mem _ hm) }
    | computeKey =>
      simp only
      obtain ⟨n, hn⟩ : ∃ n : Nat, N = (n : Int) + 2 :=
        ⟨Int.toNat (N - 2), by rw [Int.toNat_of_nonneg (by omega)]; ring⟩
      have hsz := h.posted (by rw [ht]; exact List.mem_cons_self _ _)
      have hfull := StdMap.full_of_size s.r2_messages N h.sorted h.keys_in_range hsz
      obtain ⟨f1, f2, _, _, _, _, _, _, f9⟩ := computeKey_frame { s with evloop_tasks := rest }
      have fr := computeKey_r2_messages_full { s with evloop_tasks := rest } n
        (by rw [← hn]; exact h.participants) h.uid.1
        (by rw [show ({ s with evloop_tasks := rest } : Dutta_Barua_GKE).participants = N from
          h.participants]; exact h.uid.2)
        (by rw [show ({ s with evloop_tasks := rest } : Dutta_Barua_GKE).participants = N from
          h.participants]; exact hfull)
      exact
        { participants := by rw [f1]; exact h.participants
          uid := by rw [f2]; exact h.uid
          sorted := by rw [fr]; exact h.sorted
          stored := by rw [fr]; exact h.stored
          posted := by
            rw [fr]
            intro _
            exact hsz }

theorem R2Inv.kept_by_exec (signer : DSA_signer) (verifier : DSA_verifier) {N : Int} (hN : 2 ≤ N)
    (hver : ∀ (m : Dutta_Barua_message) (mc ch : String),
      verifier.db_verify m mc ch = true → m.round = 2 → 1 ≤ m.u ∧ m.u ≤ N) :
    ∀ (evs : List Event) (D : List Dutta_Barua_message) (s : Dutta_Barua_GKE),
      R2Inv N D s → R2Inv N (D ++ delivered evs) (exec signer verifier s evs).2 := by
  intro evs
  induction evs with
  | nil =>
    intro D s h
    simpa [delivered, exec_nil] using h
  | cons e es ih =>
    intro D s h
    have hstep : R2Inv N (D ++ delivered [e]) (dispatch signer verifier s e).2 := by
      cases e with
      | deliver m => exact R2Inv.kept_by_on_msg verifier m h hver
      | run_task =>
        simpa [delivered] using R2Inv.kept_by_run_task signer hN h
    rw [exec_cons]
    by_cases hret : (dispatch signer verifier s e).1 = Outcome.returned
    · rw [if_pos hret]
      have := ih _ _ hstep
      have hd : D ++ delivered (e :: es) = D ++ delivered [e] ++ delivered es := by
        cases e <;> simp [delivered]
      rw [hd]
      exact this
    · rw [if_neg hret]
      exact hstep.mono (by
        intro m hm
        have hd : D ++ delivered (e :: es) = D ++ delivered [e] ++ delivered es := by
          cases e <;> simp [delivered]
        rw [hd]
        exact List.mem_append_left _ hm)

theorem R2Inv.holds_initially (N : Int) (s : Dutta_Barua_GKE) (hp : s.participants = N)
    (hu1 : 1 ≤ s.uid.u) (hu2 : s.uid.u ≤ N) (hr : s.r2_messages = StdMap.empty)
    (ht : s.evloop_tasks = []) : R2Inv N [] s :=
  { participants := hp
    uid := ⟨hu1, hu2⟩
    sorted := by rw [hr]; exact List.Pairwise.nil
    stored := by
      intro k m hm
      rw [hr] at hm
      cases hm
    posted := by
      intro hm
      rw [ht] at hm
      exact absurd hm (List.not_mem_nil _) }

/-- Claim C20 (amended). Let the verifier accept round-2 messages only from ring members
(sender index in `1..N`), and let an execution (deliveries to `on_msg` and task runs)
start from a state with no stored round-2 message and no posted task, with `N ≥ 2` and
the local index in `1..N`. In every state it reaches in which the gate
`r2_finished && |r2_messages| == N` holds, `r2_messages` has, for every index `j` in
`1..N`, exactly one entry, a delivered round-2 message with sender `j`, which the lookup
`r2_messages[j]` returns without inserting anything; hence the right-key computation of
`computeKey` passes its assertion and leaves `r2_messages` as it is. -/
theorem gate_guarantees_lookups (signer : DSA_signer) (verifier : DSA_verifier)
    (s0 : Dutta_Barua_GKE) (evs : List Event) (N : Int) (hN : 2 ≤ N)
    (hp : s0.participants = N) (hu1 : 1 ≤ s0.uid.u) (hu2 : s0.uid.u ≤ N)
    (hr : s0.r2_messages = StdMap.empty) (ht : s0.evloop_tasks = [])
    (hver : ∀ (m : Dutta_Barua_message) (mc ch : String),
      verifier.db_verify m mc ch = true → m.round = 2 → 1 ≤ m.u ∧ m.u ≤ N)
    (_hfin : (exec signer verifier s0 evs).2.r2_finished = true)
    (hsize : ((exec signer verifier s0 evs).2.r2_messages.size : Int) =
      (exec signer verifier s0 evs).2.participants) :
    (∀ j : Int, 1 ≤ j → j ≤ N → ∃ m : Dutta_Barua_message,
      (exec signer verifier s0 evs).2.r2_messages.find j = some m ∧
      (exec signer verifier s0 evs).2.r2_messages.count j = 1 ∧
      (exec signer verifier s0 evs).2.r2_messages.index default j =
        (m, (exec signer verifier s0 evs).2.r2_messages) ∧
      m.u = j ∧ m.round = 2 ∧ Event.deliver m ∈ evs) ∧
    (∀ p : Nat, ∃ st : KeyLoop,
      computeKey_right_keys (exec signer verifier s0 evs).2 p = some st ∧
      st.r2_messages = (exec signer verifier s0 evs).2.r2_messages) := by
  have hinv := R2Inv.kept_by_exec signer verifier hN hver evs [] s0
    (R2Inv.holds_initially N s0 hp hu1 hu2 hr ht)
  rw [hinv.participants] at hsize
  have hfull := StdMap.full_of_size _ N hinv.sorted hinv.keys_in_range hsize
  constructor
  · intro j h1 h2
    obtain ⟨m, hm⟩ := Option.isSome_iff_exists.1 (hfull j h1 h2)
    have hs := hinv.stored j m hm
    refine ⟨m, hm, ?_, StdMap.index_of_find default _ j m hm, hs.2.2.1, hs.2.2.2.1, ?_⟩
    · simp [StdMap.count, hm]
    · have := hs.2.2.2.2
      rw [List.nil_append] at this
      exact (mem_delivered evs m).1 this
  · intro p
    obtain ⟨n, hn⟩ : ∃ n : Nat, N = (n : Int) + 2 :=
      ⟨Int.toNat (N - 2), by rw [Int.toNat_of_nonneg (by omega)]; ring⟩
    obtain ⟨st, e1, e2, _⟩ := computeKey_right_keys_spec (exec signer verifier s0 evs).2 p n
      (by rw [hinv.participants]; exact hn) hinv.uid.1
      (by rw [hinv.participants]; exact hinv.uid.2)
      (by rw [hinv.participants]; exact hfull)
    exact ⟨st, e1, e2⟩

/-- Claim C20, as stated, fails: participant 1 of the three-party example run receives
both round-1 messages, runs `round2`, and then receives the round-2 messages of
participants 1 and 3 and one with sender index 5, all accepted by the verifier. The gate
holds (three entries) and `computeKey` is posted, yet there is no entry for index 2;
`computeKey` then inserts a default-constructed entry under 2 and produces no key. -/
theorem gate_holds_with_missing_entry :
    (exec (example_signer 1) example_verifier example_started_state
      [Event.deliver (example_r1 3), Event.deliver (example_r1 2), Event.run_task,
       Event.deliver (example_r2 1), Event.deliver (example_r2 3),
       Event.deliver example_outsider_message]).2.r2_finished = true ∧
    ((exec (example_signer 1) example_verifier example_started_state
      [Event.deliver (example_r1 3), Event.deliver (example_r1 2), Event.run_task,
       Event.deliver (example_r2 1), Event.deliver (example_r2 3),
       Event.deliver example_outsider_message]).2.r2_messages.size : Int) = 3 ∧
    (exec (example_signer 1) example_verifier example_started_state
      [Event.deliver (example_r1 3), Event.deliver (example_r1 2), Event.run_task,
       Event.deliver (example_r2 1), Event.deliver (example_r2 3),
       Event.deliver example_outsider_message]).2.evloop_tasks = [Task.computeKey] ∧
    (exec (example_signer 1) example_verifier example_started_state
      [Event.deliver (example_r1 3), Event.deliver (example_r1 2), Event.run_task,
       Event.deliver (example_r2 1), Event.deliver (example_r2 3),
       Event.deliver example_outsider_message]).2.r2_messages.find 2 = none ∧
    (exec (example_signer 1) example_verifier example_started_state
      [Event.deliver (example_r1 3), Event.deliver (example_r1 2), Event.run_task,
       Event.deliver (example_r2 1), Event.deliver (example_r2 3),
       Event.deliver example_outsider_message, Event.run_task]).2.r2_messages.find 2 =
      some default ∧
    (exec (example_signer 1) example_verifier example_started_state
      [Event.deliver (example_r1 3), Event.deliver (example_r1 2), Event.run_task,
       Event.deliver (example_r2 1), Event.deliver (example_r2 3),
       Event.deliver example_outsider_message, Event.run_task]).2.shared_secret = none := by
  decide

/-- Claim C20 (amended) on the three-party example run at participant 1, with a verifier
accepting exactly the sender indices `1..3`. -/
theorem gate_guarantees_lookups_witness :
    ∃ st : KeyLoop,
      computeKey_right_keys
        (exec (example_signer 1) example_ring_verifier example_started_state
          [Event.deliver (example_r1 3), Event.deliver (example_r1 2), Event.run_task,
           Event.deliver (example_r2 1), Event.deliver (example_r2 2),
           Event.deliver (example_r2 3)]).2 11 = some st ∧
      st.r2_messages =
        (exec (example_signer 1) example_ring_verifier example_started_state
          [Event.deliver (example_r1 3), Event.deliver (example_r1 2), Event.run_task,
           Event.deliver (example_r2 1), Event.deliver (example_r2 2),
           Event.deliver (example_r2 3)]).2.r2_messages :=
  (gate_guarantees_lookups (example_signer 1) example_ring_verifier example_started_state
    [Event.deliver (example_r1 3), Event.deliver (example_r1 2), Event.run_task,
     Event.deliver (example_r2 1), Event.deliver (example_r2 2),
     Event.deliver (example_r2 3)] 3 (by decide) (by decide) (by decide) (by decide)
    (by decide) (by decide)
    (by
      intro m mc ch hv _
      simpa [example_ring_verifier] using hv)
    (by decide) (by decide)).2 11

/-- Claim C16 (amended) at the example hash and a state whose secret is 7: the 16-byte
key is the first 16 bytes of the 32-byte key. -/
theorem session_key_prefix_witness :
    ∃ ka kb : List Nat,
      (get_session_key example_hash { example_key_state with shared_secret := some 7 } 16).1
        = Except.ok ka ∧
      (get_session_key example_hash { example_key_state with shared_secret := some 7 } 32).1
        = Except.ok kb ∧ ka.length ≤ 16 ∧ ka = kb.take 16 :=
  session_key_prefix example_hash { example_key_state with shared_secret := some 7 } 7 16 32
    rfl (by decide)

/-- Claim C17 at a round-2 message of participant 1 delivered to participant 3 of a ring
of five before any round-1 message. -/
theorem on_msg_stores_round2_witness :
    (on_msg example_verifier example_ring5_state (example_message 2)).1 = Outcome.returned ∧
    (on_msg example_verifier example_ring5_state (example_message 2)).2.r2_messages.find 1 =
      some (example_message 2) :=
  have h := on_msg_stores_round2 example_verifier example_ring5_state (example_message 2)
    (by decide) (by decide)
  ⟨h.1, h.2.2.1⟩

/-- Claim C18 at participant 1 of the three-party example run. -/
theorem round2_assertions_hold_witness :
    (round2 (example_signer 1)
      (honest_before_round2 example_signer example_group 3 example_x 1)).1
      = Outcome.returned ∧
    (round2 (example_signer 1)
      (honest_before_round2 example_signer example_group 3 example_x 1)).2.r2_finished
      = true :=
  have h := round2_assertions_hold (example_signer 1)
    (honest_before_round2 example_signer example_group 3 example_x 1)
    { x := 3, group := example_group } (example_r1 3) (example_r1 2)
    (by decide) (by decide) (by decide) example_group_prime (by decide) (by decide)
  ⟨h.1, h.2.2.2.2.2.1⟩

/-- Claim C19 at the value 300. -/
theorem public_value_round_trip_witness :
    ∃ msg1 : Dutta_Barua_message, db_set_public_value default 300 = some msg1 ∧
      db_get_public_value msg1 = 300 ∧
      msg1.public_value_size = (msg1.public_value.length : Int) :=
  (public_value_round_trip default 300 (by decide)).imp
    (fun _ h => ⟨h.1, h.2.1, h.2.2.1⟩)


theorem mem_honest_messages (signer : Int → DSA_signer) (group : DL_Group) (N : Int)
    (x : Int → Nat) (u : Int) (m : Dutta_Barua_message) :
    m ∈ honest_messages signer group N x u ↔
      (m = honest_r1 signer group x (wrapindex N (u + N - 1)) ∨
       m = honest_r1 signer group x (wrapindex N (u + 1)) ∨
       ∃ j : Int, 1 ≤ j ∧ j ≤ N ∧ m = honest_r2 signer group N x j) := by
  unfold honest_messages
  simp only [List.mem_cons, List.mem_map, List.mem_range]
  constructor
  · rintro (h | h | ⟨i, hi, e⟩)
    · exact Or.inl h
    · exact Or.inr (Or.inl h)
    · have h0 : (0 : Int) ≤ (i : Int) := Int.natCast_nonneg i
      have h1 : ((i : Nat) : Int) < N := by omega
      exact Or.inr (Or.inr ⟨(i : Int) + 1, by omega, by omega, e.symm⟩)
  · rintro (h | h | ⟨j, h1, h2, e⟩)
    · exact Or.inl h
    · exact Or.inr (Or.inl h)
    · refine Or.inr (Or.inr ⟨Int.toNat (j - 1), by omega, ?_⟩)
      rw [e, Int.toNat_of_nonneg (by omega)]
      congr 1
      ring

theorem honest_r1_round (signer : Int → DSA_signer) (group : DL_Group) (x : Int → Nat)
    (j : Int) : (honest_r1 signer group x j).round = 1 ∧ (honest_r1 signer group x j).u = j :=
  ⟨rfl, rfl⟩

theorem honest_r2_round (signer : Int → DSA_signer) (group : DL_Group) (N : Int)
    (x : Int → Nat) (j : Int) :
    (honest_r2 signer group N x j).round = 2 ∧ (honest_r2 signer group N x j).u = j :=
  ⟨rfl, rfl⟩

theorem honest_r1_ne_r2 (signer : Int → DSA_signer) (group : DL_Group) (N : Int)
    (x : Int → Nat) (i j : Int) : honest_r1 signer group x i ≠ honest_r2 signer group N x j := by
  intro h
  have := congrArg Dutta_Barua_message.round h
  rw [(honest_r1_round signer group x i).1, (honest_r2_round signer group N x j).1] at this
  exact absurd this (by decide)

theorem left_neighbour_index (N u : Int) (hu1 : 1 ≤ u) (hu2 : u ≤ N) :
    (u - 2 + N) % N + 1 = wrapindex N (u + N - 1) := by
  rw [wrapindex_eq_emod N _ (by omega) (by omega)]
  congr 2
  ring

theorem right_neighbour_index (N u : Int) (hu1 : 1 ≤ u) (hu2 : u ≤ N) :
    u % N + 1 = wrapindex N (u + 1) := by
  rw [wrapindex_eq_emod N _ (by omega) (by omega)]
  congr 2
  ring

/-- A sorted map with an entry for every index `1..N` and no other key has `N` entries. -/
theorem StdMap.size_of_full {V : Type} (m : StdMap V) (N : Int) (hN : 0 ≤ N)
    (hs : List.Pairwise (fun a b => a < b) (m.entries.map Prod.fst))
    (hr : ∀ k : Int, (m.find k).isSome = true → 1 ≤ k ∧ k ≤ N)
    (hfull : ∀ j : Int, 1 ≤ j → j ≤ N → (m.find j).isSome = true) :
    (m.size : Int) = N := by
  have hnd : (m.entries.map Prod.fst).Nodup := by
    refine List.Pairwise.imp ?_ hs
    intro a b hab
    exact ne_of_lt hab
  have hfin : (m.entries.map Prod.fst).toFinset = Finset.Icc (1 : Int) N := by
    ext q
    rw [List.mem_toFinset, Finset.mem_Icc, ← StdMap.findEntries_isSome_iff]
    exact ⟨hr q, fun h => hfull q h.1 h.2⟩
  have hcard := List.toFinset_card_of_nodup hnd
  rw [hfin, Int.card_Icc, List.length_map] at hcard
  unfold StdMap.size
  omega

/-- Evaluation of `computeKey` on a state holding the honest round-1 results and the
honest round-2 messages of all participants: the check passes and the secret is
`honest_secret`. -/
theorem computeKey_honest (signer : Int → DSA_signer) (group : DL_Group) (N : Int)
    (x : Int → Nat) (u : Int) (s : Dutta_Barua_GKE)
    (hp : Nat.Prime group.p) (hg : ¬ group.p ∣ group.g) (hN : 2 ≤ N)
    (hu1 : 1 ≤ u) (hu2 : u ≤ N)
    (f1 : s.x_i = some { x := x u, group := group }) (f2 : s.participants = N)
    (f3 : s.uid.u = u)
    (f4 : s.r1_results.left = honest_right_key group N x (wrapindex N (u + N - 1)))
    (f5 : s.r1_results.right = honest_right_key group N x u)
    (hM : ∀ j : Int, 1 ≤ j → j ≤ N → s.r2_messages.find j = some (honest_r2 signer group N x j)) :
    computeKey s = (Outcome.returned,
      { computeKey_pushed s with
        shared_secret := some (honest_secret group N x),
        evloop_channel_finished := s.evloop_channel_finished + 1 }) := by
  obtain ⟨n, hn⟩ : ∃ n : Nat, N = (n : Int) + 2 :=
    ⟨Int.toNat (N - 2), by rw [Int.toNat_of_nonneg (by omega)]; ring⟩
  have hM' : ∀ j : Int, 1 ≤ j → j ≤ N →
      s.r2_messages.find j = honest_r2_message signer group N x j := by
    intro j h1 h2
    rw [hM j h1 h2, honest_r2_message_eq signer group N x j hp hg h1 h2]
    rfl
  have hp0 : (DH_PrivateKey.group_p { x := x u, group := group }) ≠ 0 := hp.ne_zero
  have hall : ∀ j : Int, 1 ≤ j → j ≤ N → (s.r2_messages.find j).isSome = true := by
    intro j h1 h2
    rw [hM j h1 h2]
    rfl
  have h := computeKey_eval s { x := x u, group := group } n f1 hp0 (by rw [f2]; exact hn)
    (by rw [f3]; exact hu1) (by rw [f3, f2]; exact hu2) (by rw [f2]; exact hall)
  rw [f2, f3, f4, f5] at h
  have hib : ((n + 1 : Nat) : Int) + 1 ≤ N := by rw [hn]; push_cast; omega
  have hseq := honest_rightkey_seq signer group N x s.r2_messages u hp hg hu1 hu2 hM' (n + 1) hib
  have hlast : wrapindex N (u + ((n + 1 : Nat) : Int)) = wrapindex N (u + N - 1) := by
    congr 1
    rw [hn]; push_cast; ring
  rw [hlast] at hseq
  have hp' : (DH_PrivateKey.group_p { x := x u, group := group }) = group.p := rfl
  rw [hp'] at h
  rw [if_pos hseq] at h
  have hprod : (∏ j in Finset.Icc (1 : Int) N,
      right_key_at (right_keys_upto s.r2_messages N u group.p
        (honest_right_key group N x u) (n + 1)) j)
      = ∏ j in Finset.Icc (1 : Int) N, honest_right_key group N x j := by
    apply Finset.prod_congr rfl
    intro j hj
    rw [Finset.mem_Icc] at hj
    simp only [right_key_at, honest_right_keys_find signer group N x s.r2_messages u n hp hg hn
      hu1 hu2 hM' j hj.1 hj.2, Option.getD_some]
  rw [hprod] at h
  rw [h]
  rfl

/-- Evaluation of `round2` on a state holding the honest round-1 messages of both
neighbours. -/
theorem round2_honest (sg : DSA_signer) (signer : Int → DSA_signer) (group : DL_Group)
    (N : Int) (x : Int → Nat) (u : Int) (s : Dutta_Barua_GKE)
    (hp : Nat.Prime group.p) (hg : ¬ group.p ∣ group.g) (hu1 : 1 ≤ u) (hu2 : u ≤ N)
    (hx : s.x_i = some { x := x u, group := group })
    (hl : s.r1_messages.left = some (honest_r1 signer group x (wrapindex N (u + N - 1))))
    (hr : s.r1_messages.right = some (honest_r1 signer group x (wrapindex N (u + 1)))) :
    (round2 sg s).1 = Outcome.returned ∧
    (round2 sg s).2.r1_results.left = honest_right_key group N x (wrapindex N (u + N - 1)) ∧
    (round2 sg s).2.r1_results.right = honest_right_key group N x u ∧
    (round2 sg s).2.r2_finished = true := by
  have hnd : ∀ j : Int, ¬ group.p ∣ db_get_public_value (honest_r1 signer group x j) := by
    intro j
    unfold honest_r1
    rw [db_get_public_value_round_message]
    exact not_dvd_of_pos_of_lt group.p _ (power_mod_ne_zero group.p group.g (x j) hp hg)
      (power_mod_lt group.p group.g (x j) hp.pos)
  rw [round2_eval sg s { x := x u, group := group } _ _ hl hr hx hp (hnd _) (hnd _)]
  refine ⟨rfl, ?_, ?_, rfl⟩
  · show power_mod (db_get_public_value (honest_r1 signer group x _)) (x u) group.p = _
    unfold honest_r1
    rw [db_get_public_value_round_message, power_mod_power_mod]
    unfold honest_right_key
    rw [wrapindex_succ_pred N u hu1 hu2]
  · show power_mod (db_get_public_value (honest_r1 signer group x _)) (x u) group.p = _
    unfold honest_r1
    rw [db_get_public_value_round_message, power_mod_power_mod]
    unfold honest_right_key
    rw [mul_comm]

theorem HonestCore.r2_keys_in_range {signer : Int → DSA_signer} {group : DL_Group} {N : Int}
    {x : Int → Nat} {u : Int} {D : List Dutta_Barua_message} {s : Dutta_Barua_GKE}
    (h : HonestCore signer group N x u D s) :
    ∀ k : Int, (s.r2_messages.find k).isSome = true → 1 ≤ k ∧ k ≤ N := by
  intro k hk
  obtain ⟨m, hm⟩ := Option.isSome_iff_exists.1 hk
  have := h.r2_honest k m hm
  exact ⟨this.1, this.2.1⟩

/-- Storing an honest round-1 message keeps `HonestCore`. -/
theorem HonestCore.store_round1 {signer : Int → DSA_signer} {group : DL_Group} {N : Int}
    {x : Int → Nat} {u : Int} {D : List Dutta_Barua_message} {s : Dutta_Barua_GKE}
    (h : HonestCore signer group N x u D s) (hu1 : 1 ≤ u) (hu2 : u ≤ N) (j : Int) :
    HonestCore signer group N x u (D ++ [honest_r1 signer group x j])
      { s with r1_messages :=
        { left := if is_left_neighbour s (honest_r1 signer group x j) = true
            then some (honest_r1 signer group x j) else s.r1_messages.left,
          right := if is_right_neighbour s (honest_r1 signer group x j) = true
            then some (honest_r1 signer group x j) else s.r1_messages.right } } := by
  have hL : is_left_neighbour s (honest_r1 signer group x j) = true ↔
      j = wrapindex N (u + N - 1) := by
    unfold is_left_neighbour
    rw [decide_eq_true_eq, h.uid, h.participants, (honest_r1_round signer group x j).2]
    show j = (u - 2 + N) % N + 1 ↔ _
    rw [left_neighbour_index N u hu1 hu2]
  have hR : is_right_neighbour s (honest_r1 signer group x j) = true ↔
      j = wrapindex N (u + 1) := by
    unfold is_right_neighbour
    rw [decide_eq_true_eq, h.uid, h.participants, (honest_r1_round signer group x j).2]
    show j = u % N + 1 ↔ _
    rw [right_neighbour_index N u hu1 hu2]
  have hinj : ∀ i : Int, honest_r1 signer group x i = honest_r1 signer group x j → i = j := by
    intro i hi
    have := congrArg Dutta_Barua_message.u hi
    exact this
  have hD : ∀ i : Int, honest_r2 signer group N x i ∈ D ++ [honest_r1 signer group x j] →
      honest_r2 signer group N x i ∈ D := by
    intro i hi
    rcases List.mem_append.1 hi with hi | hi
    · exact hi
    · exact absurd (List.mem_singleton.1 hi).symm (honest_r1_ne_r2 signer group N x j i)
  exact
    { x_i := h.x_i
      uid := h.uid
      participants := h.participants
      mcastgroup := h.mcastgroup
      channelname := h.channelname
      left_honest := by
        intro m hm
        by_cases hc : is_left_neighbour s (honest_r1 signer group x j) = true
        · simp only [if_pos hc] at hm
          rw [← Option.some.inj hm, hL.1 hc]
        · simp only [if_neg hc] at hm
          exact h.left_honest m hm
      right_honest := by
        intro m hm
        by_cases hc : is_right_neighbour s (honest_r1 signer group x j) = true
        · simp only [if_pos hc] at hm
          rw [← Option.some.inj hm, hR.1 hc]
        · simp only [if_neg hc] at hm
          exact h.right_honest m hm
      left_stored := by
        intro hm
        show (if is_left_neighbour s (honest_r1 signer group x j) = true
          then some (honest_r1 signer group x j) else s.r1_messages.left) = _
        by_cases hc : is_left_neighbour s (honest_r1 signer group x j) = true
        · rw [if_pos hc, hL.1 hc]
        · rw [if_neg hc]
          rcases List.mem_append.1 hm with hm | hm
          · exact h.left_stored hm
          · exact absurd (hL.2 (hinj _ (List.mem_singleton.1 hm)).symm) hc
      right_stored := by
        intro hm
        show (if is_right_neighbour s (honest_r1 signer group x j) = true
          then some (honest_r1 signer group x j) else s.r1_messages.right) = _
        by_cases hc : is_right_neighbour s (honest_r1 signer group x j) = true
        · rw [if_pos hc, hR.1 hc]
        · rw [if_neg hc]
          rcases List.mem_append.1 hm with hm | hm
          · exact h.right_stored hm
          · exact absurd (hR.2 (hinj _ (List.mem_singleton.1 hm)).symm) hc
      sorted := h.sorted
      r2_honest := h.r2_honest
      r2_stored := fun i h1 h2 hi => h.r2_stored i h1 h2 (hD i hi)
      results := h.results
      own := fun hi => h.own (hD u hi)
      round2_posted := by
        intro hm
        have := h.round2_posted hm
        constructor
        · show (if is_left_neighbour s (honest_r1 signer group x j) = true
            then some (honest_r1 signer group x j) else s.r1_messages.left).isSome = true
          split
          · rfl
          · exact this.1
        · show (if is_right_neighbour s (honest_r1 signer group x j) = true
            then some (honest_r1 signer group x j) else s.r1_messages.right).isSome = true
          split
          · rfl
          · exact this.2
      computeKey_posted := h.computeKey_posted
      secret := h.secret }

/-- Storing an honest round-2 message keeps `HonestCore`, provided the own one only arrives
once `r2_finished` is set. -/
theorem HonestCore.store_round2 {signer : Int → DSA_signer} {group : DL_Group} {N : Int}
    {x : Int → Nat} {u : Int} {D : List Dutta_Barua_message} {s : Dutta_Barua_GKE}
    (h : HonestCore signer group N x u D s) (j : Int) (hj1 : 1 ≤ j) (hj2 : j ≤ N)
    (hown : j = u → s.r2_finished = true) :
    HonestCore signer group N x u (D ++ [honest_r2 signer group N x j])
      { s with r2_messages := s.r2_messages.insert j (honest_r2 signer group N x j) } := by
  have hD1 : ∀ i : Int, honest_r1 signer group x i ∈ D ++ [honest_r2 signer group N x j] →
      honest_r1 signer group x i ∈ D := by
    intro i hi
    rcases List.mem_append.1 hi with hi | hi
    · exact hi
    · exact absurd (List.mem_singleton.1 hi) (honest_r1_ne_r2 signer group N x i j)
  have hD2 : ∀ i : Int, honest_r2 signer group N x i ∈ D ++ [honest_r2 signer group N x j] →
      i = j ∨ honest_r2 signer group N x i ∈ D := by
    intro i hi
    rcases List.mem_append.1 hi with hi | hi
    · exact Or.inr hi
    · left
      have := congrArg Dutta_Barua_message.u (List.mem_singleton.1 hi)
      exact this
  exact
    { x_i := h.x_i
      uid := h.uid
      participants := h.participants
      mcastgroup := h.mcastgroup
      channelname := h.channelname
      left_honest := h.left_honest
      right_honest := h.right_honest
      left_stored := fun hi => h.left_stored (hD1 _ hi)
      right_stored := fun hi => h.right_stored (hD1 _ hi)
      sorted := StdMap.sorted_insertEntries _ _ _ h.sorted
      r2_honest := by
        intro k m hm
        have hm' : (s.r2_messages.insert j (honest_r2 signer group N x j)).find k = some m := hm
        rw [StdMap.find_insert] at hm'
        by_cases hk : j = k
        · rw [if_pos hk] at hm'
          rw [← hk, ← Option.some.inj hm']
          exact ⟨hj1, hj2, rfl⟩
        · rw [if_neg hk] at hm'
          exact h.r2_honest k m hm'
      r2_stored := by
        intro i h1 h2 hi
        show (s.r2_messages.insert j (honest_r2 signer group N x j)).find i = _
        rw [StdMap.find_insert]
        by_cases hk : j = i
        · rw [if_pos hk, hk]
        · rw [if_neg hk]
          rcases hD2 i hi with e | hi
          · exact absurd e.symm hk
          · exact h.r2_stored i h1 h2 hi
      results := h.results
      own := by
        intro hi
        rcases hD2 u hi with e | hi
        · exact hown e.symm
        · exact h.own hi
      round2_posted := h.round2_posted
      computeKey_posted := by
        intro hm
        have hc := h.computeKey_posted hm
        refine ⟨hc.1, ?_⟩
        have hfull := StdMap.full_of_size s.r2_messages N h.sorted h.r2_keys_in_range hc.2 j hj1 hj2
        have hlen := StdMap.insertEntries_length_of_mem s.r2_messages.entries j
          (honest_r2 signer group N x j) h.sorted ((StdMap.findEntries_isSome_iff _ _).1 hfull)
        show ((StdMap.insertEntries s.r2_messages.entries j
          (honest_r2 signer group N x j)).length : Int) = N
        rw [hlen]
        exact hc.2
      secret := h.secret }

/-- After the gates of `on_msg`, `HonestCore` still holds and, once every honest message
has been delivered, `computeKey` is posted. -/
theorem HonestInv.after_gates {signer : Int → DSA_signer} {group : DL_Group} {N : Int}
    {x : Int → Nat} {u : Int} {D : List Dutta_Barua_message} {s : Dutta_Barua_GKE}
    (h : HonestCore signer group N x u D s) (hN : 2 ≤ N) (hu1 : 1 ≤ u) (hu2 : u ≤ N) :
    HonestInv signer group N x u D (on_msg_gates s) := by
  obtain ⟨posted, e, h1, h2⟩ := on_msg_gates_frame s
  rw [e]
  constructor
  · exact
      { x_i := h.x_i
        uid := h.uid
        participants := h.participants
        mcastgroup := h.mcastgroup
        channelname := h.channelname
        left_honest := h.left_honest
        right_honest := h.right_honest
        left_stored := h.left_stored
        right_stored := h.right_stored
        sorted := h.sorted
        r2_honest := h.r2_honest
        r2_stored := h.r2_stored
        results := h.results
        own := h.own
        round2_posted := by
          intro hm
          rcases List.mem_append.1 hm with hm | hm
          · exact h.round2_posted hm
          · exact (h1.1 hm).2
        computeKey_posted := by
          intro hm
          rcases List.mem_append.1 hm with hm | hm
          · exact h.computeKey_posted hm
          · have := h2.1 hm
            exact ⟨this.1, by rw [this.2]; exact h.participants⟩
        secret := h.secret }
  · intro hall
    left
    have hfin : s.r2_finished = true := by
      apply h.own
      apply hall
      exact (mem_honest_messages signer group N x u _).2 (Or.inr (Or.inr ⟨u, hu1, hu2, rfl⟩))
    have hfull : ∀ j : Int, 1 ≤ j → j ≤ N → (s.r2_messages.find j).isSome = true := by
      intro j hj1 hj2
      rw [h.r2_stored j hj1 hj2 (hall _ ((mem_honest_messages signer group N x u _).2
        (Or.inr (Or.inr ⟨j, hj1, hj2, rfl⟩))))]
      rfl
    have hsize := StdMap.size_of_full s.r2_messages N (by omega) h.sorted h.r2_keys_in_range hfull
    show Task.computeKey ∈ s.evloop_tasks ++ posted
    exact List.mem_append_right _ (h2.2 ⟨hfin, by rw [hsize]; exact h.participants.symm⟩)

/-- Delivering an honest message the verifier accepts: `on_msg` returns and the invariant
is kept. -/
theorem HonestInv.after_on_msg {signer : Int → DSA_signer} {group : DL_Group} {N : Int}
    {x : Int → Nat} {u : Int} {D : List Dutta_Barua_message} {s : Dutta_Barua_GKE}
    (verifier : DSA_verifier) (msg : Dutta_Barua_message)
    (h : HonestCore signer group N x u D s) (hN : 2 ≤ N) (hu1 : 1 ≤ u) (hu2 : u ≤ N)
    (hmem : msg ∈ honest_messages signer group N x u)
    (hv : verifier.db_verify msg "239.255.76.67:7667" "clock" = true)
    (hown : msg = honest_r2 signer group N x u → s.r2_finished = true) :
    (on_msg verifier s msg).1 = Outcome.returned ∧
    HonestInv signer group N x u (D ++ [msg]) (on_msg verifier s msg).2 := by
  have hv' : verifier.db_verify msg s.mcastgroup s.channelname = true := by
    rw [h.mcastgroup, h.channelname]
    exact hv
  have hr1 : ∀ j : Int, (j = wrapindex N (u + N - 1) ∨ j = wrapindex N (u + 1)) →
      msg = honest_r1 signer group x j →
      (on_msg verifier s msg).1 = Outcome.returned ∧
      HonestInv signer group N x u (D ++ [msg]) (on_msg verifier s msg).2 := by
    intro j hj hm
    subst hm
    have hn : is_neighbour s (honest_r1 signer group x j) = true := by
      unfold is_neighbour is_left_neighbour is_right_neighbour
      rw [h.uid, h.participants, (honest_r1_round signer group x j).2]
      show (decide (j = (u - 2 + N) % N + 1) || decide (j = u % N + 1)) = true
      rw [left_neighbour_index N u hu1 hu2, right_neighbour_index N u hu1 hu2]
      rcases hj with hj | hj
      · simp [hj]
      · simp [hj]
    rw [on_msg_accepted verifier s _ _ (fun _ => hn) hv'
      (on_msg_store_round1 s _ (honest_r1_round signer group x j).1)]
    exact ⟨rfl, HonestInv.after_gates (h.store_round1 hu1 hu2 j) hN hu1 hu2⟩
  rcases (mem_honest_messages signer group N x u msg).1 hmem with hm | hm | ⟨j, hj1, hj2, hm⟩
  · exact hr1 _ (Or.inl rfl) hm
  · exact hr1 _ (Or.inr rfl) hm
  · subst hm
    have hround := (honest_r2_round signer group N x j).1
    have hu := (honest_r2_round signer group N x j).2
    have hst := on_msg_store_round2 s _ hround
    rw [hu] at hst
    rw [on_msg_accepted verifier s _ _
      (fun h1 => absurd (hround.symm.trans h1) (by decide)) hv' hst]
    refine ⟨rfl, HonestInv.after_gates (h.store_round2 j hj1 hj2 ?_) hN hu1 hu2⟩
    intro e
    apply hown
    rw [e]

/-- Running the oldest posted task in an honest execution: it returns and the invariant
is kept. -/
theorem HonestInv.after_run_task {signer : Int → DSA_signer} {group : DL_Group} {N : Int}
    {x : Int → Nat} {u : Int} {D : List Dutta_Barua_message} {s : Dutta_Barua_GKE}
    (sg : DSA_signer) (h : HonestInv signer group N x u D s)
    (hp : Nat.Prime group.p) (hg : ¬ group.p ∣ group.g) (hN : 2 ≤ N)
    (hu1 : 1 ≤ u) (hu2 : u ≤ N) :
    (run_task sg s).1 = Outcome.returned ∧
    HonestInv signer group N x u D (run_task sg s).2 := by
  obtain ⟨hc, hprog⟩ := h
  unfold run_task
  cases ht : s.evloop_tasks with
  | nil => exact ⟨rfl, hc, hprog⟩
  | cons t rest =>
    cases t with
    | round2 =>
      simp only
      have hpost := hc.round2_posted (by rw [ht]; exact List.mem_cons_self _ _)
      obtain ⟨ml, hml⟩ := Option.isSome_iff_exists.1 hpost.1
      obtain ⟨mr, hmr⟩ := Option.isSome_iff_exists.1 hpost.2
      have hl := hc.left_honest ml hml
      have hr := hc.right_honest mr hmr
      subst hl
      subst hr
      obtain ⟨r1, r2, r3, r4⟩ := round2_honest sg signer group N x u
        { s with evloop_tasks := rest } hp hg hu1 hu2 hc.x_i hml hmr
      obtain ⟨f1, f2, f3, f4, f5, f6, f7, f8, f9⟩ :=
        round2_frame sg { s with evloop_tasks := rest }
      refine ⟨r1, ?_, ?_⟩
      · exact
          { x_i := by rw [f5]; exact hc.x_i
            uid := by rw [f2]; exact hc.uid
            participants := by rw [f1]; exact hc.participants
            mcastgroup := by rw [f3]; exact hc.mcastgroup
            channelname := by rw [f4]; exact hc.channelname
            left_honest := by rw [f6]; exact hc.left_honest
            right_honest := by rw [f6]; exact hc.right_honest
            left_stored := by rw [f6]; exact hc.left_stored
            right_stored := by rw [f6]; exact hc.right_stored
            sorted := by rw [f7]; exact hc.sorted
            r2_honest := by rw [f7]; exact hc.r2_honest
            r2_stored := by rw [f7]; exact hc.r2_stored
            results := fun _ => ⟨r2, r3⟩
            own := fun _ => r4
            round2_posted := by
              rw [f8, f6]
              intro hm
              exact hc.round2_posted (by rw [ht]; exact List.mem_cons_of_mem _ hm)
            computeKey_posted := by
              rw [f8, f7]
              intro hm
              exact ⟨r4, (hc.computeKey_posted
                (by rw [ht]; exact List.mem_cons_of_mem _ hm)).2⟩
            secret := by rw [f9]; exact hc.secret }
      · intro hall
        rw [f8, f9]
        rcases hprog hall with hm | hs
        · left
          rw [ht] at hm
          rcases List.mem_cons.1 hm with e | hm
          · cases e
          · exact hm
        · exact Or.inr hs
    | computeKey =>
      simp only
      have hpost := hc.computeKey_posted (by rw [ht]; exact List.mem_cons_self _ _)
      have hfull := StdMap.full_of_size s.r2_messages N hc.sorted hc.r2_keys_in_range hpost.2
      have hM : ∀ j : Int, 1 ≤ j → j ≤ N →
          s.r2_messages.find j = some (honest_r2 signer group N x j) := by
        intro j h1 h2
        obtain ⟨m, hm⟩ := Option.isSome_iff_exists.1 (hfull j h1 h2)
        rw [hm, (hc.r2_honest j m hm).2.2]
      have hres := hc.results hpost.1
      have hcomp := computeKey_honest signer group N x u { s with evloop_tasks := rest }
        hp hg hN hu1 hu2 hc.x_i hc.participants (by rw [show ({ s with evloop_tasks := rest } :
          Dutta_Barua_GKE).uid = s.uid from rfl, hc.uid]) hres.1 hres.2 hM
      rw [hcomp]
      refine ⟨rfl, ?_, fun _ => Or.inr rfl⟩
      exact
        { x_i := hc.x_i
          uid := hc.uid
          participants := hc.participants
          mcastgroup := hc.mcastgroup
          channelname := hc.channelname
          left_honest := hc.left_honest
          right_honest := hc.right_honest
          left_stored := hc.left_stored
          right_stored := hc.right_stored
          sorted := hc.sorted
          r2_honest := hc.r2_honest
          r2_stored := hc.r2_stored
          results := hc.results
          own := hc.own
          round2_posted := by
            intro hm
            exact hc.round2_posted (by rw [ht]; exact List.mem_cons_of_mem _ hm)
          computeKey_posted := by
            intro hm
            exact hc.computeKey_posted (by rw [ht]; exact List.mem_cons_of_mem _ hm)
          secret := by
            intro v hv
            exact (Option.some.inj hv).symm }

theorem HonestInv.holds_after_round1 (signer : Int → DSA_signer) (group : DL_Group) (N : Int)
    (x : Int → Nat) (u : Int) (hp : Nat.Prime group.p) (hg : ¬ group.p ∣ group.g)
    (hu1 : 1 ≤ u) (hu2 : u ≤ N) :
    HonestInv signer group N x u [] (honest_round1 signer group N x u).2 := by
  rw [honest_round1_eq signer group N x u hp hg]
  constructor
  · exact
      { x_i := rfl
        uid := rfl
        participants := rfl
        mcastgroup := rfl
        channelname := rfl
        left_honest := fun m hm => by cases hm
        right_honest := fun m hm => by cases hm
        left_stored := fun hm => absurd hm (List.not_mem_nil _)
        right_stored := fun hm => absurd hm (List.not_mem_nil _)
        sorted := List.Pairwise.nil
        r2_honest := fun j m hm => by cases hm
        r2_stored := fun j _ _ hm => absurd hm (List.not_mem_nil _)
        results := fun hf => by cases hf
        own := fun hm => absurd hm (List.not_mem_nil _)
        round2_posted := fun hm => absurd hm (List.not_mem_nil _)
        computeKey_posted := fun hm => absurd hm (List.not_mem_nil _)
        secret := fun v hv => by cases hv }
  · intro hall
    have := hall _ ((mem_honest_messages signer group N x u _).2
      (Or.inr (Or.inr ⟨u, hu1, hu2, rfl⟩)))
    exact absurd this (List.not_mem_nil _)

theorem HonestInv.after_exec {signer : Int → DSA_signer} {group : DL_Group} {N : Int}
    {x : Int → Nat} {u : Int} (sg : DSA_signer) (verifier : DSA_verifier)
    (hp : Nat.Prime group.p) (hg : ¬ group.p ∣ group.g) (hN : 2 ≤ N)
    (hu1 : 1 ≤ u) (hu2 : u ≤ N)
    (hver : ∀ m, m ∈ honest_messages signer group N x u →
      verifier.db_verify m "239.255.76.67:7667" "clock" = true) :
    ∀ (evs : List Event) (D : List Dutta_Barua_message) (s : Dutta_Barua_GKE),
      HonestInv signer group N x u D s →
      (∀ m, m ∈ delivered evs → m ∈ honest_messages signer group N x u) →
      own_after_round2 sg verifier (honest_r2 signer group N x u) s evs = true →
      (exec sg verifier s evs).1 = Outcome.returned ∧
      HonestInv signer group N x u (D ++ delivered evs) (exec sg verifier s evs).2 := by
  intro evs
  induction evs with
  | nil =>
    intro D s h _ _
    rw [exec_nil]
    refine ⟨rfl, ?_⟩
    simpa [delivered] using h
  | cons e es ih =>
    intro D s h hsub hcausal
    simp only [own_after_round2, Bool.and_eq_true] at hcausal
    have hstep : (dispatch sg verifier s e).1 = Outcome.returned ∧
        HonestInv signer group N x u (D ++ delivered [e]) (dispatch sg verifier s e).2 := by
      cases e with
      | deliver m =>
        have hm : m ∈ honest_messages signer group N x u :=
          hsub m (by simp [delivered])
        have hown : m = honest_r2 signer group N x u → s.r2_finished = true := by
          intro e
          have := hcausal.1
          rw [e, if_pos rfl] at this
          exact this
        exact HonestInv.after_on_msg verifier m h.1 hN hu1 hu2 hm (hver m hm) hown
      | run_task =>
        have := HonestInv.after_run_task sg h hp hg hN hu1 hu2
        simpa [delivered, dispatch] using this
    have hsub' : ∀ m, m ∈ delivered es → m ∈ honest_messages signer group N x u := by
      intro m hm
      apply hsub
      cases e with
      | deliver m1 => exact List.mem_cons_of_mem _ hm
      | run_task => exact hm
    have hd : D ++ delivered (e :: es) = D ++ delivered [e] ++ delivered es := by
      cases e <;> simp [delivered]
    rw [exec_cons, if_pos hstep.1, hd]
    exact ih _ _ hstep.2 hsub' hcausal.2

/-- Claim C13. In an honest run (`N ≥ 2`, prime `p`, generator not divisible by `p`)
let the event loop deliver to participant `u`, after its `round1`, exactly the honest
messages (the round-1 messages of both neighbours and the round-2 messages of all `N`
participants, in any order and arbitrarily interleaved with task runs, the verifier
accepting them), and let it run every posted task. The participant's own round-2 message
is created and published by `round2` alone, so it arrives only after `round2` has run
(`own_after_round2`). Then no dispatch fails and `shared_secret` is the product of the
honest right keys, the same value for every arrival order, in-order delivery included. -/
theorem arrival_order_independence (signer : Int → DSA_signer) (verifier : DSA_verifier)
    (group : DL_Group) (N : Int) (x : Int → Nat) (u : Int) (evs : List Event)
    (hp : Nat.Prime group.p) (hg : ¬ group.p ∣ group.g) (hN : 2 ≤ N)
    (hu1 : 1 ≤ u) (hu2 : u ≤ N)
    (hver : ∀ m, m ∈ honest_messages signer group N x u →
      verifier.db_verify m "239.255.76.67:7667" "clock" = true)
    (hsub : ∀ m, m ∈ delivered evs → m ∈ honest_messages signer group N x u)
    (hall : ∀ m, m ∈ honest_messages signer group N x u → m ∈ delivered evs)
    (hcausal : own_after_round2 (signer u) verifier (honest_r2 signer group N x u)
      (honest_round1 signer group N x u).2 evs = true)
    (hdone : (exec (signer u) verifier (honest_round1 signer group N x u).2
      evs).2.evloop_tasks = []) :
    (exec (signer u) verifier (honest_round1 signer group N x u).2 evs).1
      = Outcome.returned ∧
    (exec (signer u) verifier (honest_round1 signer group N x u).2 evs).2.shared_secret
      = some (honest_secret group N x) := by
  obtain ⟨hret, hinv⟩ := HonestInv.after_exec (signer u) verifier hp hg hN hu1 hu2 hver evs []
    _ (HonestInv.holds_after_round1 signer group N x u hp hg hu1 hu2) hsub hcausal
  refine ⟨hret, ?_⟩
  rw [List.nil_append] at hinv
  rcases hinv.2 hall with hm | hs
  · rw [hdone] at hm
    exact absurd hm (List.not_mem_nil _)
  · exact hs

/-- Remark on the condition `own_after_round2`. At participant 1 of the three-party
example run, take the seven dispatches of the in-order delivery (round 1, `round2`,
round 2, `computeKey`, giving the secret 7) and move the three round-2 messages to the
front. This is no arrival order of a run: the participant's own round-2 message is
delivered before `round2`, which alone creates and publishes it, has run. The last
delivery then finds `r2_finished` unset, `computeKey` is never posted, and after all
posted tasks have run there is no secret. -/
theorem own_message_before_round2_gives_no_secret :
    List.Perm
      (delivered [Event.deliver (example_r2 1), Event.deliver (example_r2 2),
        Event.deliver (example_r2 3), Event.deliver (example_r1 3),
        Event.deliver (example_r1 2), Event.run_task, Event.run_task])
      (delivered [Event.deliver (example_r1 3), Event.deliver (example_r1 2), Event.run_task,
        Event.deliver (example_r2 1), Event.deliver (example_r2 2),
        Event.deliver (example_r2 3), Event.run_task]) ∧
    (exec (example_signer 1) example_verifier example_started_state
      [Event.deliver (example_r1 3), Event.deliver (example_r1 2), Event.run_task,
       Event.deliver (example_r2 1), Event.deliver (example_r2 2),
       Event.deliver (example_r2 3), Event.run_task]).2.evloop_tasks = [] ∧
    (exec (example_signer 1) example_verifier example_started_state
      [Event.deliver (example_r1 3), Event.deliver (example_r1 2), Event.run_task,
       Event.deliver (example_r2 1), Event.deliver (example_r2 2),
       Event.deliver (example_r2 3), Event.run_task]).2.shared_secret = some 7 ∧
    (exec (example_signer 1) example_verifier example_started_state
      [Event.deliver (example_r2 1), Event.deliver (example_r2 2),
       Event.deliver (example_r2 3), Event.deliver (example_r1 3),
       Event.deliver (example_r1 2), Event.run_task, Event.run_task]).1
      = Outcome.returned ∧
    (exec (example_signer 1) example_verifier example_started_state
      [Event.deliver (example_r2 1), Event.deliver (example_r2 2),
       Event.deliver (example_r2 3), Event.deliver (example_r1 3),
       Event.deliver (example_r1 2), Event.run_task, Event.run_task]).2.evloop_tasks = [] ∧
    (exec (example_signer 1) example_verifier example_started_state
      [Event.deliver (example_r2 1), Event.deliver (example_r2 2),
       Event.deliver (example_r2 3), Event.deliver (example_r1 3),
       Event.deliver (example_r1 2), Event.run_task, Event.run_task]).2.shared_secret
      = none := by
  decide

/-- Claim C13 at participant 1 of the three-party example run: an order in
which round-2 messages of the others arrive before round 1 is complete gives the secret
of the in-order delivery. -/
theorem arrival_order_independence_witness :
    (exec (example_signer 1) example_verifier
      (honest_round1 example_signer example_group 3 example_x 1).2
      [Event.deliver (example_r2 3), Event.deliver (example_r1 2),
       Event.deliver (example_r2 2), Event.deliver (example_r1 3), Event.run_task,
       Event.deliver (example_r2 1), Event.run_task]).2.shared_secret =
    (exec (example_signer 1) example_verifier
      (honest_round1 example_signer example_group 3 example_x 1).2
      [Event.deliver (example_r1 3), Event.deliver (example_r1 2), Event.run_task,
       Event.deliver (example_r2 1), Event.deliver (example_r2 2),
       Event.deliver (example_r2 3), Event.run_task]).2.shared_secret :=
  ((arrival_order_independence example_signer example_verifier example_group 3 example_x 1
    [Event.deliver (example_r2 3), Event.deliver (example_r1 2),
     Event.deliver (example_r2 2), Event.deliver (example_r1 3), Event.run_task,
     Event.deliver (example_r2 1), Event.run_task]
    example_group_prime (by decide) (by decide) (by decide) (by decide)
    (fun _ _ => rfl) (by decide) (by decide) (by decide) (by decide)).2).trans
  ((arrival_order_independence example_signer example_verifier example_group 3 example_x 1
    [Event.deliver (example_r1 3), Event.deliver (example_r1 2), Event.run_task,
     Event.deliver (example_r2 1), Event.deliver (example_r2 2),
     Event.deliver (example_r2 3), Event.run_task]
    example_group_prime (by decide) (by decide) (by decide) (by decide)
    (fun _ _ => rfl) (by decide) (by decide) (by decide) (by decide)).2).symm

end lcmsec_impl
